import Mathlib

/-!
Verification development for the AVL-based ordered-set template
(`src/SetTemplate.h`, with the near-duplicate `src/unnamed/part_000`).

The embedding instantiates the key type `T` at `Nat` (a strict total
order, as required by the interface).  A tree node is modelled by the
inductive `RTree`; the C++ null pointer is `RTree.nil`.  Every node
carries a `key` field exactly as the C++ `struct node` does; for a
sentinel node (`is_end = true`) the C++ constructor leaves `key`
default-initialized, which we model as the value `0` (the
default-constructed value of a well-behaved key type).

Parent pointers: the C++ code stores a `parent` back-reference in every
node and keeps it equal to the structural parent at every quiescent
point (each mutation that reattaches a node updates the field in the
same statement, including inside the rotations).  The embedding
therefore represents an iterator position as the path of child steps
from the root (`RPath`, stored child-to-root so that moving to the
parent is `List.tail`), and a read of `it_->parent` becomes dropping
the innermost step.
-/

namespace AVLSet

/-- A tree vertex (`struct node` of `SetTemplate.h`): key, cached height,
left child, right child, `is_end` flag.  `nil` is the null pointer. -/
inductive RTree where
  | nil : RTree
  | node (key : Nat) (height : Nat) (left : RTree) (right : RTree) (isEnd : Bool) : RTree
deriving DecidableEq, Repr

namespace RTree

/-- Source `Set::GetHeight`: height of a vertex, 0 for null. -/
def GetHeight : RTree → Nat
  | nil => 0
  | node _ h _ _ _ => h

/-- Source `Set::GetBalance`: height of left minus height of right as a
signed integer (the C++ computes the difference of two `size_t` heights
and stores it in an `int`; for the small heights that occur this is the
mathematical difference). -/
def GetBalance : RTree → Int
  | nil => 0
  | node _ _ l r _ => (GetHeight l : Int) - (GetHeight r : Int)

/-- Source `Set::FixHeight` applied to a vertex: recompute the cached
height as `max(height left, height right) + 1`.  (On a null pointer the
C++ function does nothing; the embedding never applies it to `nil`
except via this identity case.) -/
def fixHeight : RTree → RTree
  | nil => nil
  | node k _ l r e => node k (max (GetHeight l) (GetHeight r) + 1) l r e

/-- Source `Set::RightRotation`.  The C++ function dereferences
`v->left`, so it is only ever invoked when the left child is non-null;
for the impossible shapes the embedding returns the input unchanged. -/
def RightRotation : RTree → RTree
  | node k h (node qk qh ql qr qe) r e =>
      fixHeight (node qk qh ql (fixHeight (node k h qr r e)) qe)
  | t => t

/-- Source `Set::LeftRotation` (mirror image of `RightRotation`). -/
def LeftRotation : RTree → RTree
  | node k h l (node qk qh ql qr qe) e =>
      fixHeight (node qk qh (fixHeight (node k h l ql e)) qr qe)
  | t => t

/-- Source `Set::FixBalance`: fix the height field, then rotate if the
balance factor is ±2 (with the inner pre-rotation for the zig-zag
cases). -/
def FixBalance : RTree → RTree
  | nil => nil
  | node k h l r e =>
      let v := fixHeight (node k h l r e)
      if GetBalance v = -2 then
        match v with
        | node k' h' l' r' e' =>
            if GetBalance r' > 0 then
              LeftRotation (node k' h' l' (RightRotation r') e')
            else
              LeftRotation (node k' h' l' r' e')
        | nil => nil
      else if GetBalance v = 2 then
        match v with
        | node k' h' l' r' e' =>
            if GetBalance l' < 0 then
              RightRotation (node k' h' (LeftRotation l') r' e')
            else
              RightRotation (node k' h' l' r' e')
        | nil => nil
      else v

/-- Source `Set::Insert`: descend (left at the sentinel or when
`k < key`, right otherwise), create a leaf at a null slot, rebalance on
the way back.  The `parent` argument of the C++ function only seeds the
new leaf's back-reference and has no counterpart in the path-free tree
representation. -/
def Insert : RTree → Nat → RTree
  | nil, k => node k 1 nil nil false
  | node key h l r e, k =>
      if e || k < key then FixBalance (node key h (Insert l k) r e)
      else FixBalance (node key h l (Insert r k) e)

/-- Source `Set::FindMin`: the whole leftmost vertex of a (non-null)
subtree.  The C++ dereferences `v`, so it is never called on null. -/
def FindMin : RTree → RTree
  | nil => nil
  | node k h nil r e => node k h nil r e
  | node _ _ (node lk lh ll lr le) _ _ => FindMin (node lk lh ll lr le)

/-- Source `Set::EraseMin`: remove the leftmost vertex of a subtree,
rebalancing on the way back (the parent-pointer updates of the C++ code
are implicit in the tree representation). -/
def EraseMin : RTree → RTree
  | nil => nil
  | node _ _ nil r _ => r
  | node k h (node lk lh ll lr le) r e =>
      FixBalance (node k h (EraseMin (node lk lh ll lr le)) r e)

/-- Source `Set::Erase`: locate the vertex with key `k` (descending left
at the sentinel) and remove it; the two-child case grafts the in-order
successor `minn = FindMin r` into the removed vertex's position with
`minn->right = EraseMin(r)` and `minn->left = l`, then rebalances. -/
def Erase : RTree → Nat → RTree
  | nil, _ => nil
  | node key h l r e, k =>
      if e || k < key then FixBalance (node key h (Erase l k) r e)
      else if key < k then FixBalance (node key h l (Erase r k) e)
      else
        match r with
        | nil => l
        | node rk rh rl rr re =>
            match FindMin (node rk rh rl rr re) with
            | nil => nil
            | node mk mh _ _ me =>
                FixBalance (node mk mh l (EraseMin (node rk rh rl rr re)) me)

/-- Source `Set::Find`: standard descent; at the sentinel the only
candidate is its left child, compared for equality via the two `<`
tests.  Returns the found vertex, or `none` for the null pointer. -/
def Find : RTree → Nat → Option RTree
  | nil, _ => none
  | node key h l r e, k =>
      if e then
        match l with
        | node lk lh ll lr le =>
            if ¬ lk < k ∧ ¬ k < lk then some (node lk lh ll lr le) else none
        | nil => none
      else if k < key then Find l k
      else if key < k then Find r k
      else some (node key h l r e)

end RTree

/-! ### Iterator positions

An iterator is a node pointer; the embedding represents it as the path
of child steps from the root, innermost step first (`false` = left
child, `true` = right child).  `it_->parent` is `List.tail`, and the
node a position denotes is recovered by `subAt`. -/

abbrev RPath := List Bool

namespace RTree

/-- Follow a root-to-node list of steps. -/
def follow : RTree → List Bool → Option RTree
  | t, [] => some t
  | nil, _ :: _ => none
  | node _ _ l _ _, false :: p => follow l p
  | node _ _ _ r _, true :: p => follow r p

/-- The subtree an iterator position denotes (paths are stored
child-to-root, so we follow the reversal). -/
def subAt (t : RTree) (p : RPath) : Option RTree :=
  follow t p.reverse

/-- Key stored at a position (0 if the position is invalid; valid
positions are guaranteed by the invariants wherever this is read). -/
def keyAt (t : RTree) (p : RPath) : Nat :=
  match subAt t p with
  | some (node k _ _ _ _) => k
  | _ => 0

/-- The `is_end` flag at a position. -/
def isEndAt (t : RTree) (p : RPath) : Bool :=
  match subAt t p with
  | some (node _ _ _ _ e) => e
  | _ => false

/-- Left child at a position. -/
def leftAt (t : RTree) (p : RPath) : RTree :=
  match subAt t p with
  | some (node _ _ l _ _) => l
  | _ => nil

/-- Right child at a position. -/
def rightAt (t : RTree) (p : RPath) : RTree :=
  match subAt t p with
  | some (node _ _ _ r _) => r
  | _ => nil

/-- Descend to the leftmost vertex of the subtree `cur`, extending the
position `p` (the `while (it_->left != nullptr)` loops of the iterator,
and the position of `Set::FindMin`). -/
def leftmostFrom : RTree → RPath → RPath
  | node _ _ (node lk lh ll lr le) _ _, p =>
      leftmostFrom (node lk lh ll lr le) (false :: p)
  | _, p => p

/-- Descend to the rightmost vertex of the subtree `cur`, extending the
position `p` (mirror of `leftmostFrom`). -/
def rightmostFrom : RTree → RPath → RPath
  | node _ _ _ (node rk rh rl rr re) _, p =>
      rightmostFrom (node rk rh rl rr re) (true :: p)
  | _, p => p

/-- Position returned by `Set::begin()`: `FindMin(root_)`. -/
def beginPos (t : RTree) : RPath := leftmostFrom t []

/-- Position of the `end_` sentinel: the rightmost vertex of the tree
(the sentinel stays rightmost throughout, which is what keeps the
stored `end_` pointer valid in the C++ code). -/
def endPos (t : RTree) : RPath := rightmostFrom t []

/-- The upward walk of `SetTemplate.h`'s prefix `operator++`:
`while (!it_->is_end && !(t < it_->key) && it_->parent != nullptr)
it_ = it_->parent;`.  Also `GetGreaterParent` of `part_000`. -/
def upGreater (t : RTree) (tk : Nat) : RPath → RPath
  | [] =>
      -- parent is null: the loop cannot move further
      []
  | d :: p =>
      match subAt t (d :: p) with
      | some (node k _ _ _ e) =>
          if ¬ e ∧ ¬ tk < k then upGreater t tk p else d :: p
      | _ => d :: p

/-- The upward walk of `SetTemplate.h`'s postfix `operator++(int)`: the
same loop but with the `!it_->is_end` test missing, so it compares `t`
against the sentinel's (default-initialized) key and can climb past the
sentinel: `while (!(t < it_->key) && it_->parent != nullptr)`. -/
def upGreaterNoEndCheck (t : RTree) (tk : Nat) : RPath → RPath
  | [] => []
  | d :: p =>
      match subAt t (d :: p) with
      | some (node k _ _ _ _) =>
          if ¬ tk < k then upGreaterNoEndCheck t tk p else d :: p
      | _ => d :: p

/-- The upward walk shared by `SetTemplate.h`'s prefix and postfix
`operator--`: `while (!(it_->key < t) && it_->parent != nullptr)`
(note: no `is_end` test in this file). -/
def upLesserH (t : RTree) (tk : Nat) : RPath → RPath
  | [] => []
  | d :: p =>
      match subAt t (d :: p) with
      | some (node k _ _ _ _) =>
          if ¬ k < tk then upLesserH t tk p else d :: p
      | _ => d :: p

/-- `SetTemplate.h` prefix `operator++` on a position.  From the end
sentinel it stays put; with a right child it moves right then to the
leftmost descendant; otherwise it climbs with `upGreater`.  The loop
condition `!(t < it_->key)` is true at the start node itself (where the
key equals `t`), so the walk begins by moving to the parent. -/
def incr (t : RTree) (p : RPath) : RPath :=
  match subAt t p with
  | some (node k _ _ r e) =>
      if e then p
      else
        match r with
        | node rk rh rl rr re => leftmostFrom (node rk rh rl rr re) (true :: p)
        | nil => upGreater t k p
  | _ => p

/-- `SetTemplate.h` postfix `operator++(int)` on a position: identical
to `incr` except that the upward walk lacks the `is_end` test. -/
def postfixIncrH (t : RTree) (p : RPath) : RPath :=
  match subAt t p with
  | some (node k _ _ r _e) =>
      if _e then p
      else
        match r with
        | node rk rh rl rr re => leftmostFrom (node rk rh rl rr re) (true :: p)
        | nil => upGreaterNoEndCheck t k p
  | _ => p

/-- `SetTemplate.h` prefix `operator--` on a position.  From the end
sentinel: move to the left child if present, else to the parent.  With
a left child: move left then to the rightmost descendant.  Otherwise:
if the parent is null stay; if the parent is the sentinel jump to the
sentinel's parent (staying put when that is null); then climb with
`upLesserH`. -/
def decr (t : RTree) (p : RPath) : RPath :=
  match subAt t p with
  | some (node k _ l _ e) =>
      if e then
        match l with
        | node _ _ _ _ _ => false :: p
        | nil => p.tail
      else
        match l with
        | node lk lh ll lr le => rightmostFrom (node lk lh ll lr le) (false :: p)
        | nil =>
            match p with
            | [] => []
            | _ :: p' =>
                if isEndAt t p' then
                  match p' with
                  | [] => p
                  | _ :: p'' => upLesserH t k p''
                else upLesserH t k p
  | _ => p

end RTree

namespace P000

open RTree

/-- `part_000`'s `iterator::GetGreaterParent`: the upward walk of both
its increment operators, including the `!v->is_end` test. -/
def GetGreaterParent (t : RTree) (tk : Nat) (p : RPath) : RPath :=
  upGreater t tk p

/-- `part_000`'s postfix `operator++(int)`: right-then-leftmost when a
right child exists (`GetLeftmost`), otherwise `GetGreaterParent`. -/
def postfixIncrP (t : RTree) (p : RPath) : RPath :=
  match subAt t p with
  | some (node k _ _ r e) =>
      if e then p
      else
        match r with
        | node rk rh rl rr re => leftmostFrom (node rk rh rl rr re) (true :: p)
        | nil => GetGreaterParent t k p
  | _ => p

end P000

/-! ### The public container -/

open RTree

/-- The private state of `Set`: the root pointer and the element count.
The `end_` pointer is not stored: the sentinel stays the rightmost
vertex, so the stored pointer always denotes the position `endPos`. -/
structure SetModel where
  root : RTree
  size : Nat
deriving DecidableEq, Repr

namespace SetModel

/-- The default constructor: a lone sentinel, size 0. -/
def empty : SetModel := ⟨RTree.node 0 1 RTree.nil RTree.nil true, 0⟩

/-- Public `Set::insert`: if `Find` fails, bump the size and insert. -/
def insert (s : SetModel) (k : Nat) : SetModel :=
  if (Find s.root k).isSome then s
  else ⟨Insert s.root k, s.size + 1⟩

/-- Public `Set::erase`: if `Find` succeeds, drop the size and erase. -/
def erase (s : SetModel) (k : Nat) : SetModel :=
  if (Find s.root k).isSome then ⟨Erase s.root k, s.size - 1⟩
  else s

/-- The states reachable from the default constructor by the public
mutators. -/
inductive Reachable : SetModel → Prop where
  | empty : Reachable SetModel.empty
  | insert {s : SetModel} (k : Nat) : Reachable s → Reachable (s.insert k)
  | erase {s : SetModel} (k : Nat) : Reachable s → Reachable (s.erase k)

end SetModel

/-! ### Lookup returning positions

`Set::find` and `Set::lower_bound` hand out iterators, so the embedding
also needs path-returning variants of the two descent helpers.  They
perform exactly the same comparisons as `Find` and `LowerBound` and
additionally record the path taken. -/

namespace RTree

/-- Path-returning `Set::Find` (same descent, same comparisons; `p` is
the position of `v`).  `none` is the null-pointer result. -/
def FindPos : RTree → RPath → Nat → Option RPath
  | nil, _, _ => none
  | node key _ l r e, p, k =>
      if e then
        match l with
        | node lk _ _ _ _ =>
            if ¬ lk < k ∧ ¬ k < lk then some (false :: p) else none
        | nil => none
      else if k < key then FindPos l (false :: p) k
      else if key < k then FindPos r (true :: p) k
      else some p

/-- Path-returning `Set::LowerBound` (the private raw descent): `p` is
the position of `v` and `pp` the position of `par`; the parent is
passed along on every recursive step, and returned when the descent
falls off a null slot.  At the sentinel, its left child is returned
when that child's key is not less than `k`, else the sentinel itself.
The initial call passes `par = nullptr`; that value is only returned
when the root is null, which never happens, so the embedding seeds the
parent position with `[]`. -/
def LowerBoundPos : RTree → RPath → RPath → Nat → RPath
  | nil, _, pp, _ => pp
  | node key _ l r e, p, pp, k =>
      if e then
        match l with
        | node lk _ _ _ _ => if ¬ lk < k then false :: p else p
        | nil => p
      else if k < key then LowerBoundPos l (false :: p) p k
      else if key < k then LowerBoundPos r (true :: p) p k
      else p
termination_by t _ _ _ => t
decreasing_by all_goals { simp_wf; omega }

/-- The corrective sweep of the public `Set::lower_bound`:
`while (iter != e && *iter < k) ++iter;`.  The C++ loop is bounded by
the in-order traversal reaching `end_`; the embedding supplies the
fuel explicitly (`lower_bound` passes one more than the number of
vertices, which the correctness proof shows is never exhausted). -/
def sweep (t : RTree) (k : Nat) : Nat → RPath → RPath
  | 0, p => p
  | fuel + 1, p =>
      if p ≠ endPos t ∧ keyAt t p < k then sweep t k fuel (incr t p)
      else p

/-- Number of vertices (sentinel included), used only as sweep fuel. -/
def countNodes : RTree → Nat
  | nil => 0
  | node _ _ l r _ => countNodes l + countNodes r + 1

end RTree

namespace SetModel

open RTree

/-- Public `Set::find`: the position of the vertex `Find` locates, or
the `end_` position when `Find` returns null. -/
def find (s : SetModel) (k : Nat) : RPath :=
  match FindPos s.root [] k with
  | some p => p
  | none => endPos s.root

/-- Public `Set::lower_bound`: the raw descent followed by the
corrective sweep. -/
def lower_bound (s : SetModel) (k : Nat) : RPath :=
  sweep s.root k (countNodes s.root + 1) (LowerBoundPos s.root [] [] k)

end SetModel

/-! ### Invariants

The predicates below state the representation invariant the spec
describes; all are executable.  `keys` is the in-order list of real
(non-sentinel) keys. -/

namespace RTree

/-- In-order list of the keys of the real (non-sentinel) vertices. -/
def keys : RTree → List Nat
  | nil => []
  | node k _ l r e => keys l ++ (if e then [] else [k]) ++ keys r

/-- No sentinel anywhere in the subtree. -/
def realB : RTree → Bool
  | nil => true
  | node _ _ l r e => !e && realB l && realB r

/-- The sentinel shape invariant: the right spine of the tree consists
of real vertices whose left subtrees are real, ending at the unique
sentinel, whose left subtree is real and whose right child is null. -/
def spineB : RTree → Bool
  | nil => false
  | node _ _ l r e => if e then realB l && decide (r = nil) else realB l && spineB r

/-- Cached heights are correct: every vertex's `height` field equals
one plus the maximum of its children's heights. -/
def heightsOKB : RTree → Bool
  | nil => true
  | node _ h l r _ =>
      heightsOKB l && heightsOKB r && decide (h = max (GetHeight l) (GetHeight r) + 1)

/-- The AVL balance condition at every vertex (sentinel included):
the children's heights differ by at most one. -/
def balancedB : RTree → Bool
  | nil => true
  | node _ _ l r _ =>
      balancedB l && balancedB r &&
        decide (GetHeight l ≤ GetHeight r + 1) && decide (GetHeight r ≤ GetHeight l + 1)

/-- BST order, with the sentinel acting as "greater than every key":
at a real vertex all real keys to the left are smaller and all real
keys to the right are larger; at a sentinel the left subtree is real
and the right child is null. -/
def ordB : RTree → Bool
  | nil => true
  | node k _ l r e =>
      if e then realB l && ordB l && decide (r = nil)
      else
        ordB l && ordB r && (keys l).all (fun x => x < k) && (keys r).all (fun x => k < x)

/-- The strengthened sentinel invariant (claim C10): along the right
spine, the sentinel's left child has height at most 1, i.e. is null or
a leaf. -/
def endLeftSmall : RTree → Bool
  | nil => true
  | node _ _ l r e => if e then decide (GetHeight l ≤ 1) else endLeftSmall r

/-- The full representation invariant of a reachable tree. -/
def Inv (t : RTree) : Bool :=
  ordB t && spineB t && heightsOKB t && balancedB t && endLeftSmall t

/-! ### Unfolding characterizations of the predicates -/

@[simp] theorem GetHeight_nil : GetHeight nil = 0 := rfl

@[simp] theorem GetHeight_node (k h : Nat) (l r : RTree) (e : Bool) :
    GetHeight (node k h l r e) = h := rfl

@[simp] theorem keys_nil : keys nil = [] := rfl

@[simp] theorem keys_node (k h : Nat) (l r : RTree) (e : Bool) :
    keys (node k h l r e) = keys l ++ (if e then [] else [k]) ++ keys r := rfl

@[simp] theorem realB_nil : realB nil = true := rfl

@[simp] theorem realB_node (k h : Nat) (l r : RTree) (e : Bool) :
    realB (node k h l r e) = true ↔ e = false ∧ realB l = true ∧ realB r = true := by
  simp [realB, Bool.and_eq_true, Bool.not_eq_true']
  tauto

@[simp] theorem spineB_nil : spineB nil = false := rfl

theorem spineB_node (k h : Nat) (l r : RTree) (e : Bool) :
    spineB (node k h l r e) = true ↔
      (if e then realB l = true ∧ r = nil else realB l = true ∧ spineB r = true) := by
  cases e <;> simp [spineB, Bool.and_eq_true]

@[simp] theorem spineB_node_true (k h : Nat) (l r : RTree) :
    spineB (node k h l r true) = true ↔ realB l = true ∧ r = nil := by
  simp [spineB_node]

@[simp] theorem spineB_node_false (k h : Nat) (l r : RTree) :
    spineB (node k h l r false) = true ↔ realB l = true ∧ spineB r = true := by
  simp [spineB_node]

@[simp] theorem heightsOKB_nil : heightsOKB nil = true := rfl

@[simp] theorem heightsOKB_node (k h : Nat) (l r : RTree) (e : Bool) :
    heightsOKB (node k h l r e) = true ↔
      heightsOKB l = true ∧ heightsOKB r = true ∧
        h = max (GetHeight l) (GetHeight r) + 1 := by
  simp [heightsOKB, Bool.and_eq_true, and_assoc]

@[simp] theorem balancedB_nil : balancedB nil = true := rfl

@[simp] theorem balancedB_node (k h : Nat) (l r : RTree) (e : Bool) :
    balancedB (node k h l r e) = true ↔
      balancedB l = true ∧ balancedB r = true ∧
        GetHeight l ≤ GetHeight r + 1 ∧ GetHeight r ≤ GetHeight l + 1 := by
  simp [balancedB, Bool.and_eq_true, and_assoc]

@[simp] theorem ordB_nil : ordB nil = true := rfl

@[simp] theorem ordB_node_true (k h : Nat) (l r : RTree) :
    ordB (node k h l r true) = true ↔
      realB l = true ∧ ordB l = true ∧ r = nil := by
  simp [ordB, Bool.and_eq_true, and_assoc]

@[simp] theorem ordB_node_false (k h : Nat) (l r : RTree) :
    ordB (node k h l r false) = true ↔
      ordB l = true ∧ ordB r = true ∧
        (∀ x ∈ keys l, x < k) ∧ (∀ x ∈ keys r, k < x) := by
  simp [ordB, Bool.and_eq_true, List.all_eq_true, and_assoc]

@[simp] theorem endLeftSmall_nil : endLeftSmall nil = true := rfl

@[simp] theorem endLeftSmall_node_true (k h : Nat) (l r : RTree) :
    endLeftSmall (node k h l r true) = true ↔ GetHeight l ≤ 1 := by
  simp [endLeftSmall]

@[simp] theorem endLeftSmall_node_false (k h : Nat) (l r : RTree) :
    endLeftSmall (node k h l r false) = true ↔ endLeftSmall r = true := by
  simp [endLeftSmall]

theorem Inv_iff (t : RTree) :
    Inv t = true ↔
      ordB t = true ∧ spineB t = true ∧ heightsOKB t = true ∧
        balancedB t = true ∧ endLeftSmall t = true := by
  simp [Inv, Bool.and_eq_true, and_assoc]

/-- With correct cached heights, a vertex of height at most 1 is null or
a childless leaf. -/
theorem height_le_one (t : RTree) (hOK : heightsOKB t = true)
    (hle : GetHeight t ≤ 1) :
    t = nil ∨ ∃ k e, t = node k 1 nil nil e := by
  cases t with
  | nil => exact Or.inl rfl
  | node k h l r e =>
      rw [heightsOKB_node] at hOK
      obtain ⟨hl, hr, hh⟩ := hOK
      simp only [GetHeight_node] at hle
      refine Or.inr ⟨k, e, ?_⟩
      have hl0 : GetHeight l = 0 := by omega
      have hr0 : GetHeight r = 0 := by omega
      have hln : l = nil := by
        cases l with
        | nil => rfl
        | node k' h' l' r' e' =>
            rw [heightsOKB_node] at hl
            simp only [GetHeight_node] at hl0
            omega
      have hrn : r = nil := by
        cases r with
        | nil => rfl
        | node k' h' l' r' e' =>
            rw [heightsOKB_node] at hr
            simp only [GetHeight_node] at hr0
            omega
      subst hln hrn
      simp only [GetHeight_nil] at hh
      simp [hh]

/-- A subtree with no sentinel and no keys is null. -/
theorem realB_keys_nil (t : RTree) (hreal : realB t = true)
    (hk : keys t = []) : t = nil := by
  cases t with
  | nil => rfl
  | node k h l r e =>
      rw [realB_node] at hreal
      obtain ⟨he, -, -⟩ := hreal
      subst he
      simp at hk

/-! ### Behaviour of FixBalance -/

@[simp] theorem GetBalance_nil : GetBalance nil = 0 := rfl

@[simp] theorem GetBalance_node (k h : Nat) (l r : RTree) (e : Bool) :
    GetBalance (node k h l r e) = (GetHeight l : Int) - (GetHeight r : Int) := rfl

/-- Branch-level description of `FixBalance` at a vertex. -/
theorem FixBalance_eq (k h : Nat) (l r : RTree) (e : Bool) :
    FixBalance (node k h l r e) =
      if (GetHeight l : Int) - (GetHeight r : Int) = -2 then
        if GetBalance r > 0 then
          LeftRotation (node k (max (GetHeight l) (GetHeight r) + 1) l (RightRotation r) e)
        else
          LeftRotation (node k (max (GetHeight l) (GetHeight r) + 1) l r e)
      else if (GetHeight l : Int) - (GetHeight r : Int) = 2 then
        if GetBalance l < 0 then
          RightRotation (node k (max (GetHeight l) (GetHeight r) + 1) (LeftRotation l) r e)
        else
          RightRotation (node k (max (GetHeight l) (GetHeight r) + 1) l r e)
      else node k (max (GetHeight l) (GetHeight r) + 1) l r e := by
  rfl

/-- A non-zero height forces a vertex shape. -/
theorem pos_height_node (t : RTree) (hpos : 0 < GetHeight t) :
    ∃ k h l r e, t = node k h l r e := by
  cases t with
  | nil => simp at hpos
  | node k h l r e => exact ⟨k, h, l, r, e, rfl⟩

/-- Height and balance correctness of `FixBalance`: when the children
are height-correct and balanced and differ in height by at most two,
the result is height-correct and balanced; its height is the naive
height or one less, and exactly the naive height when the children
already differ by at most one. -/
theorem FixBalance_hb (k h : Nat) (l r : RTree) (e : Bool)
    (hOKl : heightsOKB l = true) (hOKr : heightsOKB r = true)
    (hbl : balancedB l = true) (hbr : balancedB r = true)
    (hd1 : GetHeight l ≤ GetHeight r + 2) (hd2 : GetHeight r ≤ GetHeight l + 2) :
    heightsOKB (FixBalance (node k h l r e)) = true ∧
      balancedB (FixBalance (node k h l r e)) = true ∧
      (GetHeight (FixBalance (node k h l r e)) = max (GetHeight l) (GetHeight r) + 1 ∨
        GetHeight (FixBalance (node k h l r e)) + 1 = max (GetHeight l) (GetHeight r) + 1) ∧
      (GetHeight l ≤ GetHeight r + 1 → GetHeight r ≤ GetHeight l + 1 →
        GetHeight (FixBalance (node k h l r e)) = max (GetHeight l) (GetHeight r) + 1) := by
  rw [FixBalance_eq]
  by_cases hm2 : (GetHeight l : Int) - (GetHeight r : Int) = -2
  · -- right-heavy: GetHeight r = GetHeight l + 2
    have hr2 : GetHeight r = GetHeight l + 2 := by omega
    obtain ⟨rk, rh, rl, rr, re, hrn⟩ := pos_height_node r (by omega)
    subst hrn
    rw [heightsOKB_node] at hOKr
    obtain ⟨hOKrl, hOKrr, hrh⟩ := hOKr
    rw [balancedB_node] at hbr
    obtain ⟨hbrl, hbrr, hbr1, hbr2⟩ := hbr
    simp only [GetHeight_node] at *
    rw [if_pos hm2]
    by_cases hpos : GetBalance (node rk rh rl rr re) > 0
    · -- zig-zag case: rotate the right child right first
      rw [if_pos hpos]
      simp only [GetBalance_node, GetHeight_node] at hpos
      have hab : GetHeight rl = GetHeight rr + 1 := by omega
      obtain ⟨sk, sh, sl, sr, se, hrln⟩ := pos_height_node rl (by omega)
      subst hrln
      rw [heightsOKB_node] at hOKrl
      obtain ⟨hOKsl, hOKsr, hsh⟩ := hOKrl
      rw [balancedB_node] at hbrl
      obtain ⟨hbsl, hbsr, hbs1, hbs2⟩ := hbrl
      simp only [GetHeight_node] at *
      simp only [RightRotation, LeftRotation, fixHeight]
      refine ⟨?_, ?_, ?_, ?_⟩
      · rw [heightsOKB_node, heightsOKB_node, heightsOKB_node]
        exact ⟨⟨hOKl, hOKsl, rfl⟩, ⟨hOKsr, hOKrr, rfl⟩, rfl⟩
      · rw [balancedB_node, balancedB_node, balancedB_node]
        refine ⟨⟨hbl, hbsl, ?_, ?_⟩, ⟨hbsr, hbrr, ?_, ?_⟩, ?_, ?_⟩ <;>
          (try simp only [GetHeight_node]) <;> omega
      · simp only [GetHeight_node]
        omega
      · intro hc1 hc2
        omega
    · -- straight case: a single left rotation
      rw [if_neg hpos]
      simp only [GetBalance_node, GetHeight_node] at hpos
      have hab : GetHeight rl ≤ GetHeight rr := by omega
      simp only [LeftRotation, fixHeight]
      refine ⟨?_, ?_, ?_, ?_⟩
      · rw [heightsOKB_node, heightsOKB_node]
        exact ⟨⟨hOKl, hOKrl, rfl⟩, hOKrr, rfl⟩
      · rw [balancedB_node, balancedB_node]
        refine ⟨⟨hbl, hbrl, ?_, ?_⟩, hbrr, ?_, ?_⟩ <;>
          (try simp only [GetHeight_node]) <;> omega
      · simp only [GetHeight_node]
        omega
      · intro hc1 hc2
        omega
  · rw [if_neg hm2]
    by_cases hp2 : (GetHeight l : Int) - (GetHeight r : Int) = 2
    · -- left-heavy: GetHeight l = GetHeight r + 2
      have hl2 : GetHeight l = GetHeight r + 2 := by omega
      obtain ⟨lk, lh, ll, lr, le, hln⟩ := pos_height_node l (by omega)
      subst hln
      rw [heightsOKB_node] at hOKl
      obtain ⟨hOKll, hOKlr, hlh⟩ := hOKl
      rw [balancedB_node] at hbl
      obtain ⟨hbll, hblr, hbl1, hbl2⟩ := hbl
      simp only [GetHeight_node] at *
      rw [if_pos hp2]
      by_cases hneg : GetBalance (node lk lh ll lr le) < 0
      · -- zig-zag case: rotate the left child left first
        rw [if_pos hneg]
        simp only [GetBalance_node, GetHeight_node] at hneg
        have hab : GetHeight lr = GetHeight ll + 1 := by omega
        obtain ⟨sk, sh, sl, sr, se, hlrn⟩ := pos_height_node lr (by omega)
        subst hlrn
        rw [heightsOKB_node] at hOKlr
        obtain ⟨hOKsl, hOKsr, hsh⟩ := hOKlr
        rw [balancedB_node] at hblr
        obtain ⟨hbsl, hbsr, hbs1, hbs2⟩ := hblr
        simp only [GetHeight_node] at *
        simp only [LeftRotation, RightRotation, fixHeight]
        refine ⟨?_, ?_, ?_, ?_⟩
        · rw [heightsOKB_node, heightsOKB_node, heightsOKB_node]
          exact ⟨⟨hOKll, hOKsl, rfl⟩, ⟨hOKsr, hOKr, rfl⟩, rfl⟩
        · rw [balancedB_node, balancedB_node, balancedB_node]
          refine ⟨⟨hbll, hbsl, ?_, ?_⟩, ⟨hbsr, hbr, ?_, ?_⟩, ?_, ?_⟩ <;>
            (try simp only [GetHeight_node]) <;> omega
        · simp only [GetHeight_node]
          omega
        · intro hc1 hc2
          omega
      · -- straight case: a single right rotation
        rw [if_neg hneg]
        simp only [GetBalance_node, GetHeight_node] at hneg
        have hab : GetHeight lr ≤ GetHeight ll := by omega
        simp only [RightRotation, fixHeight]
        refine ⟨?_, ?_, ?_, ?_⟩
        · rw [heightsOKB_node, heightsOKB_node]
          exact ⟨hOKll, ⟨hOKlr, hOKr, rfl⟩, rfl⟩
        · rw [balancedB_node, balancedB_node]
          refine ⟨hbll, ⟨hblr, hbr, ?_, ?_⟩, ?_, ?_⟩ <;>
            (try simp only [GetHeight_node]) <;> omega
        · simp only [GetHeight_node]
          omega
        · intro hc1 hc2
          omega
    · -- already balanced: only the height field is fixed
      rw [if_neg hp2]
      refine ⟨?_, ?_, Or.inl rfl, fun _ _ => rfl⟩
      · rw [heightsOKB_node]
        exact ⟨hOKl, hOKr, rfl⟩
      · rw [balancedB_node]
        exact ⟨hbl, hbr, by omega, by omega⟩


/-- Real subtrees satisfy the sentinel clauses of `ordB` vacuously:
`ordB` restricted to real trees is plain BST order. -/
theorem spineB_ne_nil (t : RTree) (h : spineB t = true) : t ≠ nil := by
  intro hn; subst hn; simp at h

/-- With correct cached heights, only the null pointer has height 0. -/
theorem height_zero_nil (t : RTree) (hOK : heightsOKB t = true)
    (h0 : GetHeight t = 0) : t = nil := by
  cases t with
  | nil => rfl
  | node k h l r e =>
      rw [heightsOKB_node] at hOK
      simp only [GetHeight_node] at h0
      omega

/-- A tree with no sentinel satisfies the sentinel-leaf condition
vacuously. -/
theorem endLeftSmall_of_realB (t : RTree) (hreal : realB t = true) :
    endLeftSmall t = true := by
  induction t with
  | nil => rfl
  | node k h l r e ihl ihr =>
      rw [realB_node] at hreal
      obtain ⟨he, -, hr⟩ := hreal
      subst he
      rw [endLeftSmall_node_false]
      exact ihr hr

/-! ### Rotations preserve keys, realness and the spine shape -/

theorem keys_fixHeight (t : RTree) : keys (fixHeight t) = keys t := by
  cases t <;> simp [fixHeight]

theorem keys_RightRotation (t : RTree) : keys (RightRotation t) = keys t := by
  cases t with
  | nil => rfl
  | node k h l r e =>
      cases l with
      | nil => rfl
      | node qk qh ql qr qe => simp [RightRotation, fixHeight]

theorem keys_LeftRotation (t : RTree) : keys (LeftRotation t) = keys t := by
  cases t with
  | nil => rfl
  | node k h l r e =>
      cases r with
      | nil => rfl
      | node qk qh ql qr qe => simp [LeftRotation, fixHeight]

theorem keys_FixBalance (k h : Nat) (l r : RTree) (e : Bool) :
    keys (FixBalance (node k h l r e)) = keys (node k h l r e) := by
  rw [FixBalance_eq]
  by_cases hm2 : (GetHeight l : Int) - (GetHeight r : Int) = -2
  · rw [if_pos hm2]
    by_cases hpos : GetBalance r > 0
    · rw [if_pos hpos, keys_LeftRotation]
      simp [keys_RightRotation]
    · rw [if_neg hpos, keys_LeftRotation]
      simp
  · rw [if_neg hm2]
    by_cases hp2 : (GetHeight l : Int) - (GetHeight r : Int) = 2
    · rw [if_pos hp2]
      by_cases hneg : GetBalance l < 0
      · rw [if_pos hneg, keys_RightRotation]
        simp [keys_LeftRotation]
      · rw [if_neg hneg, keys_RightRotation]
        simp
    · rw [if_neg hp2]
      simp

theorem realB_fixHeight (t : RTree) (h : realB t = true) :
    realB (fixHeight t) = true := by
  cases t with
  | nil => rfl
  | node k h' l r e => exact h

theorem realB_RightRotation (t : RTree) (h : realB t = true) :
    realB (RightRotation t) = true := by
  cases t with
  | nil => rfl
  | node k h' l r e =>
      cases l with
      | nil => exact h
      | node qk qh ql qr qe =>
          rw [realB_node] at h
          obtain ⟨he, hl, hr⟩ := h
          rw [realB_node] at hl
          obtain ⟨hqe, hql, hqr⟩ := hl
          subst he hqe
          simp [RightRotation, fixHeight, hql, hqr, hr]

theorem realB_LeftRotation (t : RTree) (h : realB t = true) :
    realB (LeftRotation t) = true := by
  cases t with
  | nil => rfl
  | node k h' l r e =>
      cases r with
      | nil => exact h
      | node qk qh ql qr qe =>
          rw [realB_node] at h
          obtain ⟨he, hl, hr⟩ := h
          rw [realB_node] at hr
          obtain ⟨hqe, hql, hqr⟩ := hr
          subst he hqe
          simp [LeftRotation, fixHeight, hl, hql, hqr]

theorem realB_FixBalance (k h : Nat) (l r : RTree) (e : Bool)
    (hreal : realB (node k h l r e) = true) :
    realB (FixBalance (node k h l r e)) = true := by
  rw [realB_node] at hreal
  obtain ⟨he, hl, hr⟩ := hreal
  subst he
  rw [FixBalance_eq]
  by_cases hm2 : (GetHeight l : Int) - (GetHeight r : Int) = -2
  · rw [if_pos hm2]
    by_cases hpos : GetBalance r > 0
    · rw [if_pos hpos]
      refine realB_LeftRotation _ ?_
      rw [realB_node]
      exact ⟨rfl, hl, realB_RightRotation _ hr⟩
    · rw [if_neg hpos]
      refine realB_LeftRotation _ ?_
      rw [realB_node]
      exact ⟨rfl, hl, hr⟩
  · rw [if_neg hm2]
    by_cases hp2 : (GetHeight l : Int) - (GetHeight r : Int) = 2
    · rw [if_pos hp2]
      by_cases hneg : GetBalance l < 0
      · rw [if_pos hneg]
        refine realB_RightRotation _ ?_
        rw [realB_node]
        exact ⟨rfl, realB_LeftRotation _ hl, hr⟩
      · rw [if_neg hneg]
        refine realB_RightRotation _ ?_
        rw [realB_node]
        exact ⟨rfl, hl, hr⟩
    · rw [if_neg hp2]
      rw [realB_node]
      exact ⟨rfl, hl, hr⟩

/-! ### Rotations preserve BST order and the spine shape -/

theorem ordB_RightRotation_real (k h qk qh : Nat) (ql qr r : RTree) (e : Bool)
    (hord : ordB (node k h (node qk qh ql qr false) r e) = true) :
    ordB (RightRotation (node k h (node qk qh ql qr false) r e)) = true := by
  cases e with
  | true =>
      rw [ordB_node_true] at hord
      obtain ⟨hreal, hq, hrn⟩ := hord
      rw [realB_node] at hreal
      obtain ⟨-, hrql, hrqr⟩ := hreal
      rw [ordB_node_false] at hq
      obtain ⟨hoql, hoqr, hbql, hbqr⟩ := hq
      subst hrn
      simp only [RightRotation, fixHeight]
      rw [ordB_node_false]
      refine ⟨hoql, ?_, hbql, ?_⟩
      · rw [ordB_node_true]
        exact ⟨hrqr, hoqr, rfl⟩
      · intro x hx
        simp only [keys_node, keys_nil] at hx
        simp at hx
        exact hbqr x hx
  | false =>
      rw [ordB_node_false] at hord
      obtain ⟨hq, hr, hbq, hbr⟩ := hord
      rw [ordB_node_false] at hq
      obtain ⟨hoql, hoqr, hbql, hbqr⟩ := hq
      have hkq : qk < k := by
        refine hbq qk ?_
        simp [keys_node]
      simp only [RightRotation, fixHeight]
      rw [ordB_node_false]
      refine ⟨hoql, ?_, hbql, ?_⟩
      · rw [ordB_node_false]
        refine ⟨hoqr, hr, ?_, hbr⟩
        intro x hx
        refine hbq x ?_
        simp only [keys_node, List.mem_append]
        tauto
      · intro x hx
        simp only [keys_node, List.mem_append] at hx
        simp at hx
        rcases hx with (hx | hx) | hx
        · exact hbqr x hx
        · subst hx
          exact hkq
        · exact lt_trans hkq (hbr x hx)

theorem ordB_LeftRotation_any (k h rk rh : Nat) (l rl rr : RTree) (re e : Bool)
    (hord : ordB (node k h l (node rk rh rl rr re) e) = true)
    (hreall : realB l = true) :
    ordB (LeftRotation (node k h l (node rk rh rl rr re) e)) = true := by
  cases e with
  | true =>
      rw [ordB_node_true] at hord
      exact absurd hord.2.2 (by simp)
  | false =>
      rw [ordB_node_false] at hord
      obtain ⟨hl, hr, hbl, hbr⟩ := hord
      cases re with
      | true =>
          rw [ordB_node_true] at hr
          obtain ⟨hrrl, horl, hrrn⟩ := hr
          subst hrrn
          simp only [LeftRotation, fixHeight]
          rw [ordB_node_true]
          refine ⟨?_, ?_, rfl⟩
          · rw [realB_node]
            exact ⟨rfl, hreall, hrrl⟩
          · rw [ordB_node_false]
            refine ⟨hl, horl, hbl, ?_⟩
            intro x hx
            refine hbr x ?_
            simp only [keys_node, keys_nil]
            simp
            exact hx
      | false =>
          rw [ordB_node_false] at hr
          obtain ⟨horl, horr, hbrl, hbrr⟩ := hr
          have hkr : k < rk := by
            refine hbr rk ?_
            simp [keys_node]
          simp only [LeftRotation, fixHeight]
          rw [ordB_node_false]
          refine ⟨?_, horr, ?_, hbrr⟩
          · rw [ordB_node_false]
            refine ⟨hl, horl, hbl, ?_⟩
            intro x hx
            refine hbr x ?_
            simp only [keys_node, List.mem_append]
            tauto
          · intro x hx
            simp only [keys_node, List.mem_append] at hx
            simp at hx
            rcases hx with (hx | hx) | hx
            · exact lt_trans (hbl x hx) hkr
            · subst hx
              exact hkr
            · exact hbrl x hx

theorem spineB_RightRotation_case (k h qk qh : Nat) (ql qr r : RTree) (e : Bool)
    (hspine : spineB (node k h (node qk qh ql qr false) r e) = true) :
    spineB (RightRotation (node k h (node qk qh ql qr false) r e)) = true := by
  cases e with
  | true =>
      rw [spineB_node_true] at hspine
      obtain ⟨hreal, hrn⟩ := hspine
      rw [realB_node] at hreal
      obtain ⟨-, hrql, hrqr⟩ := hreal
      subst hrn
      simp only [RightRotation, fixHeight]
      rw [spineB_node_false]
      refine ⟨hrql, ?_⟩
      rw [spineB_node_true]
      exact ⟨hrqr, rfl⟩
  | false =>
      rw [spineB_node_false] at hspine
      obtain ⟨hreal, hsp⟩ := hspine
      rw [realB_node] at hreal
      obtain ⟨-, hrql, hrqr⟩ := hreal
      simp only [RightRotation, fixHeight]
      rw [spineB_node_false]
      refine ⟨hrql, ?_⟩
      rw [spineB_node_false]
      exact ⟨hrqr, hsp⟩

theorem spineB_LeftRotation_case (k h rk rh : Nat) (l rl rr : RTree) (re : Bool)
    (hspine : spineB (node k h l (node rk rh rl rr re) false) = true) :
    spineB (LeftRotation (node k h l (node rk rh rl rr re) false)) = true := by
  rw [spineB_node_false] at hspine
  obtain ⟨hreall, hsp⟩ := hspine
  cases re with
  | true =>
      rw [spineB_node_true] at hsp
      obtain ⟨hrrl, hrrn⟩ := hsp
      subst hrrn
      simp only [LeftRotation, fixHeight]
      rw [spineB_node_true]
      refine ⟨?_, rfl⟩
      rw [realB_node]
      exact ⟨rfl, hreall, hrrl⟩
  | false =>
      rw [spineB_node_false] at hsp
      obtain ⟨hrrl, hsprr⟩ := hsp
      simp only [LeftRotation, fixHeight]
      rw [spineB_node_false]
      refine ⟨?_, hsprr⟩
      rw [realB_node]
      exact ⟨rfl, hreall, hrrl⟩

/-- In a real subtree, `FixBalance` preserves BST order. -/
theorem ordB_FixBalance_real (k h : Nat) (l r : RTree) (e : Bool)
    (hord : ordB (node k h l r e) = true)
    (hreal : realB (node k h l r e) = true) :
    ordB (FixBalance (node k h l r e)) = true := by
  rw [realB_node] at hreal
  obtain ⟨he, hrl, hrr⟩ := hreal
  subst he
  rw [ordB_node_false] at hord
  obtain ⟨hol, hor, hbl, hbr⟩ := hord
  rw [FixBalance_eq]
  by_cases hm2 : (GetHeight l : Int) - (GetHeight r : Int) = -2
  · rw [if_pos hm2]
    have hrpos : 0 < GetHeight r := by omega
    obtain ⟨rk, rh, rl, rr, re, hrn⟩ := pos_height_node r hrpos
    subst hrn
    rw [realB_node] at hrr
    obtain ⟨hre, hrrl, hrrr⟩ := hrr
    subst hre
    by_cases hpos : GetBalance (node rk rh rl rr false) > 0
    · rw [if_pos hpos]
      simp only [GetBalance_node] at hpos
      have hrlpos : 0 < GetHeight rl := by omega
      obtain ⟨sk, sh, sl, sr, se, hrln⟩ := pos_height_node rl hrlpos
      subst hrln
      rw [realB_node] at hrrl
      obtain ⟨hse, -, -⟩ := hrrl
      subst hse
      have h1 : ordB (RightRotation (node rk rh (node sk sh sl sr false) rr false)) = true :=
        ordB_RightRotation_real rk rh sk sh sl sr rr false hor
      have h2 : keys (RightRotation (node rk rh (node sk sh sl sr false) rr false)) =
          keys (node rk rh (node sk sh sl sr false) rr false) := keys_RightRotation _
      simp only [RightRotation, fixHeight] at h1 h2 ⊢
      apply ordB_LeftRotation_any
      · rw [ordB_node_false]
        refine ⟨hol, h1, hbl, ?_⟩
        intro x hx
        refine hbr x ?_
        rw [h2] at hx
        exact hx
      · exact hrl
    · rw [if_neg hpos]
      apply ordB_LeftRotation_any
      · rw [ordB_node_false]
        exact ⟨hol, hor, hbl, hbr⟩
      · exact hrl
  · rw [if_neg hm2]
    by_cases hp2 : (GetHeight l : Int) - (GetHeight r : Int) = 2
    · rw [if_pos hp2]
      have hlpos : 0 < GetHeight l := by omega
      obtain ⟨lk, lh, ll, lr, le, hln⟩ := pos_height_node l hlpos
      subst hln
      rw [realB_node] at hrl
      obtain ⟨hle, hrll, hrlr⟩ := hrl
      subst hle
      by_cases hneg : GetBalance (node lk lh ll lr false) < 0
      · rw [if_pos hneg]
        simp only [GetBalance_node] at hneg
        have hlrpos : 0 < GetHeight lr := by omega
        obtain ⟨sk, sh, sl, sr, se, hlrn⟩ := pos_height_node lr hlrpos
        subst hlrn
        rw [realB_node] at hrlr
        obtain ⟨hse, -, -⟩ := hrlr
        subst hse
        have h1 : ordB (LeftRotation (node lk lh ll (node sk sh sl sr false) false)) = true :=
          ordB_LeftRotation_any lk lh sk sh ll sl sr false false hol hrll
        have h2 : keys (LeftRotation (node lk lh ll (node sk sh sl sr false) false)) =
            keys (node lk lh ll (node sk sh sl sr false) false) := keys_LeftRotation _
        simp only [LeftRotation, fixHeight] at h1 h2 ⊢
        apply ordB_RightRotation_real
        rw [ordB_node_false]
        refine ⟨h1, hor, ?_, hbr⟩
        intro x hx
        refine hbl x ?_
        rw [h2] at hx
        exact hx
      · rw [if_neg hneg]
        apply ordB_RightRotation_real
        rw [ordB_node_false]
        exact ⟨hol, hor, hbl, hbr⟩
    · rw [if_neg hp2]
      rw [ordB_node_false]
      exact ⟨hol, hor, hbl, hbr⟩


/-- `FixBalance` applied to the sentinel itself (the topmost vertex of
its subtree).  Whenever the sentinel's left subtree has grown to height
2, the rotation pushes it down so that the new left child of the
sentinel is again small; the subtree stays a well-ordered spine piece. -/
theorem FixBalance_sent (k h : Nat) (l : RTree)
    (hord : ordB (node k h l nil true) = true)
    (hOKl : heightsOKB l = true) (hbl : balancedB l = true)
    (hsmall : GetHeight l ≤ 2) :
    ordB (FixBalance (node k h l nil true)) = true ∧
      spineB (FixBalance (node k h l nil true)) = true ∧
      endLeftSmall (FixBalance (node k h l nil true)) = true := by
  rw [ordB_node_true] at hord
  obtain ⟨hreall, holl, -⟩ := hord
  rw [FixBalance_eq]
  rw [if_neg (by simp)]
  by_cases hp2 : (GetHeight l : Int) - (GetHeight nil : Int) = 2
  · have hl2 : GetHeight l = 2 := by simp at hp2; omega
    rw [if_pos hp2]
    obtain ⟨lk, lh, ll, lr, le, hln⟩ := pos_height_node l (by omega)
    subst hln
    rw [realB_node] at hreall
    obtain ⟨hle, hrll, hrlr⟩ := hreall
    subst hle
    rw [heightsOKB_node] at hOKl
    obtain ⟨hOKll, hOKlr, hlh⟩ := hOKl
    rw [balancedB_node] at hbl
    obtain ⟨-, -, hb1, hb2⟩ := hbl
    rw [ordB_node_false] at holl
    obtain ⟨holl2, holr2, hbll, hblr⟩ := holl
    simp only [GetHeight_node] at hl2
    by_cases hneg : GetBalance (node lk lh ll lr false) < 0
    · rw [if_pos hneg]
      simp only [GetBalance_node] at hneg
      obtain ⟨u, uh, ul, ur, ue, hlrn⟩ := pos_height_node lr (by omega)
      subst hlrn
      rw [realB_node] at hrlr
      obtain ⟨hue, hrul, hrur⟩ := hrlr
      subst hue
      rw [heightsOKB_node] at hOKlr
      obtain ⟨hOKul, hOKur, huh⟩ := hOKlr
      rw [ordB_node_false] at holr2
      obtain ⟨houl, hour, hbul, hbur⟩ := holr2
      have hku : lk < u := hblr u (by simp [keys_node])
      simp only [GetHeight_node] at hneg hlh huh
      simp only [LeftRotation, RightRotation, fixHeight, GetHeight_node]
      refine ⟨?_, ?_, ?_⟩
      · rw [ordB_node_false]
        refine ⟨?_, ?_, ?_, ?_⟩
        · rw [ordB_node_false]
          refine ⟨holl2, houl, hbll, ?_⟩
          intro x hx
          refine hblr x ?_
          simp only [keys_node, List.mem_append]
          tauto
        · rw [ordB_node_true]
          exact ⟨hrur, hour, rfl⟩
        · intro x hx
          simp only [keys_node, List.mem_append] at hx
          simp at hx
          rcases hx with (hx | hx) | hx
          · exact lt_trans (hbll x hx) hku
          · subst hx
            exact hku
          · exact hbul x hx
        · intro x hx
          simp only [keys_node, keys_nil] at hx
          simp at hx
          exact hbur x hx
      · rw [spineB_node_false]
        refine ⟨?_, ?_⟩
        · rw [realB_node]
          exact ⟨rfl, hrll, hrul⟩
        · rw [spineB_node_true]
          exact ⟨hrur, rfl⟩
      · rw [endLeftSmall_node_false, endLeftSmall_node_true]
        omega
    · rw [if_neg hneg]
      simp only [GetBalance_node] at hneg
      simp only [RightRotation, fixHeight, GetHeight_node, GetHeight_nil]
      refine ⟨?_, ?_, ?_⟩
      · rw [ordB_node_false]
        refine ⟨holl2, ?_, hbll, ?_⟩
        · rw [ordB_node_true]
          exact ⟨hrlr, holr2, rfl⟩
        · intro x hx
          simp only [keys_node, keys_nil] at hx
          simp at hx
          exact hblr x hx
      · rw [spineB_node_false]
        refine ⟨hrll, ?_⟩
        rw [spineB_node_true]
        exact ⟨hrlr, rfl⟩
      · rw [endLeftSmall_node_false, endLeftSmall_node_true]
        omega
  · rw [if_neg hp2]
    have hle1 : GetHeight l ≤ 1 := by simp at hp2; omega
    refine ⟨?_, ?_, ?_⟩
    · rw [ordB_node_true]
      exact ⟨hreall, holl, rfl⟩
    · rw [spineB_node_true]
      exact ⟨hreall, rfl⟩
    · rw [endLeftSmall_node_true]
      simpa using hle1


/-- `FixBalance` applied to a real vertex of the right spine (whose
right subtree carries the sentinel at its own rightmost position)
preserves order, the spine shape and the sentinel-leaf condition. -/
theorem FixBalance_spine (k h : Nat) (l r : RTree)
    (hord : ordB (node k h l r false) = true)
    (hspine : spineB (node k h l r false) = true)
    (hOKl : heightsOKB l = true) (hOKr : heightsOKB r = true)
    (hels : endLeftSmall r = true) :
    ordB (FixBalance (node k h l r false)) = true ∧
      spineB (FixBalance (node k h l r false)) = true ∧
      endLeftSmall (FixBalance (node k h l r false)) = true := by
  rw [spineB_node_false] at hspine
  obtain ⟨hreall, hspr⟩ := hspine
  rw [ordB_node_false] at hord
  obtain ⟨hol, hor, hbl, hbr⟩ := hord
  rw [FixBalance_eq]
  by_cases hm2 : (GetHeight l : Int) - (GetHeight r : Int) = -2
  · rw [if_pos hm2]
    obtain ⟨rk, rh, rl, rr, re, hrn⟩ := pos_height_node r (by omega)
    subst hrn
    rw [heightsOKB_node] at hOKr
    obtain ⟨hOKrl, hOKrr, hrh⟩ := hOKr
    cases re with
    | true =>
        rw [spineB_node_true] at hspr
        obtain ⟨hrrl, hrrn⟩ := hspr
        subst hrrn
        rw [endLeftSmall_node_true] at hels
        rw [ordB_node_true] at hor
        obtain ⟨-, horl, -⟩ := hor
        simp only [GetHeight_node, GetHeight_nil] at hrh
        by_cases hpos : GetBalance (node rk rh rl nil true) > 0
        · rw [if_pos hpos]
          simp only [GetBalance_node, GetHeight_nil] at hpos
          obtain ⟨u, uh, ul, ur, ue, hrln⟩ := pos_height_node rl (by omega)
          subst hrln
          rw [realB_node] at hrrl
          obtain ⟨hue, hrul, hrur⟩ := hrrl
          subst hue
          simp only [GetHeight_node] at hels hpos hrh
          have huh1 : uh = 1 := by omega
          subst huh1
          obtain hulnil : ul = nil ∧ ur = nil := by
            rw [heightsOKB_node] at hOKrl
            obtain ⟨hOKul, hOKur, huh⟩ := hOKrl
            exact ⟨height_zero_nil ul hOKul (by omega),
              height_zero_nil ur hOKur (by omega)⟩
          obtain ⟨hu1, hu2⟩ := hulnil
          subst hu1 hu2
          have hku : k < u := hbr u (by simp [keys_node])
          simp only [RightRotation, LeftRotation, fixHeight, GetHeight_node, GetHeight_nil]
          refine ⟨?_, ?_, ?_⟩
          · rw [ordB_node_false]
            refine ⟨?_, ?_, ?_, ?_⟩
            · rw [ordB_node_false]
              refine ⟨hol, rfl, hbl, ?_⟩
              intro x hx
              simp at hx
            · rw [ordB_node_true]
              exact ⟨rfl, rfl, rfl⟩
            · intro x hx
              simp only [keys_node, keys_nil, List.mem_append] at hx
              simp at hx
              rcases hx with hx | hx
              · exact lt_trans (hbl x hx) hku
              · subst hx
                exact hku
            · intro x hx
              simp [keys_node] at hx
          · rw [spineB_node_false]
            refine ⟨?_, ?_⟩
            · rw [realB_node]
              exact ⟨rfl, hreall, rfl⟩
            · rw [spineB_node_true]
              exact ⟨rfl, rfl⟩
          · rw [endLeftSmall_node_false, endLeftSmall_node_true]
            simp
        · rw [if_neg hpos]
          simp only [GetBalance_node, GetHeight_nil] at hpos
          exfalso
          simp only [GetHeight_node] at hm2
          omega
    | false =>
        rw [spineB_node_false] at hspr
        obtain ⟨hrrl, hsprr⟩ := hspr
        rw [endLeftSmall_node_false] at hels
        by_cases hpos : GetBalance (node rk rh rl rr false) > 0
        · rw [if_pos hpos]
          simp only [GetBalance_node] at hpos
          obtain ⟨sk, sh, sl, sr, se, hrln⟩ := pos_height_node rl (by omega)
          subst hrln
          rw [realB_node] at hrrl
          obtain ⟨hse, hrsl, hrsr⟩ := hrrl
          subst hse
          have h1 : ordB (RightRotation (node rk rh (node sk sh sl sr false) rr false)) = true :=
            ordB_RightRotation_real rk rh sk sh sl sr rr false hor
          have h1s : spineB (RightRotation (node rk rh (node sk sh sl sr false) rr false)) = true := by
            apply spineB_RightRotation_case
            rw [spineB_node_false]
            refine ⟨?_, hsprr⟩
            rw [realB_node]
            exact ⟨rfl, hrsl, hrsr⟩
          have h2 : keys (RightRotation (node rk rh (node sk sh sl sr false) rr false)) =
              keys (node rk rh (node sk sh sl sr false) rr false) := keys_RightRotation _
          simp only [RightRotation, fixHeight] at h1 h1s h2 ⊢
          refine ⟨?_, ?_, ?_⟩
          · apply ordB_LeftRotation_any
            · rw [ordB_node_false]
              refine ⟨hol, h1, hbl, ?_⟩
              intro x hx
              refine hbr x ?_
              rw [h2] at hx
              exact hx
            · exact hreall
          · apply spineB_LeftRotation_case
            rw [spineB_node_false]
            exact ⟨hreall, h1s⟩
          · simp only [LeftRotation, fixHeight, endLeftSmall_node_false]
            exact hels
        · rw [if_neg hpos]
          refine ⟨?_, ?_, ?_⟩
          · apply ordB_LeftRotation_any
            · rw [ordB_node_false]
              exact ⟨hol, hor, hbl, hbr⟩
            · exact hreall
          · apply spineB_LeftRotation_case
            rw [spineB_node_false]
            refine ⟨hreall, ?_⟩
            rw [spineB_node_false]
            exact ⟨hrrl, hsprr⟩
          · simp only [LeftRotation, fixHeight, endLeftSmall_node_false]
            exact hels
  · rw [if_neg hm2]
    by_cases hp2 : (GetHeight l : Int) - (GetHeight r : Int) = 2
    · rw [if_pos hp2]
      obtain ⟨lk, lh, ll, lr, le, hln⟩ := pos_height_node l (by omega)
      subst hln
      rw [realB_node] at hreall
      obtain ⟨hle, hrll, hrlr⟩ := hreall
      subst hle
      by_cases hneg : GetBalance (node lk lh ll lr false) < 0
      · rw [if_pos hneg]
        simp only [GetBalance_node] at hneg
        obtain ⟨sk, sh, sl, sr, se, hlrn⟩ := pos_height_node lr (by omega)
        subst hlrn
        rw [realB_node] at hrlr
        obtain ⟨hse, hrsl, hrsr⟩ := hrlr
        subst hse
        have h1 : ordB (LeftRotation (node lk lh ll (node sk sh sl sr false) false)) = true :=
          ordB_LeftRotation_any lk lh sk sh ll sl sr false false hol hrll
        have h2 : keys (LeftRotation (node lk lh ll (node sk sh sl sr false) false)) =
            keys (node lk lh ll (node sk sh sl sr false) false) := keys_LeftRotation _
        have h1r : realB (LeftRotation (node lk lh ll (node sk sh sl sr false) false)) = true := by
          apply realB_LeftRotation
          rw [realB_node]
          refine ⟨rfl, hrll, ?_⟩
          rw [realB_node]
          exact ⟨rfl, hrsl, hrsr⟩
        simp only [LeftRotation, fixHeight] at h1 h2 h1r ⊢
        refine ⟨?_, ?_, ?_⟩
        · apply ordB_RightRotation_real
          rw [ordB_node_false]
          refine ⟨h1, hor, ?_, hbr⟩
          intro x hx
          refine hbl x ?_
          rw [h2] at hx
          exact hx
        · apply spineB_RightRotation_case
          rw [spineB_node_false]
          exact ⟨h1r, hspr⟩
        · simp only [RightRotation, fixHeight, endLeftSmall_node_false]
          exact hels
      · rw [if_neg hneg]
        refine ⟨?_, ?_, ?_⟩
        · apply ordB_RightRotation_real
          rw [ordB_node_false]
          exact ⟨hol, hor, hbl, hbr⟩
        · apply spineB_RightRotation_case
          rw [spineB_node_false]
          refine ⟨?_, hspr⟩
          rw [realB_node]
          exact ⟨rfl, hrll, hrlr⟩
        · simp only [RightRotation, fixHeight, endLeftSmall_node_false]
          exact hels
    · rw [if_neg hp2]
      refine ⟨?_, ?_, ?_⟩
      · rw [ordB_node_false]
        exact ⟨hol, hor, hbl, hbr⟩
      · rw [spineB_node_false]
        exact ⟨hreall, hspr⟩
      · rw [endLeftSmall_node_false]
        exact hels


/-! ### Insert preserves the invariant -/

/-- Arithmetic core of the insertion height argument: if one child grew
by at most one, the rebalanced vertex keeps its height or grows by one. -/
theorem insert_height_step (hl hr lnew res : Nat)
    (hbal1 : hl ≤ hr + 1) (hbal2 : hr ≤ hl + 1)
    (hlo : hl ≤ lnew) (hhi : lnew ≤ hl + 1)
    (h3 : res = max lnew hr + 1 ∨ res + 1 = max lnew hr + 1)
    (h4 : lnew ≤ hr + 1 → hr ≤ lnew + 1 → res = max lnew hr + 1) :
    max hl hr + 1 ≤ res ∧ res ≤ max hl hr + 1 + 1 := by
  rcases h3 with h3 | h3
  · omega
  · by_cases hc1 : lnew ≤ hr + 1
    · by_cases hc2 : hr ≤ lnew + 1
      · have h5 := h4 hc1 hc2
        omega
      · omega
    · omega

/-- Arithmetic core of the deletion height argument: if one child shrank
by at most one, the rebalanced vertex keeps its height or shrinks by
one. -/
theorem erase_height_step (hl hr lnew res : Nat)
    (hbal1 : hl ≤ hr + 1) (hbal2 : hr ≤ hl + 1)
    (hlo : hl ≤ lnew + 1) (hhi : lnew ≤ hl)
    (h3 : res = max lnew hr + 1 ∨ res + 1 = max lnew hr + 1)
    (h4 : lnew ≤ hr + 1 → hr ≤ lnew + 1 → res = max lnew hr + 1) :
    max hl hr ≤ res ∧ res ≤ max hl hr + 1 := by
  rcases h3 with h3 | h3
  · omega
  · by_cases hc1 : lnew ≤ hr + 1
    · by_cases hc2 : hr ≤ lnew + 1
      · have h5 := h4 hc1 hc2
        omega
      · omega
    · omega

/-- Membership in the keys of a real vertex. -/
theorem mem_keys_node (x key h : Nat) (l r : RTree) :
    x ∈ keys (node key h l r false) ↔ x ∈ keys l ∨ x = key ∨ x ∈ keys r := by
  simp [keys_node]

/-- Membership in the keys of a sentinel vertex. -/
theorem mem_keys_node_true (x key h : Nat) (l r : RTree) :
    x ∈ keys (node key h l r true) ↔ x ∈ keys l ∨ x ∈ keys r := by
  simp [keys_node]

/-- Appending on the right preserves an insertion permutation. -/
theorem keys_perm_insert_left {A B C : List Nat} {k : Nat}
    (h : A.Perm (k :: B)) : (A ++ C).Perm (k :: (B ++ C)) := by
  have h2 := h.append_right C
  simpa using h2

/-- Appending on the left preserves an insertion permutation. -/
theorem keys_perm_insert_right {A C D : List Nat} {k : Nat}
    (h : C.Perm (k :: D)) : (A ++ C).Perm (k :: (A ++ D)) := by
  have h2 := h.append_left A
  exact h2.trans List.perm_middle

/-- Inserting a fresh key into a sentinel-free, ordered, height-correct
and balanced subtree keeps all of that, adds exactly the new key, and
grows the height by at most one. -/
theorem Insert_real (t : RTree) (k : Nat)
    (hreal : realB t = true) (hord : ordB t = true)
    (hOK : heightsOKB t = true) (hbal : balancedB t = true)
    (hnot : k ∉ keys t) :
    realB (Insert t k) = true ∧ ordB (Insert t k) = true ∧
      heightsOKB (Insert t k) = true ∧ balancedB (Insert t k) = true ∧
      (keys (Insert t k)).Perm (k :: keys t) ∧
      GetHeight t ≤ GetHeight (Insert t k) ∧
      GetHeight (Insert t k) ≤ GetHeight t + 1 := by
  induction t with
  | nil =>
      refine ⟨rfl, rfl, ?_, ?_, ?_, by simp [Insert], by simp [Insert]⟩
      · rw [Insert, heightsOKB_node]
        exact ⟨rfl, rfl, rfl⟩
      · rw [Insert, balancedB_node]
        exact ⟨rfl, rfl, by omega, by omega⟩
      · simp [Insert]
  | node key h l r e ihl ihr =>
      rw [realB_node] at hreal
      obtain ⟨he, hrl, hrr⟩ := hreal
      subst he
      rw [ordB_node_false] at hord
      obtain ⟨hol, hor, hbdl, hbdr⟩ := hord
      rw [heightsOKB_node] at hOK
      obtain ⟨hOKl, hOKr, hh⟩ := hOK
      rw [balancedB_node] at hbal
      obtain ⟨hball, hbalr, hbb1, hbb2⟩ := hbal
      rw [mem_keys_node] at hnot
      push_neg at hnot
      obtain ⟨hnl, hnk, hnr⟩ := hnot
      by_cases hlt : k < key
      · rw [Insert, if_pos (by simp [hlt])]
        obtain ⟨ih1, ih2, ih3, ih4, ih5, ih6, ih7⟩ := ihl hrl hol hOKl hball hnl
        have hbd' : ∀ x ∈ keys (Insert l k), x < key := by
          intro x hx
          rcases List.mem_cons.mp ((List.Perm.mem_iff ih5).mp hx) with hx' | hx'
          · subst hx'
            exact hlt
          · exact hbdl x hx'
        have hordn : ordB (node key h (Insert l k) r false) = true := by
          rw [ordB_node_false]
          exact ⟨ih2, hor, hbd', hbdr⟩
        have hrealn : realB (node key h (Insert l k) r false) = true := by
          rw [realB_node]
          exact ⟨rfl, ih1, hrr⟩
        obtain ⟨f1, f2, f3, f4⟩ :=
          FixBalance_hb key h (Insert l k) r false ih3 hOKr ih4 hbalr
            (by omega) (by omega)
        have hstep := insert_height_step (GetHeight l) (GetHeight r)
          (GetHeight (Insert l k)) (GetHeight (FixBalance (node key h (Insert l k) r false)))
          hbb1 hbb2 ih6 ih7 f3 f4
        refine ⟨realB_FixBalance _ _ _ _ _ hrealn,
          ordB_FixBalance_real _ _ _ _ _ hordn hrealn, f1, f2, ?_, ?_, ?_⟩
        · rw [keys_FixBalance]
          simp only [keys_node, List.append_assoc]
          simp
          exact keys_perm_insert_left ih5
        · simp only [GetHeight_node]
          omega
        · simp only [GetHeight_node]
          omega
      · have hgt : key < k := by omega
        rw [Insert, if_neg (by simp [hlt])]
        obtain ⟨ih1, ih2, ih3, ih4, ih5, ih6, ih7⟩ := ihr hrr hor hOKr hbalr hnr
        have hbd' : ∀ x ∈ keys (Insert r k), key < x := by
          intro x hx
          rcases List.mem_cons.mp ((List.Perm.mem_iff ih5).mp hx) with hx' | hx'
          · subst hx'
            exact hgt
          · exact hbdr x hx'
        have hordn : ordB (node key h l (Insert r k) false) = true := by
          rw [ordB_node_false]
          exact ⟨hol, ih2, hbdl, hbd'⟩
        have hrealn : realB (node key h l (Insert r k) false) = true := by
          rw [realB_node]
          exact ⟨rfl, hrl, ih1⟩
        obtain ⟨f1, f2, f3, f4⟩ :=
          FixBalance_hb key h l (Insert r k) false hOKl ih3 hball ih4
            (by omega) (by omega)
        rw [Nat.max_comm (GetHeight l) (GetHeight (Insert r k))] at f3 f4
        have hstep := insert_height_step (GetHeight r) (GetHeight l)
          (GetHeight (Insert r k)) (GetHeight (FixBalance (node key h l (Insert r k) false)))
          hbb2 hbb1 ih6 ih7 f3 (fun a b => f4 b a)
        refine ⟨realB_FixBalance _ _ _ _ _ hrealn,
          ordB_FixBalance_real _ _ _ _ _ hordn hrealn, f1, f2, ?_, ?_, ?_⟩
        · rw [keys_FixBalance]
          simp only [keys_node, List.append_assoc]
          simp
          refine List.Perm.trans (List.Perm.append_left (keys l) ?_) List.perm_middle
          exact (ih5.cons key).trans (List.Perm.swap k key (keys r))
        · simp only [GetHeight_node]
          omega
        · simp only [GetHeight_node]
          omega


/-- Inserting a fresh key into a tree satisfying the full invariant
(right spine ending at the sentinel) keeps the invariant, adds exactly
the new key, and grows the height by at most one. -/
theorem Insert_spine (t : RTree) (k : Nat)
    (hspine : spineB t = true) (hord : ordB t = true)
    (hOK : heightsOKB t = true) (hbal : balancedB t = true)
    (hels : endLeftSmall t = true)
    (hnot : k ∉ keys t) :
    spineB (Insert t k) = true ∧ ordB (Insert t k) = true ∧
      heightsOKB (Insert t k) = true ∧ balancedB (Insert t k) = true ∧
      endLeftSmall (Insert t k) = true ∧
      (keys (Insert t k)).Perm (k :: keys t) ∧
      GetHeight t ≤ GetHeight (Insert t k) ∧
      GetHeight (Insert t k) ≤ GetHeight t + 1 := by
  induction t with
  | nil => simp at hspine
  | node key h l r e ihl ihr =>
      clear ihl
      rw [heightsOKB_node] at hOK
      obtain ⟨hOKl, hOKr, hh⟩ := hOK
      rw [balancedB_node] at hbal
      obtain ⟨hball, hbalr, hbb1, hbb2⟩ := hbal
      cases e with
      | true =>
          rw [spineB_node_true] at hspine
          obtain ⟨hreall, hrn⟩ := hspine
          subst hrn
          simp only [GetHeight_nil] at hh
          rw [ordB_node_true] at hord
          obtain ⟨-, holl, -⟩ := hord
          rw [endLeftSmall_node_true] at hels
          rw [mem_keys_node_true] at hnot
          simp only [keys_nil, List.mem_nil_iff, or_false] at hnot
          rw [Insert, if_pos (by simp)]
          obtain ⟨i1, i2, i3, i4, i5, i6, i7⟩ :=
            Insert_real l k hreall holl hOKl hball hnot
          have hordn : ordB (node key h (Insert l k) nil true) = true := by
            rw [ordB_node_true]
            exact ⟨i1, i2, rfl⟩
          obtain ⟨s1, s2, s3⟩ := FixBalance_sent key h (Insert l k) hordn i3 i4 (by omega)
          obtain ⟨f1, f2, f3, f4⟩ :=
            FixBalance_hb key h (Insert l k) nil true i3 rfl i4 rfl
              (by simp only [GetHeight_nil]; omega) (by simp only [GetHeight_nil]; omega)
          simp only [GetHeight_nil] at f3 f4
          refine ⟨s2, s1, f1, f2, s3, ?_, ?_, ?_⟩
          · rw [keys_FixBalance]
            simp only [keys_node, keys_nil, List.append_assoc]
            simp
            simpa using i5
          · simp only [GetHeight_node]
            have hstep := insert_height_step (GetHeight l) 0
              (GetHeight (Insert l k))
              (GetHeight (FixBalance (node key h (Insert l k) nil true)))
              (by omega) (by omega) i6 i7 (by simpa using f3) (by intro a b; simpa using f4 a b)
            omega
          · simp only [GetHeight_node]
            have hstep := insert_height_step (GetHeight l) 0
              (GetHeight (Insert l k))
              (GetHeight (FixBalance (node key h (Insert l k) nil true)))
              (by omega) (by omega) i6 i7 (by simpa using f3) (by intro a b; simpa using f4 a b)
            omega
      | false =>
          rw [spineB_node_false] at hspine
          obtain ⟨hreall, hspr⟩ := hspine
          rw [ordB_node_false] at hord
          obtain ⟨hol, hor, hbdl, hbdr⟩ := hord
          rw [endLeftSmall_node_false] at hels
          rw [mem_keys_node] at hnot
          push_neg at hnot
          obtain ⟨hnl, hnk, hnr⟩ := hnot
          by_cases hlt : k < key
          · rw [Insert, if_pos (by simp [hlt])]
            obtain ⟨i1, i2, i3, i4, i5, i6, i7⟩ :=
              Insert_real l k hreall hol hOKl hball hnl
            have hbd' : ∀ x ∈ keys (Insert l k), x < key := by
              intro x hx
              rcases List.mem_cons.mp ((List.Perm.mem_iff i5).mp hx) with hx' | hx'
              · subst hx'
                exact hlt
              · exact hbdl x hx'
            have hordn : ordB (node key h (Insert l k) r false) = true := by
              rw [ordB_node_false]
              exact ⟨i2, hor, hbd', hbdr⟩
            have hspinen : spineB (node key h (Insert l k) r false) = true := by
              rw [spineB_node_false]
              exact ⟨i1, hspr⟩
            obtain ⟨s1, s2, s3⟩ :=
              FixBalance_spine key h (Insert l k) r hordn hspinen i3 hOKr hels
            obtain ⟨f1, f2, f3, f4⟩ :=
              FixBalance_hb key h (Insert l k) r false i3 hOKr i4 hbalr
                (by omega) (by omega)
            have hstep := insert_height_step (GetHeight l) (GetHeight r)
              (GetHeight (Insert l k))
              (GetHeight (FixBalance (node key h (Insert l k) r false)))
              hbb1 hbb2 i6 i7 f3 f4
            refine ⟨s2, s1, f1, f2, s3, ?_, ?_, ?_⟩
            · rw [keys_FixBalance]
              simp only [keys_node, List.append_assoc]
              simp
              exact keys_perm_insert_left i5
            · simp only [GetHeight_node]
              omega
            · simp only [GetHeight_node]
              omega
          · have hgt : key < k := by
              have : key ∈ keys (node key h l r false) := by
                rw [mem_keys_node]
                exact Or.inr (Or.inl rfl)
              omega
            rw [Insert, if_neg (by simp [hlt])]
            obtain ⟨i1, i2, i3, i4, i5, i6, i7, i8⟩ :=
              ihr hspr hor hOKr hbalr hels hnr
            have hbd' : ∀ x ∈ keys (Insert r k), key < x := by
              intro x hx
              rcases List.mem_cons.mp ((List.Perm.mem_iff i6).mp hx) with hx' | hx'
              · subst hx'
                exact hgt
              · exact hbdr x hx'
            have hordn : ordB (node key h l (Insert r k) false) = true := by
              rw [ordB_node_false]
              exact ⟨hol, i2, hbdl, hbd'⟩
            have hspinen : spineB (node key h l (Insert r k) false) = true := by
              rw [spineB_node_false]
              exact ⟨hreall, i1⟩
            obtain ⟨s1, s2, s3⟩ :=
              FixBalance_spine key h l (Insert r k) hordn hspinen hOKl i3 i5
            obtain ⟨f1, f2, f3, f4⟩ :=
              FixBalance_hb key h l (Insert r k) false hOKl i3 hball i4
                (by omega) (by omega)
            rw [Nat.max_comm (GetHeight l) (GetHeight (Insert r k))] at f3 f4
            have hstep := insert_height_step (GetHeight r) (GetHeight l)
              (GetHeight (Insert r k))
              (GetHeight (FixBalance (node key h l (Insert r k) false)))
              hbb2 hbb1 i7 i8 f3 (fun a b => f4 b a)
            refine ⟨s2, s1, f1, f2, s3, ?_, ?_, ?_⟩
            · rw [keys_FixBalance]
              simp only [keys_node, List.append_assoc]
              simp
              refine List.Perm.trans (List.Perm.append_left (keys l) ?_) List.perm_middle
              exact (i6.cons key).trans (List.Perm.swap k key (keys r))
            · simp only [GetHeight_node]
              omega
            · simp only [GetHeight_node]
              omega


/-! ### Erase preserves the invariant -/

/-- BST order makes the in-order key list strictly sorted. -/
theorem ordB_pairwise (t : RTree) (hord : ordB t = true) :
    List.Pairwise (· < ·) (keys t) := by
  induction t with
  | nil => simp
  | node key h l r e ihl ihr =>
      cases e with
      | true =>
          rw [ordB_node_true] at hord
          obtain ⟨-, hol, hrn⟩ := hord
          subst hrn
          simpa using ihl hol
      | false =>
          rw [ordB_node_false] at hord
          obtain ⟨hol, hor, hbl, hbr⟩ := hord
          simp only [keys_node, List.append_assoc, Bool.false_eq_true, if_false]
          rw [List.pairwise_append]
          refine ⟨ihl hol, ?_, ?_⟩
          · rw [List.pairwise_append]
            refine ⟨by simp, ihr hor, ?_⟩
            intro a ha b hb
            simp at ha
            subst ha
            exact hbr b hb
          · intro a ha b hb
            simp only [List.mem_append] at hb
            simp at hb
            rcases hb with hb | hb
            · subst hb
              exact hbl a ha
            · exact lt_trans (hbl a ha) (hbr b hb)

/-- All keys of `EraseMin t` are keys of `t` (they are the tail of the
in-order list). -/
theorem FindMin_EraseMin_real (t : RTree)
    (hreal : realB t = true) (hord : ordB t = true)
    (hOK : heightsOKB t = true) (hbal : balancedB t = true)
    (hne : t ≠ nil) :
    ∃ mk mh mr, FindMin t = node mk mh nil mr false ∧
      keys t = mk :: keys (EraseMin t) ∧
      realB (EraseMin t) = true ∧ ordB (EraseMin t) = true ∧
      heightsOKB (EraseMin t) = true ∧ balancedB (EraseMin t) = true ∧
      GetHeight t ≤ GetHeight (EraseMin t) + 1 ∧
      GetHeight (EraseMin t) ≤ GetHeight t := by
  induction t with
  | nil => exact absurd rfl hne
  | node key h l r e ihl ihr =>
      clear ihr
      rw [realB_node] at hreal
      obtain ⟨he, hrl, hrr⟩ := hreal
      subst he
      rw [ordB_node_false] at hord
      obtain ⟨hol, hor, hbdl, hbdr⟩ := hord
      rw [heightsOKB_node] at hOK
      obtain ⟨hOKl, hOKr, hh⟩ := hOK
      rw [balancedB_node] at hbal
      obtain ⟨hball, hbalr, hbb1, hbb2⟩ := hbal
      cases l with
      | nil =>
          refine ⟨key, h, r, rfl, ?_, hrr, hor, hOKr, hbalr, ?_, ?_⟩
          · simp [EraseMin, keys_node]
          · simp only [EraseMin, GetHeight_node, GetHeight_nil] at *
            omega
          · simp only [EraseMin, GetHeight_node, GetHeight_nil] at *
            omega
      | node lk lh ll lr le =>
          obtain ⟨mk, mh, mr, e1, e2, e3, e4, e5, e6, e7, e8⟩ :=
            ihl hrl hol hOKl hball (by simp)
          refine ⟨mk, mh, mr, ?_, ?_, ?_, ?_, ?_, ?_, ?_, ?_⟩
          · rw [FindMin]
            exact e1
          · rw [EraseMin, keys_FixBalance]
            simp only [keys_node] at *
            rw [e2]
            simp
          · rw [EraseMin]
            apply realB_FixBalance
            rw [realB_node]
            exact ⟨rfl, e3, hrr⟩
          · rw [EraseMin]
            apply ordB_FixBalance_real
            · rw [ordB_node_false]
              refine ⟨e4, hor, ?_, hbdr⟩
              intro x hx
              refine hbdl x ?_
              rw [e2]
              exact List.mem_cons_of_mem mk hx
            · rw [realB_node]
              exact ⟨rfl, e3, hrr⟩
          · rw [EraseMin]
            exact (FixBalance_hb key h (EraseMin (node lk lh ll lr le)) r false
              e5 hOKr e6 hbalr (by omega) (by omega)).1
          · rw [EraseMin]
            exact (FixBalance_hb key h (EraseMin (node lk lh ll lr le)) r false
              e5 hOKr e6 hbalr (by omega) (by omega)).2.1
          · obtain ⟨f1, f2, f3, f4⟩ :=
              FixBalance_hb key h (EraseMin (node lk lh ll lr le)) r false
                e5 hOKr e6 hbalr (by omega) (by omega)
            have hstep := erase_height_step (GetHeight (node lk lh ll lr le))
              (GetHeight r) (GetHeight (EraseMin (node lk lh ll lr le)))
              (GetHeight (FixBalance (node key h (EraseMin (node lk lh ll lr le)) r false)))
              hbb1 hbb2 e7 e8 f3 f4
            rw [EraseMin]
            simp only [GetHeight_node]
            omega
          · obtain ⟨f1, f2, f3, f4⟩ :=
              FixBalance_hb key h (EraseMin (node lk lh ll lr le)) r false
                e5 hOKr e6 hbalr (by omega) (by omega)
            have hstep := erase_height_step (GetHeight (node lk lh ll lr le))
              (GetHeight r) (GetHeight (EraseMin (node lk lh ll lr le)))
              (GetHeight (FixBalance (node key h (EraseMin (node lk lh ll lr le)) r false)))
              hbb1 hbb2 e7 e8 f3 f4
            rw [EraseMin]
            simp only [GetHeight_node]
            omega


/-- Branch-level description of `Erase` at a vertex. -/
theorem Erase_node_eq (key h : Nat) (l r : RTree) (e : Bool) (k : Nat) :
    Erase (node key h l r e) k =
      if e = true ∨ k < key then FixBalance (node key h (Erase l k) r e)
      else if key < k then FixBalance (node key h l (Erase r k) e)
      else
        match r with
        | nil => l
        | node rk rh rl rr re =>
            match FindMin (node rk rh rl rr re) with
            | nil => nil
            | node mk mh _ _ me =>
                FixBalance (node mk mh l (EraseMin (node rk rh rl rr re)) me) := by
  conv_lhs => rw [Erase.eq_def]
  cases e <;> by_cases h1 : k < key <;> by_cases h2 : key < k <;>
    simp [h1, h2]

/-- The two-child deletion case in explicit form. -/
theorem Erase_node_match (key h : Nat) (l : RTree) (rk rh : Nat) (rl rr : RTree)
    (re : Bool) (k : Nat) (h1 : ¬ k < key) (h2 : ¬ key < k) :
    Erase (node key h l (node rk rh rl rr re) false) k =
      match FindMin (node rk rh rl rr re) with
      | nil => nil
      | node mk mh _ _ me =>
          FixBalance (node mk mh l (EraseMin (node rk rh rl rr re)) me) := by
  rw [Erase_node_eq, if_neg (by simp [h1]), if_neg h2]

/-- Erasing a present key from a sentinel-free, ordered, height-correct
and balanced subtree keeps all of that, removes exactly that key, and
shrinks the height by at most one. -/
theorem Erase_real (t : RTree) (k : Nat)
    (hreal : realB t = true) (hord : ordB t = true)
    (hOK : heightsOKB t = true) (hbal : balancedB t = true)
    (hmem : k ∈ keys t) :
    realB (Erase t k) = true ∧ ordB (Erase t k) = true ∧
      heightsOKB (Erase t k) = true ∧ balancedB (Erase t k) = true ∧
      keys (Erase t k) = (keys t).erase k ∧
      GetHeight t ≤ GetHeight (Erase t k) + 1 ∧
      GetHeight (Erase t k) ≤ GetHeight t := by
  induction t with
  | nil => simp at hmem
  | node key h l r e ihl ihr =>
      rw [realB_node] at hreal
      obtain ⟨he, hrl, hrr⟩ := hreal
      subst he
      rw [ordB_node_false] at hord
      obtain ⟨hol, hor, hbdl, hbdr⟩ := hord
      rw [heightsOKB_node] at hOK
      obtain ⟨hOKl, hOKr, hh⟩ := hOK
      rw [balancedB_node] at hbal
      obtain ⟨hball, hbalr, hbb1, hbb2⟩ := hbal
      rw [mem_keys_node] at hmem
      by_cases hlt : k < key
      · have hmeml : k ∈ keys l := by
          rcases hmem with hm | hm | hm
          · exact hm
          · omega
          · exact absurd (hbdr k hm) (by omega)
        rw [Erase_node_eq, if_pos (Or.inr hlt)]
        obtain ⟨i1, i2, i3, i4, i5, i6, i7⟩ := ihl hrl hol hOKl hball hmeml
        have hbd' : ∀ x ∈ keys (Erase l k), x < key := by
          intro x hx
          refine hbdl x ?_
          rw [i5] at hx
          exact List.mem_of_mem_erase hx
        have hordn : ordB (node key h (Erase l k) r false) = true := by
          rw [ordB_node_false]
          exact ⟨i2, hor, hbd', hbdr⟩
        have hrealn : realB (node key h (Erase l k) r false) = true := by
          rw [realB_node]
          exact ⟨rfl, i1, hrr⟩
        obtain ⟨f1, f2, f3, f4⟩ :=
          FixBalance_hb key h (Erase l k) r false i3 hOKr i4 hbalr
            (by omega) (by omega)
        have hstep := erase_height_step (GetHeight l) (GetHeight r)
          (GetHeight (Erase l k)) (GetHeight (FixBalance (node key h (Erase l k) r false)))
          hbb1 hbb2 i6 i7 f3 f4
        refine ⟨realB_FixBalance _ _ _ _ _ hrealn,
          ordB_FixBalance_real _ _ _ _ _ hordn hrealn, f1, f2, ?_, ?_, ?_⟩
        · rw [keys_FixBalance]
          simp only [keys_node, List.append_assoc]
          rw [List.erase_append_left _ hmeml, i5]
        · simp only [GetHeight_node]
          omega
        · simp only [GetHeight_node]
          omega
      · by_cases hgt : key < k
        · have hmemr : k ∈ keys r := by
            rcases hmem with hm | hm | hm
            · exact absurd (hbdl k hm) (by omega)
            · omega
            · exact hm
          have hnotl : k ∉ keys l := fun hm => absurd (hbdl k hm) (by omega)
          rw [Erase_node_eq, if_neg (by simp [hlt]), if_pos hgt]
          obtain ⟨i1, i2, i3, i4, i5, i6, i7⟩ := ihr hrr hor hOKr hbalr hmemr
          have hbd' : ∀ x ∈ keys (Erase r k), key < x := by
            intro x hx
            refine hbdr x ?_
            rw [i5] at hx
            exact List.mem_of_mem_erase hx
          have hordn : ordB (node key h l (Erase r k) false) = true := by
            rw [ordB_node_false]
            exact ⟨hol, i2, hbdl, hbd'⟩
          have hrealn : realB (node key h l (Erase r k) false) = true := by
            rw [realB_node]
            exact ⟨rfl, hrl, i1⟩
          obtain ⟨f1, f2, f3, f4⟩ :=
            FixBalance_hb key h l (Erase r k) false hOKl i3 hball i4
              (by omega) (by omega)
          rw [Nat.max_comm (GetHeight l) (GetHeight (Erase r k))] at f3 f4
          have hstep := erase_height_step (GetHeight r) (GetHeight l)
            (GetHeight (Erase r k)) (GetHeight (FixBalance (node key h l (Erase r k) false)))
            hbb2 hbb1 i6 i7 f3 (fun a b => f4 b a)
          refine ⟨realB_FixBalance _ _ _ _ _ hrealn,
            ordB_FixBalance_real _ _ _ _ _ hordn hrealn, f1, f2, ?_, ?_, ?_⟩
          · rw [keys_FixBalance]
            simp only [keys_node, List.append_assoc]
            rw [List.erase_append_right _ hnotl, i5]
            congr 1
            rw [List.erase_append_right]
            simp
            omega
          · simp only [GetHeight_node]
            omega
          · simp only [GetHeight_node]
            omega
        · have hkeq : k = key := by omega
          subst hkeq
          have hnotl : k ∉ keys l := fun hm => absurd (hbdl k hm) (by omega)
          cases r with
          | nil =>
              have herase : Erase (node k h l nil false) k = l := by
                rw [Erase_node_eq, if_neg (by simp), if_neg (by omega)]
              rw [herase]
              refine ⟨hrl, hol, hOKl, hball, ?_, ?_, ?_⟩
              · simp only [keys_node, keys_nil, List.append_assoc]
                rw [List.erase_append_right _ hnotl]
                simp
              · have hA : GetHeight (node k h l nil false) = h := rfl
                have hB : GetHeight (nil : RTree) = 0 := rfl
                omega
              · have hA : GetHeight (node k h l nil false) = h := rfl
                have hB : GetHeight (nil : RTree) = 0 := rfl
                omega
          | node rk rh rl rr re =>
              rw [realB_node] at hrr
              have hre : re = false := hrr.1
              subst hre
              obtain ⟨mk, mh, mr, e1, e2, e3, e4, e5, e6, e7, e8⟩ :=
                FindMin_EraseMin_real (node rk rh rl rr false)
                  (by rw [realB_node]; exact ⟨rfl, hrr.2.1, hrr.2.2⟩) hor hOKr hbalr (by simp)
              have herase : Erase (node k h l (node rk rh rl rr false) false) k =
                  FixBalance (node mk mh l (EraseMin (node rk rh rl rr false)) false) := by
                rw [Erase_node_match k h l rk rh rl rr false k hlt hgt, e1]
              rw [herase]
              have hmk : mk ∈ keys (node rk rh rl rr false) := by
                rw [e2]
                exact List.mem_cons_self mk _
              have hkmk : k < mk := hbdr mk hmk
              have hpw := ordB_pairwise (node rk rh rl rr false) hor
              rw [e2] at hpw
              have hbdmin : ∀ x ∈ keys (EraseMin (node rk rh rl rr false)), mk < x :=
                (List.pairwise_cons.mp hpw).1
              have hordn : ordB (node mk mh l
                  (EraseMin (node rk rh rl rr false)) false) = true := by
                rw [ordB_node_false]
                refine ⟨hol, e4, ?_, hbdmin⟩
                intro x hx
                exact lt_trans (hbdl x hx) hkmk
              have hrealn : realB (node mk mh l
                  (EraseMin (node rk rh rl rr false)) false) = true := by
                rw [realB_node]
                exact ⟨rfl, hrl, e3⟩
              obtain ⟨f1, f2, f3, f4⟩ :=
                FixBalance_hb mk mh l (EraseMin (node rk rh rl rr false)) false
                  hOKl e5 hball e6 (by omega) (by omega)
              rw [Nat.max_comm (GetHeight l)
                (GetHeight (EraseMin (node rk rh rl rr false)))] at f3 f4
              have hstep := erase_height_step (GetHeight (node rk rh rl rr false))
                (GetHeight l) (GetHeight (EraseMin (node rk rh rl rr false)))
                (GetHeight (FixBalance (node mk mh l
                  (EraseMin (node rk rh rl rr false)) false)))
                hbb2 hbb1 e7 e8 f3 (fun a b => f4 b a)
              refine ⟨realB_FixBalance _ _ _ _ _ hrealn,
                ordB_FixBalance_real _ _ _ _ _ hordn hrealn, f1, f2, ?_, ?_, ?_⟩
              · rw [keys_FixBalance]
                simp only [keys_node, List.append_assoc]
                rw [List.erase_append_right _ hnotl]
                simp only [Bool.false_eq_true, if_false, List.singleton_append,
                  List.erase_cons_head]
                have e2' : keys rl ++ rk :: keys rr =
                    mk :: keys (EraseMin (node rk rh rl rr false)) := by
                  simpa using e2
                rw [e2']
              · have hA : GetHeight (node k h l (node rk rh rl rr false) false) = h := rfl
                omega
              · have hA : GetHeight (node k h l (node rk rh rl rr false) false) = h := rfl
                omega


/-- `FindMin`/`EraseMin` on a spine subtree that still holds at least
one key: the minimum is a real vertex and removing it preserves the
spine invariants. -/
theorem FindMin_EraseMin_spine (t : RTree)
    (hspine : spineB t = true) (hord : ordB t = true)
    (hOK : heightsOKB t = true) (hbal : balancedB t = true)
    (hels : endLeftSmall t = true) (hne : keys t ≠ []) :
    ∃ mk mh mr, FindMin t = node mk mh nil mr false ∧
      keys t = mk :: keys (EraseMin t) ∧
      spineB (EraseMin t) = true ∧ ordB (EraseMin t) = true ∧
      heightsOKB (EraseMin t) = true ∧ balancedB (EraseMin t) = true ∧
      endLeftSmall (EraseMin t) = true ∧
      GetHeight t ≤ GetHeight (EraseMin t) + 1 ∧
      GetHeight (EraseMin t) ≤ GetHeight t := by
  induction t with
  | nil => simp at hspine
  | node key h l r e ihl ihr =>
      clear ihr
      rw [heightsOKB_node] at hOK
      obtain ⟨hOKl, hOKr, hh⟩ := hOK
      rw [balancedB_node] at hbal
      obtain ⟨hball, hbalr, hbb1, hbb2⟩ := hbal
      cases e with
      | true =>
          rw [spineB_node_true] at hspine
          obtain ⟨hreall, hrn⟩ := hspine
          subst hrn
          simp only [GetHeight_nil] at hh
          rw [ordB_node_true] at hord
          obtain ⟨-, holl, -⟩ := hord
          rw [endLeftSmall_node_true] at hels
          cases l with
          | nil => simp at hne
          | node lk lh ll lr le =>
              obtain ⟨mk, mh, mr, e1, e2, e3, e4, e5, e6, e7, e8⟩ :=
                FindMin_EraseMin_real (node lk lh ll lr le) hreall holl
                  hOKl hball (by simp)
              have hordn : ordB (node key h
                  (EraseMin (node lk lh ll lr le)) nil true) = true := by
                rw [ordB_node_true]
                exact ⟨e3, e4, rfl⟩
              obtain ⟨s1, s2, s3⟩ := FixBalance_sent key h
                (EraseMin (node lk lh ll lr le)) hordn e5 e6 (by omega)
              obtain ⟨f1, f2, f3, f4⟩ :=
                FixBalance_hb key h (EraseMin (node lk lh ll lr le)) nil true
                  e5 rfl e6 rfl (by simp only [GetHeight_nil]; omega)
                  (by simp only [GetHeight_nil]; omega)
              simp only [GetHeight_nil] at f3 f4
              have hstep := erase_height_step (GetHeight (node lk lh ll lr le)) 0
                (GetHeight (EraseMin (node lk lh ll lr le)))
                (GetHeight (FixBalance (node key h
                  (EraseMin (node lk lh ll lr le)) nil true)))
                (by omega) (by omega) e7 e8 (by simpa using f3)
                (by intro a b; simpa using f4 a b)
              refine ⟨mk, mh, mr, ?_, ?_, s2, s1, f1, f2, s3, ?_, ?_⟩
              · rw [FindMin]
                exact e1
              · rw [EraseMin, keys_FixBalance]
                simp only [keys_node, keys_nil] at *
                rw [e2]
                simp
              · rw [EraseMin]
                simp only [GetHeight_node]
                omega
              · rw [EraseMin]
                simp only [GetHeight_node]
                omega
      | false =>
          rw [spineB_node_false] at hspine
          obtain ⟨hreall, hspr⟩ := hspine
          rw [ordB_node_false] at hord
          obtain ⟨hol, hor, hbdl, hbdr⟩ := hord
          rw [endLeftSmall_node_false] at hels
          cases l with
          | nil =>
              refine ⟨key, h, r, rfl, ?_, hspr, hor, hOKr, hbalr, hels, ?_, ?_⟩
              · simp [EraseMin, keys_node]
              · simp only [EraseMin, GetHeight_node, GetHeight_nil] at *
                omega
              · simp only [EraseMin, GetHeight_node, GetHeight_nil] at *
                omega
          | node lk lh ll lr le =>
              obtain ⟨mk, mh, mr, e1, e2, e3, e4, e5, e6, e7, e8⟩ :=
                FindMin_EraseMin_real (node lk lh ll lr le) hreall hol
                  hOKl hball (by simp)
              have hbd' : ∀ x ∈ keys (EraseMin (node lk lh ll lr le)), x < key := by
                intro x hx
                refine hbdl x ?_
                rw [e2]
                exact List.mem_cons_of_mem mk hx
              have hordn : ordB (node key h
                  (EraseMin (node lk lh ll lr le)) r false) = true := by
                rw [ordB_node_false]
                exact ⟨e4, hor, hbd', hbdr⟩
              have hspinen : spineB (node key h
                  (EraseMin (node lk lh ll lr le)) r false) = true := by
                rw [spineB_node_false]
                exact ⟨e3, hspr⟩
              obtain ⟨s1, s2, s3⟩ := FixBalance_spine key h
                (EraseMin (node lk lh ll lr le)) r hordn hspinen e5 hOKr hels
              obtain ⟨f1, f2, f3, f4⟩ :=
                FixBalance_hb key h (EraseMin (node lk lh ll lr le)) r false
                  e5 hOKr e6 hbalr (by omega) (by omega)
              have hstep := erase_height_step (GetHeight (node lk lh ll lr le))
                (GetHeight r) (GetHeight (EraseMin (node lk lh ll lr le)))
                (GetHeight (FixBalance (node key h
                  (EraseMin (node lk lh ll lr le)) r false)))
                hbb1 hbb2 e7 e8 f3 f4
              refine ⟨mk, mh, mr, ?_, ?_, s2, s1, f1, f2, s3, ?_, ?_⟩
              · rw [FindMin]
                exact e1
              · rw [EraseMin, keys_FixBalance]
                simp only [keys_node] at *
                rw [e2]
                simp
              · rw [EraseMin]
                simp only [GetHeight_node]
                omega
              · rw [EraseMin]
                simp only [GetHeight_node]
                omega


/-- Erasing a present key from a tree satisfying the full invariant
keeps the invariant, removes exactly that key, and shrinks the height
by at most one. -/
theorem Erase_spine (t : RTree) (k : Nat)
    (hspine : spineB t = true) (hord : ordB t = true)
    (hOK : heightsOKB t = true) (hbal : balancedB t = true)
    (hels : endLeftSmall t = true)
    (hmem : k ∈ keys t) :
    spineB (Erase t k) = true ∧ ordB (Erase t k) = true ∧
      heightsOKB (Erase t k) = true ∧ balancedB (Erase t k) = true ∧
      endLeftSmall (Erase t k) = true ∧
      keys (Erase t k) = (keys t).erase k ∧
      GetHeight t ≤ GetHeight (Erase t k) + 1 ∧
      GetHeight (Erase t k) ≤ GetHeight t := by
  induction t with
  | nil => simp at hmem
  | node key h l r e ihl ihr =>
      clear ihl
      rw [heightsOKB_node] at hOK
      obtain ⟨hOKl, hOKr, hh⟩ := hOK
      rw [balancedB_node] at hbal
      obtain ⟨hball, hbalr, hbb1, hbb2⟩ := hbal
      cases e with
      | true =>
          rw [spineB_node_true] at hspine
          obtain ⟨hreall, hrn⟩ := hspine
          subst hrn
          simp only [GetHeight_nil] at hh
          rw [ordB_node_true] at hord
          obtain ⟨-, holl, -⟩ := hord
          rw [endLeftSmall_node_true] at hels
          rw [mem_keys_node_true] at hmem
          simp only [keys_nil, List.not_mem_nil, or_false] at hmem
          rw [Erase_node_eq, if_pos (Or.inl rfl)]
          obtain ⟨i1, i2, i3, i4, i5, i6, i7⟩ :=
            Erase_real l k hreall holl hOKl hball hmem
          have hordn : ordB (node key h (Erase l k) nil true) = true := by
            rw [ordB_node_true]
            exact ⟨i1, i2, rfl⟩
          obtain ⟨s1, s2, s3⟩ := FixBalance_sent key h (Erase l k) hordn i3 i4 (by omega)
          obtain ⟨f1, f2, f3, f4⟩ :=
            FixBalance_hb key h (Erase l k) nil true i3 rfl i4 rfl
              (by simp only [GetHeight_nil]; omega) (by simp only [GetHeight_nil]; omega)
          simp only [GetHeight_nil] at f3 f4
          have hstep := erase_height_step (GetHeight l) 0
            (GetHeight (Erase l k))
            (GetHeight (FixBalance (node key h (Erase l k) nil true)))
            (by omega) (by omega) i6 i7 (by simpa using f3)
            (by intro a b; simpa using f4 a b)
          have hnotin : k ∉ keys (nil : RTree) := by simp
          refine ⟨s2, s1, f1, f2, s3, ?_, ?_, ?_⟩
          · rw [keys_FixBalance]
            simp only [keys_node, keys_nil, List.append_nil]
            rw [i5]
            simp [List.erase_append_left _ hmem]
          · simp only [GetHeight_node]
            omega
          · simp only [GetHeight_node]
            omega
      | false =>
          rw [spineB_node_false] at hspine
          obtain ⟨hreall, hspr⟩ := hspine
          rw [ordB_node_false] at hord
          obtain ⟨hol, hor, hbdl, hbdr⟩ := hord
          rw [endLeftSmall_node_false] at hels
          rw [mem_keys_node] at hmem
          by_cases hlt : k < key
          · have hmeml : k ∈ keys l := by
              rcases hmem with hm | hm | hm
              · exact hm
              · omega
              · exact absurd (hbdr k hm) (by omega)
            rw [Erase_node_eq, if_pos (Or.inr hlt)]
            obtain ⟨i1, i2, i3, i4, i5, i6, i7⟩ := Erase_real l k hreall hol hOKl hball hmeml
            have hbd' : ∀ x ∈ keys (Erase l k), x < key := by
              intro x hx
              refine hbdl x ?_
              rw [i5] at hx
              exact List.mem_of_mem_erase hx
            have hordn : ordB (node key h (Erase l k) r false) = true := by
              rw [ordB_node_false]
              exact ⟨i2, hor, hbd', hbdr⟩
            have hspinen : spineB (node key h (Erase l k) r false) = true := by
              rw [spineB_node_false]
              exact ⟨i1, hspr⟩
            obtain ⟨s1, s2, s3⟩ :=
              FixBalance_spine key h (Erase l k) r hordn hspinen i3 hOKr hels
            obtain ⟨f1, f2, f3, f4⟩ :=
              FixBalance_hb key h (Erase l k) r false i3 hOKr i4 hbalr
                (by omega) (by omega)
            have hstep := erase_height_step (GetHeight l) (GetHeight r)
              (GetHeight (Erase l k))
              (GetHeight (FixBalance (node key h (Erase l k) r false)))
              hbb1 hbb2 i6 i7 f3 f4
            refine ⟨s2, s1, f1, f2, s3, ?_, ?_, ?_⟩
            · rw [keys_FixBalance]
              simp only [keys_node, List.append_assoc]
              rw [List.erase_append_left _ hmeml, i5]
            · simp only [GetHeight_node]
              omega
            · simp only [GetHeight_node]
              omega
          · by_cases hgt : key < k
            · have hmemr : k ∈ keys r := by
                rcases hmem with hm | hm | hm
                · exact absurd (hbdl k hm) (by omega)
                · omega
                · exact hm
              have hnotl : k ∉ keys l := fun hm => absurd (hbdl k hm) (by omega)
              rw [Erase_node_eq, if_neg (by simp [hlt]), if_pos hgt]
              obtain ⟨i1, i2, i3, i4, i5, i6, i7, i8⟩ := ihr hspr hor hOKr hbalr hels hmemr
              have hbd' : ∀ x ∈ keys (Erase r k), key < x := by
                intro x hx
                refine hbdr x ?_
                rw [i6] at hx
                exact List.mem_of_mem_erase hx
              have hordn : ordB (node key h l (Erase r k) false) = true := by
                rw [ordB_node_false]
                exact ⟨hol, i2, hbdl, hbd'⟩
              have hspinen : spineB (node key h l (Erase r k) false) = true := by
                rw [spineB_node_false]
                exact ⟨hreall, i1⟩
              obtain ⟨s1, s2, s3⟩ :=
                FixBalance_spine key h l (Erase r k) hordn hspinen hOKl i3 i5
              obtain ⟨f1, f2, f3, f4⟩ :=
                FixBalance_hb key h l (Erase r k) false hOKl i3 hball i4
                  (by omega) (by omega)
              rw [Nat.max_comm (GetHeight l) (GetHeight (Erase r k))] at f3 f4
              have hstep := erase_height_step (GetHeight r) (GetHeight l)
                (GetHeight (Erase r k))
                (GetHeight (FixBalance (node key h l (Erase r k) false)))
                hbb2 hbb1 i7 i8 f3 (fun a b => f4 b a)
              refine ⟨s2, s1, f1, f2, s3, ?_, ?_, ?_⟩
              · rw [keys_FixBalance]
                simp only [keys_node, List.append_assoc]
                rw [List.erase_append_right _ hnotl, i6]
                congr 1
                rw [List.erase_append_right]
                simp
                omega
              · simp only [GetHeight_node]
                omega
              · simp only [GetHeight_node]
                omega
            · have hkeq : k = key := by omega
              subst hkeq
              have hnotl : k ∉ keys l := fun hm => absurd (hbdl k hm) (by omega)
              have hrnn : r ≠ nil := spineB_ne_nil r hspr
              obtain ⟨rk, rh, rl, rr, re, hrn⟩ :=
                pos_height_node r (by
                  cases r with
                  | nil => exact absurd rfl hrnn
                  | node a b c d f =>
                      rw [heightsOKB_node] at hOKr
                      simp only [GetHeight_node]
                      omega)
              subst hrn
              by_cases hke : keys (node rk rh rl rr re) = []
              · -- the right child is a bare sentinel: the sentinel itself
                -- is grafted into the erased position
                have hre : re = true := by
                  cases re with
                  | true => rfl
                  | false =>
                      rw [spineB_node_false] at hspr
                      simp [keys_node] at hke
                subst hre
                rw [spineB_node_true] at hspr
                obtain ⟨hrrl, hrrn⟩ := hspr
                subst hrrn
                simp [keys_node] at hke
                have hrlnil : rl = nil := realB_keys_nil rl hrrl hke
                subst hrlnil
                rw [heightsOKB_node] at hOKr
                obtain ⟨-, -, hrh⟩ := hOKr
                simp only [GetHeight_nil] at hrh
                have herase : Erase (node k h l (node rk rh nil nil true) false) k =
                    FixBalance (node rk rh l nil true) := by
                  rw [Erase_node_match k h l rk rh nil nil true k hlt hgt]
                  rfl
                have hordn : ordB (node rk rh l nil true) = true := by
                  rw [ordB_node_true]
                  exact ⟨hreall, hol, rfl⟩
                rw [herase]
                obtain ⟨s1, s2, s3⟩ := FixBalance_sent rk rh l hordn hOKl hball
                  (by simp only [GetHeight_node] at hbb1; omega)
                obtain ⟨f1, f2, f3, f4⟩ :=
                  FixBalance_hb rk rh l nil true hOKl rfl hball rfl
                    (by simp only [GetHeight_node] at hbb1; simp only [GetHeight_nil]; omega)
                    (by simp only [GetHeight_nil]; omega)
                simp only [GetHeight_nil] at f3 f4
                refine ⟨s2, s1, f1, f2, s3, ?_, ?_, ?_⟩
                · rw [keys_FixBalance]
                  simp only [keys_node, keys_nil, List.append_nil, List.append_assoc]
                  rw [List.erase_append_right _ hnotl]
                  simp
                · have hA : GetHeight (node k h l (node rk rh nil nil true) false) = h := rfl
                  have hB : GetHeight (node rk rh nil nil true) = rh := rfl
                  simp only [GetHeight_node] at hbb1 hbb2
                  by_cases hsm : GetHeight l ≤ 1
                  · have := f4 (by omega) (by omega)
                    omega
                  · rcases f3 with f3 | f3 <;> omega
                · have hA : GetHeight (node k h l (node rk rh nil nil true) false) = h := rfl
                  have hB : GetHeight (node rk rh nil nil true) = rh := rfl
                  simp only [GetHeight_node] at hbb1 hbb2
                  by_cases hsm : GetHeight l ≤ 1
                  · have := f4 (by omega) (by omega)
                    omega
                  · rcases f3 with f3 | f3 <;> omega
              · -- the right child still holds keys: its minimum is grafted
                obtain ⟨mk, mh, mr, e1, e2, e3, e4, e5, e6, e7, e8, e9⟩ :=
                  FindMin_EraseMin_spine (node rk rh rl rr re) hspr hor hOKr hbalr hels hke
                have herase : Erase (node k h l (node rk rh rl rr re) false) k =
                    FixBalance (node mk mh l (EraseMin (node rk rh rl rr re)) false) := by
                  rw [Erase_node_match k h l rk rh rl rr re k hlt hgt, e1]
                rw [herase]
                have hmk : mk ∈ keys (node rk rh rl rr re) := by
                  rw [e2]
                  exact List.mem_cons_self mk _
                have hkmk : k < mk := hbdr mk hmk
                have hpw := ordB_pairwise (node rk rh rl rr re) hor
                rw [e2] at hpw
                have hbdmin : ∀ x ∈ keys (EraseMin (node rk rh rl rr re)), mk < x :=
                  (List.pairwise_cons.mp hpw).1
                have hordn : ordB (node mk mh l
                    (EraseMin (node rk rh rl rr re)) false) = true := by
                  rw [ordB_node_false]
                  refine ⟨hol, e4, ?_, hbdmin⟩
                  intro x hx
                  exact lt_trans (hbdl x hx) hkmk
                have hspinen : spineB (node mk mh l
                    (EraseMin (node rk rh rl rr re)) false) = true := by
                  rw [spineB_node_false]
                  exact ⟨hreall, e3⟩
                obtain ⟨s1, s2, s3⟩ := FixBalance_spine mk mh l
                  (EraseMin (node rk rh rl rr re)) hordn hspinen hOKl e5 e7
                obtain ⟨f1, f2, f3, f4⟩ :=
                  FixBalance_hb mk mh l (EraseMin (node rk rh rl rr re)) false
                    hOKl e5 hball e6 (by omega) (by omega)
                rw [Nat.max_comm (GetHeight l)
                  (GetHeight (EraseMin (node rk rh rl rr re)))] at f3 f4
                have hstep := erase_height_step (GetHeight (node rk rh rl rr re))
                  (GetHeight l) (GetHeight (EraseMin (node rk rh rl rr re)))
                  (GetHeight (FixBalance (node mk mh l
                    (EraseMin (node rk rh rl rr re)) false)))
                  hbb2 hbb1 e8 e9 f3 (fun a b => f4 b a)
                refine ⟨s2, s1, f1, f2, s3, ?_, ?_, ?_⟩
                · rw [keys_FixBalance]
                  have hK : (keys (node k h l (node rk rh rl rr re) false)).erase k =
                      keys l ++ keys (node rk rh rl rr re) := by
                    simp only [keys_node, List.append_assoc]
                    rw [List.erase_append_right _ hnotl]
                    simp
                  rw [hK, e2]
                  simp [keys_node]
                · have hA : GetHeight (node k h l (node rk rh rl rr re) false) = h := rfl
                  omega
                · have hA : GetHeight (node k h l (node rk rh rl rr re) false) = h := rfl
                  omega


/-! ### Paths and the correctness of Find -/

/-- One child step (`false` = left, `true` = right). -/
def child (d : Bool) : RTree → Option RTree
  | node _ _ l r _ => some (if d then r else l)
  | nil => none

theorem follow_append (a b : List Bool) : ∀ t : RTree,
    follow t (a ++ b) = (follow t a).bind (fun s => follow s b) := by
  induction a with
  | nil =>
      intro t
      simp [follow]
  | cons d a ih =>
      intro t
      cases t with
      | nil => cases d <;> rfl
      | node k h l r e =>
          cases d with
          | false => simpa [follow] using ih l
          | true => simpa [follow] using ih r

theorem subAt_cons (t : RTree) (d : Bool) (p : RPath) :
    subAt t (d :: p) = (subAt t p).bind (child d) := by
  rw [subAt, List.reverse_cons, follow_append, subAt]
  congr 1
  funext s
  cases s with
  | nil => cases d <;> simp [follow, child]
  | node k h l r e => cases d <;> simp [follow, child]

/-- The subtree at a valid path: a child step lands in that child. -/
theorem subAt_cons_node (t : RTree) (p : RPath) (k h : Nat) (l r : RTree) (e : Bool)
    (hsub : subAt t p = some (node k h l r e)) (d : Bool) :
    subAt t (d :: p) = some (if d then r else l) := by
  rw [subAt_cons, hsub]
  rfl

/-- Order holds in every subtree reachable by a path. -/
theorem follow_ordB (steps : List Bool) : ∀ (t w : RTree),
    ordB t = true → follow t steps = some w → ordB w = true := by
  induction steps with
  | nil =>
      intro t w hord hf
      simp [follow] at hf
      subst hf
      exact hord
  | cons d steps ih =>
      intro t w hord hf
      cases t with
      | nil => simp [follow] at hf
      | node k h l r e =>
          cases e with
          | true =>
              rw [ordB_node_true] at hord
              cases d with
              | false => exact ih l w hord.2.1 hf
              | true =>
                  rw [hord.2.2] at hf
                  cases steps with
                  | nil =>
                      simp [follow] at hf
                      subst hf
                      rfl
                  | cons d2 s2 => simp [follow] at hf
          | false =>
              rw [ordB_node_false] at hord
              cases d with
              | false => exact ih l w hord.1 hf
              | true => exact ih r w hord.2.1 hf

theorem subAt_ordB (t w : RTree) (p : RPath)
    (hord : ordB t = true) (hsub : subAt t p = some w) : ordB w = true :=
  follow_ordB p.reverse t w hord hsub

theorem FindPos_sent_nil (key h : Nat) (r : RTree) (p : RPath) (k : Nat) :
    FindPos (node key h nil r true) p k = none := rfl

theorem FindPos_sent_node (key h lk lh : Nat) (ll lr : RTree) (le : Bool)
    (r : RTree) (p : RPath) (k : Nat) :
    FindPos (node key h (node lk lh ll lr le) r true) p k =
      if ¬ lk < k ∧ ¬ k < lk then some (false :: p) else none := rfl

theorem FindPos_real_eq (key h : Nat) (l r : RTree) (p : RPath) (k : Nat) :
    FindPos (node key h l r false) p k =
      if k < key then FindPos l (false :: p) k
      else if key < k then FindPos r (true :: p) k
      else some p := rfl

theorem Find_sent_nil (key h : Nat) (r : RTree) (k : Nat) :
    Find (node key h nil r true) k = none := rfl

theorem Find_sent_node (key h lk lh : Nat) (ll lr : RTree) (le : Bool)
    (r : RTree) (k : Nat) :
    Find (node key h (node lk lh ll lr le) r true) k =
      if ¬ lk < k ∧ ¬ k < lk then some (node lk lh ll lr le) else none := rfl

theorem Find_real_eq (key h : Nat) (l r : RTree) (k : Nat) :
    Find (node key h l r false) k =
      if k < key then Find l k
      else if key < k then Find r k
      else some (node key h l r false) := rfl

/-- A successful `FindPos` lands on a real vertex holding `k`. -/
theorem FindPos_found (root : RTree) (hordroot : ordB root = true) :
    ∀ (t : RTree) (p q : RPath) (k : Nat),
    subAt root p = some t → FindPos t p k = some q →
    ∃ h' l' r', subAt root q = some (node k h' l' r' false) := by
  intro t
  induction t with
  | nil =>
      intro p q k hsub hf
      simp [FindPos] at hf
  | node key h l r e ihl ihr =>
      intro p q k hsub hf
      have hordt := subAt_ordB root _ p hordroot hsub
      cases e with
      | true =>
          rw [ordB_node_true] at hordt
          cases l with
          | nil => rw [FindPos_sent_nil] at hf; cases hf
          | node lk lh ll lr le =>
              rw [FindPos_sent_node] at hf
              by_cases hc : ¬ lk < k ∧ ¬ k < lk
              · rw [if_pos hc] at hf
                cases hf
                have hk : lk = k := by omega
                subst hk
                rw [realB_node] at hordt
                obtain ⟨⟨hle, -, -⟩, -, -⟩ := hordt
                subst hle
                refine ⟨lh, ll, lr, ?_⟩
                have hstep := subAt_cons_node root p key h
                  (node lk lh ll lr false) r true hsub false
                simpa using hstep
              · rw [if_neg hc] at hf
                cases hf
      | false =>
          rw [FindPos_real_eq] at hf
          by_cases h1 : k < key
          · rw [if_pos h1] at hf
            have hstep := subAt_cons_node root p key h l r false hsub false
            simp at hstep
            exact ihl (false :: p) q k hstep hf
          · rw [if_neg h1] at hf
            by_cases h2 : key < k
            · rw [if_pos h2] at hf
              have hstep := subAt_cons_node root p key h l r false hsub true
              simp at hstep
              exact ihr (true :: p) q k hstep hf
            · rw [if_neg h2] at hf
              cases hf
              have hk : key = k := by omega
              subst hk
              exact ⟨h, l, r, hsub⟩

/-- `Find` succeeds exactly on the stored keys. -/
theorem Find_mem (t : RTree) (k : Nat)
    (hord : ordB t = true) (hshape : realB t = true ∨ spineB t = true)
    (hOK : heightsOKB t = true) (hels : endLeftSmall t = true) :
    (Find t k).isSome = true ↔ k ∈ keys t := by
  induction t with
  | nil => simp [Find]
  | node key h l r e ihl ihr =>
      rw [heightsOKB_node] at hOK
      obtain ⟨hOKl, hOKr, hh⟩ := hOK
      cases e with
      | true =>
          have hrn : r = nil := by
            rcases hshape with hs | hs
            · rw [realB_node] at hs
              simp at hs
            · rw [spineB_node_true] at hs
              exact hs.2
          subst hrn
          rw [ordB_node_true] at hord
          obtain ⟨hreall, holl, -⟩ := hord
          rw [endLeftSmall_node_true] at hels
          cases l with
          | nil => simp [Find_sent_nil]
          | node lk lh ll lr le =>
              rw [realB_node] at hreall
              obtain ⟨hle, -, -⟩ := hreall
              subst hle
              rw [Find_sent_node]
              have hleaf : ll = nil ∧ lr = nil := by
                rcases height_le_one (node lk lh ll lr false) hOKl
                  (by simpa using hels) with hc | ⟨a, b, hc⟩
                · cases hc
                · injection hc with h1 h2 h3 h4 h5
                  exact ⟨h3.symm ▸ rfl, h4.symm ▸ rfl⟩
              obtain ⟨h1, h2⟩ := hleaf
              subst h1 h2
              by_cases hc : ¬ lk < k ∧ ¬ k < lk
              · rw [if_pos hc]
                simp [keys_node]
                omega
              · rw [if_neg hc]
                simp [keys_node]
                omega
      | false =>
          have hreall : realB l = true := by
            rcases hshape with hs | hs
            · rw [realB_node] at hs
              exact hs.2.1
            · rw [spineB_node_false] at hs
              exact hs.1
          have hshaper : realB r = true ∨ spineB r = true := by
            rcases hshape with hs | hs
            · rw [realB_node] at hs
              exact Or.inl hs.2.2
            · rw [spineB_node_false] at hs
              exact Or.inr hs.2
          have helsr : endLeftSmall r = true := by
            rcases hshape with hs | hs
            · rw [realB_node] at hs
              exact endLeftSmall_of_realB r hs.2.2
            · rw [endLeftSmall_node_false] at hels
              exact hels
          rw [ordB_node_false] at hord
          obtain ⟨hol, hor, hbdl, hbdr⟩ := hord
          rw [Find_real_eq]
          rw [mem_keys_node]
          by_cases h1 : k < key
          · rw [if_pos h1]
            rw [ihl hol (Or.inl hreall) hOKl (endLeftSmall_of_realB l hreall)]
            constructor
            · exact fun hm => Or.inl hm
            · rintro (hm | hm | hm)
              · exact hm
              · omega
              · exact absurd (hbdr k hm) (by omega)
          · rw [if_neg h1]
            by_cases h2 : key < k
            · rw [if_pos h2]
              rw [ihr hor hshaper hOKr helsr]
              constructor
              · exact fun hm => Or.inr (Or.inr hm)
              · rintro (hm | hm | hm)
                · exact absurd (hbdl k hm) (by omega)
                · omega
                · exact hm
            · rw [if_neg h2]
              simp
              right
              left
              omega

/-- `Find` and `FindPos` succeed together (they make the same
comparisons; `FindPos` additionally records the path). -/
theorem FindPos_isSome (t : RTree) : ∀ (p : RPath) (k : Nat),
    (FindPos t p k).isSome = (Find t k).isSome := by
  induction t with
  | nil => intro p k; rfl
  | node key h l r e ihl ihr =>
      intro p k
      cases e with
      | true =>
          cases l with
          | nil => rfl
          | node lk lh ll lr le =>
              rw [FindPos_sent_node, Find_sent_node]
              by_cases hc : ¬ lk < k ∧ ¬ k < lk
              · rw [if_pos hc, if_pos hc]; rfl
              · rw [if_neg hc, if_neg hc]; rfl
      | false =>
          rw [FindPos_real_eq, Find_real_eq]
          by_cases h1 : k < key
          · rw [if_pos h1, if_pos h1]
            exact ihl (false :: p) k
          · rw [if_neg h1, if_neg h1]
            by_cases h2 : key < k
            · rw [if_pos h2, if_pos h2]
              exact ihr (true :: p) k
            · rw [if_neg h2, if_neg h2]
              rfl


end RTree

-- 
/-! ### The representation invariant holds in every reachable state

The master theorem: every state the public mutators can produce from
the default constructor satisfies the full representation invariant,
and the cached size equals the number of stored keys. -/

namespace SetModel

open RTree

theorem Reachable_Inv {s : SetModel} (hr : Reachable s) :
    Inv s.root = true ∧ s.size = (keys s.root).length := by
  induction hr with
  | empty => exact ⟨rfl, rfl⟩
  | insert k hs ih =>
      rename_i s'
      obtain ⟨hInv, hsz⟩ := ih
      rw [Inv_iff] at hInv
      obtain ⟨hord, hspine, hOK, hbal, hels⟩ := hInv
      by_cases hf : (Find s'.root k).isSome = true
      · simp only [SetModel.insert, if_pos hf]
        rw [Inv_iff]
        exact ⟨⟨hord, hspine, hOK, hbal, hels⟩, hsz⟩
      · have hnot : k ∉ keys s'.root := by
          intro hmem
          exact hf ((Find_mem s'.root k hord (Or.inr hspine) hOK hels).mpr hmem)
        have hi := Insert_spine s'.root k hspine hord hOK hbal hels hnot
        obtain ⟨i1, i2, i3, i4, i5, i6, -, -⟩ := hi
        simp only [SetModel.insert, if_neg hf]
        constructor
        · rw [Inv_iff]
          exact ⟨i2, i1, i3, i4, i5⟩
        · have hlen := i6.length_eq
          simp only [List.length_cons] at hlen
          simp only [hlen, hsz]
  | erase k hs ih =>
      rename_i s'
      obtain ⟨hInv, hsz⟩ := ih
      rw [Inv_iff] at hInv
      obtain ⟨hord, hspine, hOK, hbal, hels⟩ := hInv
      by_cases hf : (Find s'.root k).isSome = true
      · have hmem : k ∈ keys s'.root :=
          (Find_mem s'.root k hord (Or.inr hspine) hOK hels).mp hf
        have he := Erase_spine s'.root k hspine hord hOK hbal hels hmem
        obtain ⟨e1, e2, e3, e4, e5, e6, -, -⟩ := he
        simp only [SetModel.erase, if_pos hf]
        constructor
        · rw [Inv_iff]
          exact ⟨e2, e1, e3, e4, e5⟩
        · rw [e6, List.length_erase_of_mem hmem, hsz]
      · simp only [SetModel.erase, if_neg hf]
        rw [Inv_iff]
        exact ⟨⟨hord, hspine, hOK, hbal, hels⟩, hsz⟩

/-- Membership in a reachable state is decided by `find`. -/
theorem Reachable_Find_mem {s : SetModel} (hr : Reachable s) (k : Nat) :
    (Find s.root k).isSome = true ↔ k ∈ keys s.root := by
  obtain ⟨hInv, -⟩ := Reachable_Inv hr
  rw [Inv_iff] at hInv
  obtain ⟨hord, hspine, hOK, hbal, hels⟩ := hInv
  exact Find_mem s.root k hord (Or.inr hspine) hOK hels

end SetModel

-- 
/-! ### The sentinel's position and left child -/

namespace RTree

/-- `rightmostFrom` only extends the accumulated position. -/
theorem rightmostFrom_acc (t : RTree) : ∀ p : RPath,
    rightmostFrom t p = rightmostFrom t [] ++ p := by
  induction t with
  | nil => intro p; rfl
  | node k h l r e ihl ihr =>
      intro p
      cases r with
      | nil => rfl
      | node rk rh rl rr re =>
          show rightmostFrom (node rk rh rl rr re) (true :: p)
              = rightmostFrom (node rk rh rl rr re) [true] ++ p
          rw [ihr (true :: p), ihr [true]]
          simp

/-- Dropping into the right child from the outermost step. -/
theorem subAt_snoc_true (k h : Nat) (l r : RTree) (e : Bool) (q : RPath) :
    subAt (node k h l r e) (q ++ [true]) = subAt r q := by
  simp [subAt, follow]

/-- In a well-formed tree the rightmost vertex is the sentinel, its
right child is null, and its left child — when present — is a
childless leaf holding the greatest key. -/
theorem spine_end (t : RTree) (hspine : spineB t = true)
    (hord : ordB t = true) (hOK : heightsOKB t = true)
    (hels : endLeftSmall t = true) :
    ∃ k h l, subAt t (endPos t) = some (node k h l nil true) ∧
      (l = nil ∨ ∃ lk, l = node lk 1 nil nil false ∧
        lk ∈ keys t ∧ ∀ x ∈ keys t, x ≤ lk) := by
  induction t with
  | nil => simp at hspine
  | node key h l r e ihl ihr =>
      clear ihl
      rw [heightsOKB_node] at hOK
      obtain ⟨hOKl, hOKr, hh⟩ := hOK
      cases e with
      | true =>
          rw [spineB_node_true] at hspine
          obtain ⟨hreall, hrn⟩ := hspine
          subst hrn
          rw [endLeftSmall_node_true] at hels
          refine ⟨key, h, l, rfl, ?_⟩
          rcases height_le_one l hOKl hels with hc | ⟨lk, le, hc⟩
          · exact Or.inl hc
          · subst hc
            rw [realB_node] at hreall
            obtain ⟨hle, -, -⟩ := hreall
            subst hle
            refine Or.inr ⟨lk, rfl, ?_, ?_⟩
            · rw [mem_keys_node_true]
              left
              simp [keys_node]
            · intro x hx
              rw [mem_keys_node_true] at hx
              rcases hx with hx | hx
              · simp [keys_node] at hx
                omega
              · simp at hx
      | false =>
          rw [spineB_node_false] at hspine
          obtain ⟨hreall, hspr⟩ := hspine
          rw [ordB_node_false] at hord
          obtain ⟨hol, hor, hbl, hbr⟩ := hord
          rw [endLeftSmall_node_false] at hels
          cases r with
          | nil => simp at hspr
          | node rk rh rl rr re =>
              obtain ⟨sk, sh, sl, hsub, hrest⟩ := ihr hspr hor hOKr hels
              have hend : endPos (node key h l (node rk rh rl rr re) false)
                  = endPos (node rk rh rl rr re) ++ [true] := by
                show rightmostFrom (node rk rh rl rr re) [true]
                    = rightmostFrom (node rk rh rl rr re) [] ++ [true]
                exact rightmostFrom_acc _ [true]
              refine ⟨sk, sh, sl, ?_, ?_⟩
              · rw [hend, subAt_snoc_true]
                exact hsub
              · rcases hrest with hln | ⟨lk, hlk, hmem, hmax⟩
                · exact Or.inl hln
                · refine Or.inr ⟨lk, hlk, ?_, ?_⟩
                  · rw [mem_keys_node]
                    right; right
                    exact hmem
                  · intro x hx
                    rw [mem_keys_node] at hx
                    have hklk : key < lk := hbr lk hmem
                    rcases hx with hx | hx | hx
                    · have := hbl x hx
                      omega
                    · omega
                    · exact hmax x hx

end RTree

/-! ### The claims -/

section Claims

open RTree SetModel

/-- C1: after `insert k` the key `k` is a member (`Find` succeeds, `k`
is among the stored keys), and the size grows by exactly one when `k`
was absent and is unchanged when `k` was already present (duplicate
insertion is a silent no-op). -/
theorem claim_C1_insert (s : SetModel) (k : Nat)
    (hr : Reachable s) :
    (Find (s.insert k).root k).isSome = true ∧
      k ∈ keys (s.insert k).root ∧
      (k ∉ keys s.root → (s.insert k).size = s.size + 1) ∧
      (k ∈ keys s.root → (s.insert k).size = s.size) := by
  have hfm := Reachable_Find_mem hr k
  obtain ⟨hInv, hsz⟩ := Reachable_Inv hr
  rw [Inv_iff] at hInv
  obtain ⟨hord, hspine, hOK, hbal, hels⟩ := hInv
  by_cases hf : (Find s.root k).isSome = true
  · have hmem := hfm.mp hf
    have hroot : s.insert k = s := by simp [SetModel.insert, hf]
    rw [hroot]
    exact ⟨hf, hmem, fun hc => absurd hmem hc, fun _ => rfl⟩
  · have hnot : k ∉ keys s.root := fun hm => hf (hfm.mpr hm)
    obtain ⟨i1, i2, i3, i4, i5, i6, -, -⟩ :=
      Insert_spine s.root k hspine hord hOK hbal hels hnot
    have hroot : (s.insert k).root = Insert s.root k := by
      simp [SetModel.insert, hf]
    have hsize : (s.insert k).size = s.size + 1 := by
      simp [SetModel.insert, hf]
    have hmem' : k ∈ keys (Insert s.root k) :=
      i6.mem_iff.mpr (List.mem_cons_self k _)
    have hfind : (Find (Insert s.root k) k).isSome = true :=
      (Find_mem _ k i2 (Or.inr i1) i3 i5).mpr hmem'
    rw [hroot, hsize]
    exact ⟨hfind, hmem', fun _ => rfl, fun hc => absurd hc hnot⟩

theorem claim_C1_witness :
    (Find (SetModel.empty.insert 1).root 1).isSome = true ∧
      1 ∈ keys (SetModel.empty.insert 1).root ∧
      (1 ∉ keys SetModel.empty.root →
        (SetModel.empty.insert 1).size = SetModel.empty.size + 1) ∧
      (1 ∈ keys SetModel.empty.root →
        (SetModel.empty.insert 1).size = SetModel.empty.size) :=
  claim_C1_insert SetModel.empty 1 Reachable.empty

/-- C2: after `erase k` the key `k` is not a member (`Find` fails),
the size shrinks by exactly one when `k` was present and is unchanged
when it was absent, and inserting an absent key then erasing it
restores the original size. -/
theorem claim_C2_erase (s : SetModel) (k : Nat)
    (hr : Reachable s) :
    k ∉ keys (s.erase k).root ∧
      (Find (s.erase k).root k).isSome = false ∧
      (k ∈ keys s.root → s.size = (s.erase k).size + 1) ∧
      (k ∉ keys s.root → (s.erase k).size = s.size) ∧
      (k ∉ keys s.root → ((s.insert k).erase k).size = s.size) := by
  have hfm := Reachable_Find_mem hr k
  obtain ⟨hInv, hsz⟩ := Reachable_Inv hr
  rw [Inv_iff] at hInv
  obtain ⟨hord, hspine, hOK, hbal, hels⟩ := hInv
  by_cases hf : (Find s.root k).isSome = true
  · have hmem := hfm.mp hf
    obtain ⟨e1, e2, e3, e4, e5, e6, -, -⟩ :=
      Erase_spine s.root k hspine hord hOK hbal hels hmem
    have hroot : (s.erase k).root = Erase s.root k := by
      simp [SetModel.erase, hf]
    have hsize : (s.erase k).size = s.size - 1 := by
      simp [SetModel.erase, hf]
    have hnd : (keys s.root).Nodup :=
      List.Pairwise.imp (fun hab => Nat.ne_of_lt hab)
        (ordB_pairwise s.root hord)
    have hnot' : k ∉ keys (Erase s.root k) := by
      rw [e6]
      intro hmem'
      exact ((List.Nodup.mem_erase_iff hnd).mp hmem').1 rfl
    have hfind : (Find (Erase s.root k) k).isSome = false := by
      rw [Bool.eq_false_iff]
      intro hx
      exact hnot' ((Find_mem _ k e2 (Or.inr e1) e3 e5).mp hx)
    have hpos : 0 < (keys s.root).length :=
      List.length_pos.mpr (List.ne_nil_of_mem hmem)
    refine ⟨?_, ?_, ?_, ?_, ?_⟩
    · rw [hroot]; exact hnot'
    · rw [hroot]; exact hfind
    · intro _; rw [hsize]; omega
    · intro hc; exact absurd hmem hc
    · intro hc; exact absurd hmem hc
  · have hnot : k ∉ keys s.root := fun hm => hf (hfm.mpr hm)
    have hroot : s.erase k = s := by simp [SetModel.erase, hf]
    refine ⟨?_, ?_, ?_, ?_, ?_⟩
    · rw [hroot]; exact hnot
    · rw [hroot, Bool.eq_false_iff]; exact hf
    · intro hc; exact absurd hc hnot
    · intro _; rw [hroot]
    · intro _
      obtain ⟨i1, i2, i3, i4, i5, i6, -, -⟩ :=
        Insert_spine s.root k hspine hord hOK hbal hels hnot
      have hroot' : (s.insert k).root = Insert s.root k := by
        simp [SetModel.insert, hf]
      have hsize' : (s.insert k).size = s.size + 1 := by
        simp [SetModel.insert, hf]
      have hmem' : k ∈ keys (Insert s.root k) :=
        i6.mem_iff.mpr (List.mem_cons_self k _)
      have hf' : (Find (s.insert k).root k).isSome = true := by
        rw [hroot']
        exact (Find_mem _ k i2 (Or.inr i1) i3 i5).mpr hmem'
      have : ((s.insert k).erase k).size = (s.insert k).size - 1 := by
        simp [SetModel.erase, hf']
      rw [this, hsize']
      omega

theorem claim_C2_witness :
    2 ∉ keys ((SetModel.empty.insert 1).erase 2).root ∧
      (Find ((SetModel.empty.insert 1).erase 2).root 2).isSome = false ∧
      (2 ∈ keys (SetModel.empty.insert 1).root →
        (SetModel.empty.insert 1).size =
          ((SetModel.empty.insert 1).erase 2).size + 1) ∧
      (2 ∉ keys (SetModel.empty.insert 1).root →
        ((SetModel.empty.insert 1).erase 2).size =
          (SetModel.empty.insert 1).size) ∧
      (2 ∉ keys (SetModel.empty.insert 1).root →
        (((SetModel.empty.insert 1).insert 2).erase 2).size =
          (SetModel.empty.insert 1).size) :=
  claim_C2_erase (SetModel.empty.insert 1) 2
    (Reachable.insert 1 Reachable.empty)

/-- C5: in every reachable state, every vertex (sentinel included) has
its cached height equal to `1 + max` of its children's heights (null
children counting 0), and satisfies the AVL balance bound. -/
theorem claim_C5_avl (s : SetModel) (hr : Reachable s) :
    heightsOKB s.root = true ∧ balancedB s.root = true := by
  obtain ⟨hInv, -⟩ := Reachable_Inv hr
  rw [Inv_iff] at hInv
  exact ⟨hInv.2.2.1, hInv.2.2.2.1⟩

theorem claim_C5_witness :
    heightsOKB ((SetModel.empty.insert 1).insert 2).root = true ∧
      balancedB ((SetModel.empty.insert 1).insert 2).root = true :=
  claim_C5_avl ((SetModel.empty.insert 1).insert 2)
    (Reachable.insert 2 (Reachable.insert 1 Reachable.empty))

/-- C6 (counterexample to "the root itself being the sentinel exactly
when the set is empty"): after inserting one key into the empty set
the root is still the sentinel vertex, yet the size is 1. -/
theorem claim_C6_counterexample :
    Reachable (SetModel.empty.insert 1) ∧
      (SetModel.empty.insert 1).root =
        node 0 2 (node 1 1 nil nil false) nil true ∧
      (SetModel.empty.insert 1).size ≠ 0 :=
  ⟨Reachable.insert 1 Reachable.empty, by decide, by decide⟩

/-- C6 (amended): every reachable state satisfies the BST order with
the sentinel greatest (`ordB`), the sentinel is unique and reached by
following right children from the root (`spineB`; in particular it is
the vertex at `endPos`), and when the set is empty the root is a bare
sentinel.  (The converse — the root being the sentinel only when the
set is empty — is refuted by the counterexample.) -/
theorem claim_C6_struct (s : SetModel) (hr : Reachable s) :
    ordB s.root = true ∧ spineB s.root = true ∧
      (∃ k h l, subAt s.root (endPos s.root) = some (node k h l nil true)) ∧
      (s.size = 0 → ∃ k h, s.root = node k h nil nil true) := by
  obtain ⟨hInv, hsz⟩ := Reachable_Inv hr
  rw [Inv_iff] at hInv
  obtain ⟨hord, hspine, hOK, hbal, hels⟩ := hInv
  refine ⟨hord, hspine, ?_, ?_⟩
  · obtain ⟨k, h, l, hsub, -⟩ := spine_end s.root hspine hord hOK hels
    exact ⟨k, h, l, hsub⟩
  · intro h0
    rw [h0] at hsz
    have hkeys : keys s.root = [] := List.length_eq_zero.mp hsz.symm
    rcases hR : s.root with _ | ⟨k, h, l, r, e⟩
    · rw [hR] at hspine
      simp at hspine
    · rw [hR] at hspine hkeys
      cases e with
      | false => simp [keys_node] at hkeys
      | true =>
          rw [spineB_node_true] at hspine
          obtain ⟨hreal, hrn⟩ := hspine
          subst hrn
          simp [keys_node] at hkeys
          have hln : l = nil := realB_keys_nil l hreal hkeys
          subst hln
          exact ⟨k, h, rfl⟩

theorem claim_C6_witness :
    ordB (SetModel.empty.insert 1).root = true ∧
      spineB (SetModel.empty.insert 1).root = true ∧
      (∃ k h l, subAt (SetModel.empty.insert 1).root
        (endPos (SetModel.empty.insert 1).root) = some (node k h l nil true)) ∧
      ((SetModel.empty.insert 1).size = 0 →
        ∃ k h, (SetModel.empty.insert 1).root = node k h nil nil true) :=
  claim_C6_struct (SetModel.empty.insert 1)
    (Reachable.insert 1 Reachable.empty)

/-- C10: in every reachable state the rightmost vertex is the sentinel;
whenever it has a left child, that child is a childless leaf (height 1,
both children null) and its key is the greatest key stored. -/
theorem claim_C10_sentinel_left (s : SetModel) (hr : Reachable s) :
    ∃ k h l, subAt s.root (endPos s.root) = some (node k h l nil true) ∧
      (l = nil ∨ ∃ lk, l = node lk 1 nil nil false ∧
        lk ∈ keys s.root ∧ ∀ x ∈ keys s.root, x ≤ lk) := by
  obtain ⟨hInv, -⟩ := Reachable_Inv hr
  rw [Inv_iff] at hInv
  obtain ⟨hord, hspine, hOK, hbal, hels⟩ := hInv
  exact spine_end s.root hspine hord hOK hels

theorem claim_C10_witness :
    ∃ k h l, subAt ((SetModel.empty.insert 1).insert 2).root
        (endPos ((SetModel.empty.insert 1).insert 2).root) =
        some (node k h l nil true) ∧
      (l = nil ∨ ∃ lk, l = node lk 1 nil nil false ∧
        lk ∈ keys ((SetModel.empty.insert 1).insert 2).root ∧
        ∀ x ∈ keys ((SetModel.empty.insert 1).insert 2).root, x ≤ lk) :=
  claim_C10_sentinel_left ((SetModel.empty.insert 1).insert 2)
    (Reachable.insert 2 (Reachable.insert 1 Reachable.empty))

end Claims

-- 
/-! ### Reading fields of a vertex found by `subAt` -/

namespace RTree

theorem keyAt_of_subAt (t : RTree) (p : RPath) (k h : Nat) (l r : RTree)
    (e : Bool) (hsub : subAt t p = some (node k h l r e)) :
    keyAt t p = k := by
  unfold keyAt
  rw [hsub]

theorem isEndAt_of_subAt (t : RTree) (p : RPath) (k h : Nat) (l r : RTree)
    (e : Bool) (hsub : subAt t p = some (node k h l r e)) :
    isEndAt t p = e := by
  unfold isEndAt
  rw [hsub]

theorem keyAt_snoc_true (k h : Nat) (l r : RTree) (e : Bool) (q : RPath) :
    keyAt (node k h l r e) (q ++ [true]) = keyAt r q := by
  unfold keyAt
  rw [subAt_snoc_true]

theorem isEndAt_snoc_true (k h : Nat) (l r : RTree) (e : Bool) (q : RPath) :
    isEndAt (node k h l r e) (q ++ [true]) = isEndAt r q := by
  unfold isEndAt
  rw [subAt_snoc_true]

/-- `operator--` at the sentinel when its left child is present: move
to the left child. -/
theorem decr_end_left_node (t : RTree) (p : RPath) (sk sh lk lh : Nat)
    (ll lr : RTree) (le : Bool) (r : RTree)
    (hsub : subAt t p = some (node sk sh (node lk lh ll lr le) r true)) :
    decr t p = false :: p := by
  unfold decr
  rw [hsub]
  rfl

/-- `operator--` at the sentinel when its left child is null: move to
the parent. -/
theorem decr_end_left_nil (t : RTree) (p : RPath) (sk sh : Nat) (r : RTree)
    (hsub : subAt t p = some (node sk sh nil r true)) :
    decr t p = p.tail := by
  unfold decr
  rw [hsub]
  rfl

/-- Decrementing from the end position of a non-empty well-formed tree
lands on a real vertex holding the greatest key. -/
theorem decr_end_max (t : RTree) (hspine : spineB t = true)
    (hord : ordB t = true) (hOK : heightsOKB t = true)
    (hels : endLeftSmall t = true) (hne : keys t ≠ []) :
    isEndAt t (decr t (endPos t)) = false ∧
      keyAt t (decr t (endPos t)) ∈ keys t ∧
      ∀ x ∈ keys t, x ≤ keyAt t (decr t (endPos t)) := by
  induction t with
  | nil => simp at hspine
  | node key h l r e ihl ihr =>
      clear ihl
      rw [heightsOKB_node] at hOK
      obtain ⟨hOKl, hOKr, hh⟩ := hOK
      cases e with
      | true =>
          rw [spineB_node_true] at hspine
          obtain ⟨hreall, hrn⟩ := hspine
          subst hrn
          rw [endLeftSmall_node_true] at hels
          have hend : endPos (node key h l nil true) = [] := rfl
          have hsub0 : subAt (node key h l nil true) [] =
              some (node key h l nil true) := rfl
          rcases height_le_one l hOKl hels with hc | ⟨lk, le, hc⟩
          · subst hc
            exact absurd (by simp [keys_node]) hne
          · subst hc
            rw [realB_node] at hreall
            obtain ⟨hle, -, -⟩ := hreall
            subst hle
            have hdecr : decr (node key h (node lk 1 nil nil false) nil true) []
                = [false] :=
              decr_end_left_node _ _ key h lk 1 nil nil false nil hsub0
            rw [hend, hdecr]
            have hsubl : subAt (node key h (node lk 1 nil nil false) nil true)
                [false] = some (node lk 1 nil nil false) := by
              have := subAt_cons_node _ [] key h
                (node lk 1 nil nil false) nil true hsub0 false
              simpa using this
            refine ⟨?_, ?_, ?_⟩
            · rw [isEndAt_of_subAt _ _ _ _ _ _ _ hsubl]
            · rw [keyAt_of_subAt _ _ _ _ _ _ _ hsubl]
              simp [keys_node]
            · intro x hx
              rw [keyAt_of_subAt _ _ _ _ _ _ _ hsubl]
              simp [keys_node] at hx
              omega
      | false =>
          rw [spineB_node_false] at hspine
          obtain ⟨hreall, hspr⟩ := hspine
          rw [ordB_node_false] at hord
          obtain ⟨hol, hor, hbl, hbr⟩ := hord
          rw [endLeftSmall_node_false] at hels
          cases r with
          | nil => simp at hspr
          | node rk rh rl rr re =>
              have hend : endPos (node key h l (node rk rh rl rr re) false)
                  = endPos (node rk rh rl rr re) ++ [true] := by
                show rightmostFrom (node rk rh rl rr re) [true]
                    = rightmostFrom (node rk rh rl rr re) [] ++ [true]
                exact rightmostFrom_acc _ [true]
              by_cases hkr : keys (node rk rh rl rr re) = []
              · cases re with
                | false => simp [keys_node] at hkr
                | true =>
                    rw [spineB_node_true] at hspr
                    obtain ⟨hrealrl, hrrn⟩ := hspr
                    subst hrrn
                    have hrln : rl = nil := by
                      apply realB_keys_nil rl hrealrl
                      simpa [keys_node] using hkr
                    subst hrln
                    have hendr : endPos (node rk rh nil nil true) = [] := rfl
                    rw [hendr] at hend
                    have hsub0 : subAt
                        (node key h l (node rk rh nil nil true) false) [] =
                        some (node key h l (node rk rh nil nil true) false) := rfl
                    have hsubR : subAt
                        (node key h l (node rk rh nil nil true) false) [true]
                        = some (node rk rh nil nil true) := by
                      have := subAt_cons_node _ [] key h l
                        (node rk rh nil nil true) false hsub0 true
                      simpa using this
                    have hdecr : decr
                        (node key h l (node rk rh nil nil true) false) [true]
                        = [] :=
                      decr_end_left_nil _ _ rk rh nil hsubR
                    rw [hend]
                    simp only [List.nil_append]
                    rw [hdecr]
                    refine ⟨?_, ?_, ?_⟩
                    · rw [isEndAt_of_subAt _ _ _ _ _ _ _ hsub0]
                    · rw [keyAt_of_subAt _ _ _ _ _ _ _ hsub0]
                      rw [mem_keys_node]
                      right; left; rfl
                    · intro x hx
                      rw [keyAt_of_subAt _ _ _ _ _ _ _ hsub0]
                      rw [mem_keys_node] at hx
                      rcases hx with hx | hx | hx
                      · exact Nat.le_of_lt (hbl x hx)
                      · omega
                      · simp [keys_node] at hx
              · obtain ⟨ih1, ih2, ih3⟩ := ihr hspr hor hOKr hels hkr
                obtain ⟨sk, sh, sl, hsubR, -⟩ :=
                  spine_end (node rk rh rl rr re) hspr hor hOKr hels
                have hsubT : subAt (node key h l (node rk rh rl rr re) false)
                    (endPos (node rk rh rl rr re) ++ [true])
                    = some (node sk sh sl nil true) := by
                  rw [subAt_snoc_true]
                  exact hsubR
                have hcomm : decr (node key h l (node rk rh rl rr re) false)
                    (endPos (node rk rh rl rr re) ++ [true])
                    = decr (node rk rh rl rr re)
                        (endPos (node rk rh rl rr re)) ++ [true] := by
                  cases sl with
                  | node lk lh ll lr le =>
                      rw [decr_end_left_node _ _ sk sh lk lh ll lr le nil hsubT,
                        decr_end_left_node _ _ sk sh lk lh ll lr le nil hsubR]
                      rfl
                  | nil =>
                      rw [decr_end_left_nil _ _ sk sh nil hsubT,
                        decr_end_left_nil _ _ sk sh nil hsubR]
                      have hner : endPos (node rk rh rl rr re) ≠ [] := by
                        intro h0
                        rw [h0] at hsubR
                        have hR : node rk rh rl rr re = node sk sh nil nil true := by
                          have : some (node rk rh rl rr re)
                              = some (node sk sh nil nil true) := hsubR
                          exact Option.some.inj this
                        rw [hR] at hkr
                        exact hkr (by simp [keys_node])
                      rcases List.exists_cons_of_ne_nil hner with ⟨a, as, ha⟩
                      rw [ha]
                      rfl
                rw [hend, hcomm]
                refine ⟨?_, ?_, ?_⟩
                · rw [isEndAt_snoc_true]
                  exact ih1
                · rw [keyAt_snoc_true, mem_keys_node]
                  right; right
                  exact ih2
                · intro x hx
                  rw [keyAt_snoc_true]
                  rw [mem_keys_node] at hx
                  have hkm : key < keyAt (node rk rh rl rr re)
                      (decr (node rk rh rl rr re) (endPos (node rk rh rl rr re))) :=
                    hbr _ ih2
                  rcases hx with hx | hx | hx
                  · have := hbl x hx
                    omega
                  · omega
                  · exact ih3 x hx

end RTree

section ClaimsB1

open RTree SetModel

/-- C7: on a non-empty set, one decrement from the end position lands
on a real vertex, and that vertex holds the greatest key of the set. -/
theorem claim_C7_decr_from_end (s : SetModel) (hr : Reachable s)
    (hne : s.size ≠ 0) :
    isEndAt s.root (decr s.root (endPos s.root)) = false ∧
      keyAt s.root (decr s.root (endPos s.root)) ∈ keys s.root ∧
      ∀ x ∈ keys s.root, x ≤ keyAt s.root (decr s.root (endPos s.root)) := by
  obtain ⟨hInv, hsz⟩ := Reachable_Inv hr
  rw [Inv_iff] at hInv
  obtain ⟨hord, hspine, hOK, hbal, hels⟩ := hInv
  have hkne : keys s.root ≠ [] := by
    intro h0
    apply hne
    rw [hsz, h0]
    rfl
  exact decr_end_max s.root hspine hord hOK hels hkne

theorem claim_C7_witness :
    isEndAt (SetModel.empty.insert 1).root
        (decr (SetModel.empty.insert 1).root
          (endPos (SetModel.empty.insert 1).root)) = false ∧
      keyAt (SetModel.empty.insert 1).root
          (decr (SetModel.empty.insert 1).root
            (endPos (SetModel.empty.insert 1).root)) ∈
        keys (SetModel.empty.insert 1).root ∧
      ∀ x ∈ keys (SetModel.empty.insert 1).root,
        x ≤ keyAt (SetModel.empty.insert 1).root
          (decr (SetModel.empty.insert 1).root
            (endPos (SetModel.empty.insert 1).root)) :=
  claim_C7_decr_from_end (SetModel.empty.insert 1)
    (Reachable.insert 1 Reachable.empty) (by decide)

/-- C9 (divergence): the two files do not implement the same postfix
increment.  In the reachable state `{1, 2, 3}`, starting from the
vertex holding the maximum key 3, the walk of `src/SetTemplate.h`
(whose loop omits the `is_end` test) lands on the real vertex holding
key 2, while `src/unnamed/part_000`'s `GetGreaterParent` walk lands on
the end sentinel. -/
theorem claim_C9_two_files_diverge :
    Reachable (((SetModel.empty.insert 1).insert 2).insert 3) ∧
      keyAt (((SetModel.empty.insert 1).insert 2).insert 3).root
        ((((SetModel.empty.insert 1).insert 2).insert 3).find 3) = 3 ∧
      isEndAt (((SetModel.empty.insert 1).insert 2).insert 3).root
        ((((SetModel.empty.insert 1).insert 2).insert 3).find 3) = false ∧
      P000.postfixIncrP (((SetModel.empty.insert 1).insert 2).insert 3).root
          ((((SetModel.empty.insert 1).insert 2).insert 3).find 3)
        = endPos (((SetModel.empty.insert 1).insert 2).insert 3).root ∧
      postfixIncrH (((SetModel.empty.insert 1).insert 2).insert 3).root
          ((((SetModel.empty.insert 1).insert 2).insert 3).find 3)
        ≠ endPos (((SetModel.empty.insert 1).insert 2).insert 3).root ∧
      isEndAt (((SetModel.empty.insert 1).insert 2).insert 3).root
        (postfixIncrH (((SetModel.empty.insert 1).insert 2).insert 3).root
          ((((SetModel.empty.insert 1).insert 2).insert 3).find 3)) = false ∧
      keyAt (((SetModel.empty.insert 1).insert 2).insert 3).root
        (postfixIncrH (((SetModel.empty.insert 1).insert 2).insert 3).root
          ((((SetModel.empty.insert 1).insert 2).insert 3).find 3)) = 2 :=
  ⟨Reachable.insert 3 (Reachable.insert 2 (Reachable.insert 1 Reachable.empty)),
    by decide, by decide, by decide, by decide, by decide, by decide⟩

end ClaimsB1

-- 
/-! ### In-order iteration -/

namespace RTree

/-- In-order list of the positions of the real vertices of the subtree
sitting at position `p`. -/
def inPaths : RTree → RPath → List RPath
  | nil, _ => []
  | node _ _ l r e, p =>
      inPaths l (false :: p) ++ (if e then [] else [p]) ++ inPaths r (true :: p)

@[simp] theorem inPaths_nil (p : RPath) : inPaths nil p = [] := rfl

theorem inPaths_node (k h : Nat) (l r : RTree) (e : Bool) (p : RPath) :
    inPaths (node k h l r e) p =
      inPaths l (false :: p) ++ (if e then [] else [p]) ++
        inPaths r (true :: p) := rfl

theorem leftmostFrom_node (k h lk lh : Nat) (ll lr : RTree) (le : Bool)
    (r : RTree) (e : Bool) (p : RPath) :
    leftmostFrom (node k h (node lk lh ll lr le) r e) p
      = leftmostFrom (node lk lh ll lr le) (false :: p) := rfl

theorem leftmostFrom_nil_left (k h : Nat) (r : RTree) (e : Bool) (p : RPath) :
    leftmostFrom (node k h nil r e) p = p := rfl

theorem rightmostFrom_node (k h rk rh : Nat) (rl rr : RTree) (re : Bool)
    (l : RTree) (e : Bool) (p : RPath) :
    rightmostFrom (node k h l (node rk rh rl rr re) e) p
      = rightmostFrom (node rk rh rl rr re) (true :: p) := rfl

theorem rightmostFrom_nil_right (k h : Nat) (l : RTree) (e : Bool) (p : RPath) :
    rightmostFrom (node k h l nil e) p = p := rfl

theorem incr_right_nil (root : RTree) (p : RPath) (k h : Nat) (l : RTree)
    (hsub : subAt root p = some (node k h l nil false)) :
    incr root p = upGreater root k p := by
  unfold incr
  rw [hsub]
  rfl

theorem incr_right_node (root : RTree) (p : RPath) (k h rk rh : Nat)
    (l rl rr : RTree) (re : Bool)
    (hsub : subAt root p = some (node k h l (node rk rh rl rr re) false)) :
    incr root p = leftmostFrom (node rk rh rl rr re) (true :: p) := by
  unfold incr
  rw [hsub]
  rfl

/-- The keys read off along `inPaths` are exactly the subtree's keys. -/
theorem inPaths_keys (root : RTree) : ∀ (t : RTree) (p : RPath),
    subAt root p = some t →
    (inPaths t p).map (fun q => keyAt root q) = keys t := by
  intro t
  induction t with
  | nil => intro p _; rfl
  | node k h l r e ihl ihr =>
      intro p hsub
      rw [inPaths_node, keys_node, List.map_append, List.map_append]
      rw [ihl (false :: p)
          (by simpa using subAt_cons_node root p k h l r e hsub false),
        ihr (true :: p)
          (by simpa using subAt_cons_node root p k h l r e hsub true)]
      cases e with
      | true => simp
      | false =>
          have hk := keyAt_of_subAt root p k h l r false hsub
          simp [hk]

/-- Every `inPaths` position denotes a real vertex. -/
theorem inPaths_real (root : RTree) : ∀ (t : RTree) (p : RPath),
    subAt root p = some t → ∀ q ∈ inPaths t p,
      ∃ k h l r, subAt root q = some (node k h l r false) := by
  intro t
  induction t with
  | nil => intro p _ q hq; simp at hq
  | node k h l r e ihl ihr =>
      intro p hsub q hq
      rw [inPaths_node] at hq
      simp only [List.mem_append] at hq
      rcases hq with (hq | hq) | hq
      · exact ihl (false :: p)
          (by simpa using subAt_cons_node root p k h l r e hsub false) q hq
      · cases e with
        | true => simp at hq
        | false =>
            simp at hq
            subst hq
            exact ⟨k, h, l, r, hsub⟩
      · exact ihr (true :: p)
          (by simpa using subAt_cons_node root p k h l r e hsub true) q hq

theorem inPaths_length (root : RTree) (t : RTree) (p : RPath)
    (hsub : subAt root p = some t) :
    (inPaths t p).length = (keys t).length := by
  rw [← inPaths_keys root t p hsub, List.length_map]

/-- One step of the upward walk. -/
theorem upGreater_cons (root : RTree) (tk : Nat) (d : Bool) (p : RPath)
    (k h : Nat) (l r : RTree) (e : Bool)
    (hsub : subAt root (d :: p) = some (node k h l r e)) :
    upGreater root tk (d :: p) =
      if ¬ e = true ∧ ¬ tk < k then upGreater root tk p else d :: p := by
  conv_lhs => rw [upGreater]
  rw [hsub]

/-- The upward walk from a vertex whose subtree tops out at `tk` pops
the steps taken since the last left turn: it stops one level above the
first `false` step (at a strict upper bound or at the sentinel), or at
the root when every step is `true`. -/
theorem upGreater_eq (root : RTree) (hord : ordB root = true) :
    ∀ (q : RPath) (tk k h : Nat) (l r : RTree),
      subAt root q = some (node k h l r false) →
      tk ∈ keys (node k h l r false) →
      (∀ x ∈ keys (node k h l r false), x ≤ tk) →
      upGreater root tk q = (q.dropWhile (fun b => b)).tail := by
  intro q
  induction q with
  | nil => intro tk k h l r hsub hmem hmax; rfl
  | cons d p ih =>
      intro tk k h l r hsub hmem hmax
      have hkle : k ≤ tk := hmax k (by rw [mem_keys_node]; right; left; rfl)
      rw [upGreater_cons root tk d p k h l r false hsub]
      rw [if_pos ⟨by simp, by omega⟩]
      rw [subAt_cons] at hsub
      rcases hpar : subAt root p with _ | w
      · rw [hpar] at hsub
        simp at hsub
      · rw [hpar] at hsub
        cases w with
        | nil => simp [child] at hsub
        | node pk ph pl pr pe =>
            have hordP : ordB (node pk ph pl pr pe) = true :=
              subAt_ordB root _ p hord hpar
            simp only [Option.some_bind, child] at hsub
            cases d with
            | true =>
                simp only [if_pos rfl] at hsub
                rw [Option.some.injEq] at hsub
                subst hsub
                cases pe with
                | true =>
                    rw [ordB_node_true] at hordP
                    obtain ⟨-, -, hc⟩ := hordP
                    cases hc
                | false =>
                    rw [ordB_node_false] at hordP
                    obtain ⟨-, -, hbl', hbr'⟩ := hordP
                    have hpk : pk < tk := hbr' tk hmem
                    have hgoal := ih tk pk ph pl (node k h l r false) hpar
                      (by rw [mem_keys_node]; right; right; exact hmem)
                      (by
                        intro x hx
                        rw [mem_keys_node] at hx
                        rcases hx with hx | hx | hx
                        · have := hbl' x hx
                          omega
                        · omega
                        · exact hmax x hx)
                    rw [hgoal]
                    simp [List.dropWhile_cons]
            | false =>
                simp only [Bool.false_eq_true, if_false] at hsub
                rw [Option.some.injEq] at hsub
                subst hsub
                have htarget : ((false :: p).dropWhile (fun b => b)).tail
                    = p := by
                  simp [List.dropWhile_cons]
                rw [htarget]
                cases p with
                | nil => rfl
                | cons d' p' =>
                    rw [upGreater_cons root tk d' p' pk ph
                      (node k h l r false) pr pe hpar]
                    cases pe with
                    | true => rw [if_neg (fun hc => hc.1 rfl)]
                    | false =>
                        rw [ordB_node_false] at hordP
                        obtain ⟨-, -, hbl', -⟩ := hordP
                        have htk : tk < pk := hbl' tk hmem
                        rw [if_neg (fun hc => hc.2 htk)]

/-- The first visited position of a non-empty all-real subtree is its
leftmost vertex. -/
theorem inPaths_head_real (t : RTree) : ∀ (p : RPath),
    realB t = true → t ≠ nil →
    (inPaths t p).head? = some (leftmostFrom t p) := by
  induction t with
  | nil => intro p _ hne; exact absurd rfl hne
  | node k h l r e ihl ihr =>
      intro p hreal _
      rw [realB_node] at hreal
      obtain ⟨he, hrl, hrr⟩ := hreal
      subst he
      rw [inPaths_node]
      cases l with
      | nil => simp [leftmostFrom_nil_left]
      | node lk lh ll lr le =>
          have hh := ihl (false :: p) hrl (by simp)
          rcases hA : inPaths (node lk lh ll lr le) (false :: p) with _ | ⟨a, A⟩
          · rw [hA] at hh
            simp at hh
          · rw [hA] at hh
            simp only [List.head?_cons, Option.some.injEq] at hh
            rw [leftmostFrom_node, ← hh]
            simp

/-- The first visited position of a spine subtree, with its own
sentinel position appended, is its leftmost vertex. -/
theorem spine_head (t : RTree) : ∀ (q : RPath), spineB t = true →
    (inPaths t q ++ [rightmostFrom t q]).head? = some (leftmostFrom t q) := by
  induction t with
  | nil => intro q hs; simp at hs
  | node k h l r e ihl ihr =>
      clear ihl ihr
      intro q hs
      cases e with
      | true =>
          rw [spineB_node_true] at hs
          obtain ⟨hreal, hrn⟩ := hs
          subst hrn
          rw [inPaths_node, rightmostFrom_nil_right]
          cases l with
          | nil => simp [leftmostFrom_nil_left]
          | node lk lh ll lr le =>
              have hh := inPaths_head_real _ (false :: q) hreal (by simp)
              rcases hA : inPaths (node lk lh ll lr le) (false :: q)
                with _ | ⟨a, A⟩
              · rw [hA] at hh
                simp at hh
              · rw [hA] at hh
                simp only [List.head?_cons, Option.some.injEq] at hh
                rw [leftmostFrom_node, ← hh]
                simp
      | false =>
          rw [spineB_node_false] at hs
          obtain ⟨hreal, hspr⟩ := hs
          rw [inPaths_node]
          cases l with
          | nil => simp [leftmostFrom_nil_left]
          | node lk lh ll lr le =>
              have hh := inPaths_head_real _ (false :: q) hreal (by simp)
              rcases hA : inPaths (node lk lh ll lr le) (false :: q)
                with _ | ⟨a, A⟩
              · rw [hA] at hh
                simp at hh
              · rw [hA] at hh
                simp only [List.head?_cons, Option.some.injEq] at hh
                rw [leftmostFrom_node, ← hh]
                simp

/-- Prefix increment follows the in-order successor inside an all-real
subtree; the exit of the subtree at `p` is `(p.dropWhile id).tail`. -/
theorem chain_real (root : RTree) (hord : ordB root = true) :
    ∀ (t : RTree) (p : RPath), realB t = true → ordB t = true →
      subAt root p = some t →
      List.Chain' (fun a b => incr root a = b)
        (inPaths t p ++ [(p.dropWhile (fun b => b)).tail]) := by
  intro t
  induction t with
  | nil => intro p _ _ _; simp
  | node k h l r e ihl ihr =>
      intro p hreal hordt hsub
      rw [realB_node] at hreal
      obtain ⟨he, hrl, hrr⟩ := hreal
      subst he
      rw [ordB_node_false] at hordt
      obtain ⟨hol, hor, hbl, hbr⟩ := hordt
      rw [inPaths_node]
      simp only [Bool.false_eq_true, if_false]
      rw [List.append_assoc]
      rw [List.chain'_append]
      refine ⟨?_, ?_, ?_⟩
      · have hc := ihl (false :: p) hrl hol
          (by simpa using subAt_cons_node root p k h l r false hsub false)
        simpa [List.dropWhile_cons] using hc
      · have hc := ihr (true :: p) hrr hor
          (by simpa using subAt_cons_node root p k h l r false hsub true)
        simpa [List.dropWhile_cons] using hc
      · intro x hx y hy
        rw [List.getLast?_concat] at hx
        simp only [Option.mem_def, Option.some.injEq] at hx
        subst hx
        cases r with
        | nil =>
            simp only [inPaths_nil, List.nil_append, List.head?_cons,
              Option.mem_def, Option.some.injEq] at hy
            subst hy
            rw [incr_right_nil root p k h l hsub]
            refine upGreater_eq root hord p k k h l nil hsub ?_ ?_
            · rw [mem_keys_node]
              right; left; rfl
            · intro z hz
              rw [mem_keys_node] at hz
              rcases hz with hz | hz | hz
              · exact Nat.le_of_lt (hbl z hz)
              · omega
              · simp at hz
        | node rk rh rl rr re =>
            have hh := inPaths_head_real _ (true :: p) hrr (by simp)
            rcases hA : inPaths (node rk rh rl rr re) (true :: p)
              with _ | ⟨a, A⟩
            · rw [hA] at hh
              simp at hh
            · rw [hA] at hh
              simp only [List.head?_cons, Option.some.injEq] at hh
              rw [hA] at hy
              simp only [List.cons_append, List.head?_cons,
                Option.mem_def, Option.some.injEq] at hy
              subst hy
              rw [incr_right_node root p k h rk rh l rl rr re hsub, hh]

/-- Prefix increment follows the in-order successor over the spine,
finishing at the subtree's sentinel position. -/
theorem chain_spine (root : RTree) (hord : ordB root = true) :
    ∀ (t : RTree) (p : RPath), spineB t = true → ordB t = true →
      subAt root p = some t →
      List.Chain' (fun a b => incr root a = b)
        (inPaths t p ++ [rightmostFrom t p]) := by
  intro t
  induction t with
  | nil => intro p hs _ _; simp at hs
  | node k h l r e ihl ihr =>
      clear ihl
      intro p hs hordt hsub
      cases e with
      | true =>
          rw [spineB_node_true] at hs
          obtain ⟨hreal, hrn⟩ := hs
          subst hrn
          rw [ordB_node_true] at hordt
          obtain ⟨-, holl, -⟩ := hordt
          rw [inPaths_node, rightmostFrom_nil_right]
          have hc := chain_real root hord l (false :: p) hreal holl
            (by simpa using subAt_cons_node root p k h l nil true hsub false)
          simpa [List.dropWhile_cons] using hc
      | false =>
          rw [spineB_node_false] at hs
          obtain ⟨hreal, hspr⟩ := hs
          rw [ordB_node_false] at hordt
          obtain ⟨hol, hor, hbl, hbr⟩ := hordt
          cases r with
          | nil => simp at hspr
          | node rk rh rl rr re =>
              rw [inPaths_node, rightmostFrom_node]
              simp only [Bool.false_eq_true, if_false]
              rw [List.append_assoc]
              rw [List.chain'_append]
              have hsubl : subAt root (false :: p) = some l := by
                simpa using subAt_cons_node root p k h l
                  (node rk rh rl rr re) false hsub false
              have hsubr : subAt root (true :: p)
                  = some (node rk rh rl rr re) := by
                simpa using subAt_cons_node root p k h l
                  (node rk rh rl rr re) false hsub true
              refine ⟨?_, ?_, ?_⟩
              · have hc := chain_real root hord l (false :: p) hreal hol hsubl
                simpa [List.dropWhile_cons] using hc
              · exact ihr (true :: p) hspr hor hsubr
              · intro x hx y hy
                rw [List.getLast?_concat] at hx
                simp only [Option.mem_def, Option.some.injEq] at hx
                subst hx
                have hh := spine_head (node rk rh rl rr re) (true :: p) hspr
                rw [hh] at hy
                simp only [Option.mem_def, Option.some.injEq] at hy
                subst hy
                exact incr_right_node root p k h rk rh l rl rr re hsub

/-- Iterating a function along a list linked by it visits the list. -/
theorem chain_iterate (f : RPath → RPath) :
    ∀ (A : List RPath) (x0 last : RPath),
      List.Chain' (fun a b => f a = b) (A ++ [last]) →
      (A ++ [last]).head? = some x0 →
      f^[A.length] x0 = last ∧
        ∀ i (hi : i < A.length), f^[i] x0 = A.get ⟨i, hi⟩ := by
  intro A
  induction A with
  | nil =>
      intro x0 last _ hh
      simp only [List.nil_append, List.head?_cons, Option.some.injEq] at hh
      subst hh
      exact ⟨rfl, fun i hi => absurd hi (Nat.not_lt_zero i)⟩
  | cons a A ih =>
      intro x0 last hc hh
      simp only [List.cons_append, List.head?_cons, Option.some.injEq] at hh
      subst hh
      rw [List.cons_append, List.chain'_cons'] at hc
      obtain ⟨hlink, hc'⟩ := hc
      cases A with
      | nil =>
          have hfa : f a = last := hlink last rfl
          refine ⟨by simpa using hfa, ?_⟩
          intro i hi
          have hi' : i < 1 := hi
          have hi0 : i = 0 := by omega
          subst hi0
          rfl
      | cons b B =>
          have hfa : f a = b := hlink b rfl
          obtain ⟨ih1, ih2⟩ := ih b last hc' rfl
          constructor
          · rw [List.length_cons, Function.iterate_succ_apply, hfa]
            exact ih1
          · intro i hi
            cases i with
            | zero => rfl
            | succ j =>
                rw [Function.iterate_succ_apply, hfa]
                have hj : j < (b :: B).length := by
                  simpa using hi
                exact ih2 j hj

end RTree

section ClaimsB2

open RTree SetModel

/-- C4: from `begin()`, repeated prefix increment visits all stored
keys in strictly increasing order with no duplicates; positions before
the `size()`-th are never the end, and exactly `size()` increments
reach the end position (`begin() = end()` on the empty set). -/
theorem claim_C4_iteration (s : SetModel) (hr : Reachable s) :
    (incr s.root)^[s.size] (beginPos s.root) = endPos s.root ∧
      (s.size = 0 → beginPos s.root = endPos s.root) ∧
      (List.range s.size).map
          (fun i => keyAt s.root ((incr s.root)^[i] (beginPos s.root)))
        = keys s.root ∧
      List.Pairwise (· < ·) (keys s.root) ∧
      ∀ i < s.size,
        isEndAt s.root ((incr s.root)^[i] (beginPos s.root)) = false := by
  obtain ⟨hInv, hsz⟩ := Reachable_Inv hr
  rw [Inv_iff] at hInv
  obtain ⟨hord, hspine, hOK, hbal, hels⟩ := hInv
  have hsub0 : subAt s.root [] = some s.root := by
    cases hR : s.root <;> rfl
  have hchain : List.Chain' (fun a b => incr s.root a = b)
      (inPaths s.root [] ++ [endPos s.root]) :=
    chain_spine s.root hord s.root [] hspine hord hsub0
  have hhead : (inPaths s.root [] ++ [endPos s.root]).head?
      = some (beginPos s.root) :=
    spine_head s.root [] hspine
  obtain ⟨hlast, hget⟩ :=
    chain_iterate (incr s.root) (inPaths s.root []) (beginPos s.root)
      (endPos s.root) hchain hhead
  have hlen : (inPaths s.root []).length = (keys s.root).length :=
    inPaths_length s.root s.root [] hsub0
  have hn : s.size = (inPaths s.root []).length := by
    rw [hlen]
    exact hsz
  refine ⟨?_, ?_, ?_, ?_, ?_⟩
  · rw [hn]
    exact hlast
  · intro h0
    rw [h0] at hn
    have hA : inPaths s.root [] = [] := List.eq_nil_of_length_eq_zero hn.symm
    rw [hA] at hhead
    simp only [List.nil_append, List.head?_cons, Option.some.injEq] at hhead
    exact hhead.symm
  · have hmap := inPaths_keys s.root s.root [] hsub0
    rw [← hmap]
    apply List.ext_getElem
    · simp [hn]
    · intro i h1 h2
      simp only [List.getElem_map, List.getElem_range]
      have hi : i < (inPaths s.root []).length := by
        simpa using h2
      have := hget i hi
      simp only [List.get_eq_getElem] at this
      rw [this]
  · exact ordB_pairwise s.root hord
  · intro i hi
    have hi' : i < (inPaths s.root []).length := by
      rw [← hn]
      exact hi
    have hgi := hget i hi'
    obtain ⟨k', h', l', r', hsubq⟩ :=
      inPaths_real s.root s.root [] hsub0 ((inPaths s.root []).get ⟨i, hi'⟩)
        (List.get_mem _ _ _)
    rw [hgi]
    exact isEndAt_of_subAt _ _ _ _ _ _ _ hsubq

theorem claim_C4_witness :
    (incr ((SetModel.empty.insert 1).insert 2).root)^[
        ((SetModel.empty.insert 1).insert 2).size]
      (beginPos ((SetModel.empty.insert 1).insert 2).root) =
      endPos ((SetModel.empty.insert 1).insert 2).root ∧
      (((SetModel.empty.insert 1).insert 2).size = 0 →
        beginPos ((SetModel.empty.insert 1).insert 2).root =
          endPos ((SetModel.empty.insert 1).insert 2).root) ∧
      (List.range ((SetModel.empty.insert 1).insert 2).size).map
          (fun i => keyAt ((SetModel.empty.insert 1).insert 2).root
            ((incr ((SetModel.empty.insert 1).insert 2).root)^[i]
              (beginPos ((SetModel.empty.insert 1).insert 2).root)))
        = keys ((SetModel.empty.insert 1).insert 2).root ∧
      List.Pairwise (· < ·) (keys ((SetModel.empty.insert 1).insert 2).root) ∧
      ∀ i < ((SetModel.empty.insert 1).insert 2).size,
        isEndAt ((SetModel.empty.insert 1).insert 2).root
          ((incr ((SetModel.empty.insert 1).insert 2).root)^[i]
            (beginPos ((SetModel.empty.insert 1).insert 2).root)) = false :=
  claim_C4_iteration ((SetModel.empty.insert 1).insert 2)
    (Reachable.insert 2 (Reachable.insert 1 Reachable.empty))

end ClaimsB2

-- 
/-! ### The raw lower-bound descent -/

namespace RTree

theorem LowerBoundPos_nil (p pp : RPath) (k : Nat) :
    LowerBoundPos nil p pp k = pp := by
  rw [LowerBoundPos.eq_def]

theorem LowerBoundPos_real (key h : Nat) (l r : RTree) (p pp : RPath)
    (k : Nat) :
    LowerBoundPos (node key h l r false) p pp k =
      if k < key then LowerBoundPos l (false :: p) p k
      else if key < k then LowerBoundPos r (true :: p) p k
      else p := by
  rw [LowerBoundPos.eq_def]
  simp

theorem LowerBoundPos_sent_nil (key h : Nat) (r : RTree) (p pp : RPath)
    (k : Nat) :
    LowerBoundPos (node key h nil r true) p pp k = p := by
  rw [LowerBoundPos.eq_def]
  simp

theorem LowerBoundPos_sent_node (key h lk lh : Nat) (ll lr : RTree)
    (le : Bool) (r : RTree) (p pp : RPath) (k : Nat) :
    LowerBoundPos (node key h (node lk lh ll lr le) r true) p pp k =
      if ¬ lk < k then false :: p else p := by
  rw [LowerBoundPos.eq_def]
  simp

theorem sweep_succ (t : RTree) (k fuel : Nat) (p : RPath) :
    sweep t k (fuel + 1) p =
      if p ≠ endPos t ∧ keyAt t p < k then sweep t k fuel (incr t p)
      else p := rfl

/-- A subtree cannot be both sentinel-free and a spine. -/
theorem not_real_and_spine (t : RTree) :
    realB t = true → spineB t = true → False := by
  induction t with
  | nil => intro _ hs; simp at hs
  | node k h l r e ihl ihr =>
      intro hreal hs
      rw [realB_node] at hreal
      obtain ⟨he, -, hrr⟩ := hreal
      subst he
      rw [spineB_node_false] at hs
      exact ihr hrr hs.2

/-- What the raw `LowerBound` descent returns.  Starting at the root
of a well-formed subtree (with the parent position threaded as the
code does), the result is one of: the least vertex of the subtree
holding a key `≥ k`; a real vertex with a null right child holding a
key `< k` with no subtree key in `(key, k)` (the predecessor defect);
or the subtree's sentinel, when every subtree key is `< k`. -/
theorem LowerBoundPos_spec (root : RTree) (hord : ordB root = true) :
    ∀ (t : RTree) (p : RPath) (k : Nat),
      subAt root p = some t →
      (realB t = true ∨ spineB t = true) →
      ordB t = true → heightsOKB t = true → endLeftSmall t = true →
      t ≠ nil →
      (∃ mk mh ml mr, subAt root (LowerBoundPos t p p.tail k)
          = some (node mk mh ml mr false) ∧
          mk ∈ keys t ∧ k ≤ mk ∧ ∀ x ∈ keys t, k ≤ x → mk ≤ x) ∨
      (∃ mk mh ml, subAt root (LowerBoundPos t p p.tail k)
          = some (node mk mh ml nil false) ∧
          LowerBoundPos t p p.tail k ∈ inPaths t p ∧
          mk ∈ keys t ∧ mk < k ∧ ∀ x ∈ keys t, ¬(mk < x ∧ x < k)) ∨
      (spineB t = true ∧
          LowerBoundPos t p p.tail k = rightmostFrom t p ∧
          (∃ sk sh sl, subAt root (LowerBoundPos t p p.tail k)
            = some (node sk sh sl nil true)) ∧
          ∀ x ∈ keys t, x < k) := by
  intro t
  induction t with
  | nil => intro p k _ _ _ _ _ hne; exact absurd rfl hne
  | node key h l r e ihl ihr =>
      intro p k hsub hshape hordt hOK hels _
      rw [heightsOKB_node] at hOK
      obtain ⟨hOKl, hOKr, hh⟩ := hOK
      cases e with
      | true =>
          have hspine : spineB (node key h l r true) = true := by
            rcases hshape with hs | hs
            · rw [realB_node] at hs
              simp at hs
            · exact hs
          rw [spineB_node_true] at hspine
          obtain ⟨hreall, hrn⟩ := hspine
          subst hrn
          rw [ordB_node_true] at hordt
          obtain ⟨-, holl, -⟩ := hordt
          rw [endLeftSmall_node_true] at hels
          cases l with
          | nil =>
              refine Or.inr (Or.inr ⟨?_, ?_, ⟨key, h, nil, ?_⟩, ?_⟩)
              · rw [spineB_node_true]
                exact ⟨rfl, rfl⟩
              · rw [LowerBoundPos_sent_nil, rightmostFrom_nil_right]
              · rw [LowerBoundPos_sent_nil]
                exact hsub
              · intro x hx
                simp [keys_node] at hx
          | node lk lh ll lr le =>
              have hleaf : ll = nil ∧ lr = nil ∧ lh = 1 ∧ le = false := by
                rcases height_le_one (node lk lh ll lr le) hOKl
                  (by simpa using hels) with hc | ⟨a, b, hc⟩
                · cases hc
                · injection hc with h1 h2 h3 h4 h5
                  rw [realB_node] at hreall
                  exact ⟨h3.symm ▸ rfl, h4.symm ▸ rfl, h2.symm ▸ rfl,
                    hreall.1⟩
              obtain ⟨h1, h2, h3, h4⟩ := hleaf
              subst h1 h2 h3 h4
              rw [LowerBoundPos_sent_node]
              by_cases hc : ¬ lk < k
              · rw [if_pos hc]
                refine Or.inl ⟨lk, 1, nil, nil, ?_, ?_, by omega, ?_⟩
                · have := subAt_cons_node root p key h
                    (node lk 1 nil nil false) nil true hsub false
                  simpa using this
                · simp [keys_node]
                · intro x hx _
                  simp [keys_node] at hx
                  omega
              · rw [if_neg hc]
                refine Or.inr (Or.inr ⟨?_, ?_, ⟨key, h, _, hsub⟩, ?_⟩)
                · rw [spineB_node_true]
                  refine ⟨?_, rfl⟩
                  simp [realB]
                · rw [rightmostFrom_nil_right]
                · intro x hx
                  simp [keys_node] at hx
                  omega
      | false =>
          have hreall : realB l = true := by
            rcases hshape with hs | hs
            · rw [realB_node] at hs
              exact hs.2.1
            · rw [spineB_node_false] at hs
              exact hs.1
          have hshaper : realB r = true ∨ spineB r = true := by
            rcases hshape with hs | hs
            · rw [realB_node] at hs
              exact Or.inl hs.2.2
            · rw [spineB_node_false] at hs
              exact Or.inr hs.2
          have helsr : endLeftSmall r = true := by
            rcases hshape with hs | hs
            · rw [realB_node] at hs
              exact endLeftSmall_of_realB r hs.2.2
            · rw [endLeftSmall_node_false] at hels
              exact hels
          rw [ordB_node_false] at hordt
          obtain ⟨hol, hor, hbl, hbr⟩ := hordt
          have helsl : endLeftSmall l = true := endLeftSmall_of_realB l hreall
          rw [LowerBoundPos_real]
          by_cases h1 : k < key
          · rw [if_pos h1]
            cases l with
            | nil =>
                rw [LowerBoundPos_nil]
                refine Or.inl ⟨key, h, nil, r, hsub, ?_, by omega, ?_⟩
                · rw [mem_keys_node]
                  right; left; rfl
                · intro x hx _
                  rw [mem_keys_node] at hx
                  rcases hx with hx | hx | hx
                  · simp at hx
                  · omega
                  · exact Nat.le_of_lt (hbr x hx)
            | node lk lh ll lr le =>
                have hsubl : subAt root (false :: p)
                    = some (node lk lh ll lr le) := by
                  simpa using subAt_cons_node root p key h
                    (node lk lh ll lr le) r false hsub false
                have hrec := ihl (false :: p) k hsubl (Or.inl hreall) hol
                  hOKl helsl (by simp)
                simp only [List.tail_cons] at hrec
                rcases hrec with ⟨mk, mh, ml, mr, hres, hmem, hmk, hmin⟩ |
                  ⟨mk, mh, ml, hres, hmemP, hmem, hmk, hgap⟩ |
                  ⟨hsl, -, -, -⟩
                · refine Or.inl ⟨mk, mh, ml, mr, hres, ?_, hmk, ?_⟩
                  · rw [mem_keys_node]
                    left; exact hmem
                  · intro x hx hkx
                    rw [mem_keys_node] at hx
                    rcases hx with hx | hx | hx
                    · exact hmin x hx hkx
                    · subst hx
                      have := hbl mk hmem
                      omega
                    · have h2 := hbr x hx
                      have h3 := hbl mk hmem
                      omega
                · refine Or.inr (Or.inl ⟨mk, mh, ml, hres, ?_, ?_, hmk, ?_⟩)
                  · rw [inPaths_node]
                    simp only [List.mem_append]
                    left; left; exact hmemP
                  · rw [mem_keys_node]
                    left; exact hmem
                  · intro x hx
                    rw [mem_keys_node] at hx
                    rcases hx with hx | hx | hx
                    · exact hgap x hx
                    · subst hx
                      intro hco
                      omega
                    · intro hco
                      have := hbr x hx
                      omega
                · exact absurd hsl (fun hs => not_real_and_spine _ hreall hs)
          · rw [if_neg h1]
            by_cases h2 : key < k
            · rw [if_pos h2]
              cases r with
              | nil =>
                  rw [LowerBoundPos_nil]
                  refine Or.inr (Or.inl ⟨key, h, l, hsub, ?_, ?_, h2, ?_⟩)
                  · rw [inPaths_node]
                    simp
                  · rw [mem_keys_node]
                    right; left; rfl
                  · intro x hx
                    rw [mem_keys_node] at hx
                    rcases hx with hx | hx | hx
                    · have := hbl x hx
                      omega
                    · omega
                    · simp at hx
              | node rk rh rl rr re =>
                  have hsubr : subAt root (true :: p)
                      = some (node rk rh rl rr re) := by
                    simpa using subAt_cons_node root p key h l
                      (node rk rh rl rr re) false hsub true
                  have hrec := ihr (true :: p) k hsubr hshaper hor
                    hOKr helsr (by simp)
                  simp only [List.tail_cons] at hrec
                  rcases hrec with ⟨mk, mh, ml, mr, hres, hmem, hmk, hmin⟩ |
                    ⟨mk, mh, ml, hres, hmemP, hmem, hmk, hgap⟩ |
                    ⟨hsr, hresr, hsent, hall⟩
                  · refine Or.inl ⟨mk, mh, ml, mr, hres, ?_, hmk, ?_⟩
                    · rw [mem_keys_node]
                      right; right; exact hmem
                    · intro x hx hkx
                      rw [mem_keys_node] at hx
                      rcases hx with hx | hx | hx
                      · have := hbl x hx
                        omega
                      · omega
                      · exact hmin x hx hkx
                  · refine Or.inr (Or.inl ⟨mk, mh, ml, hres, ?_, ?_, hmk, ?_⟩)
                    · rw [inPaths_node]
                      simp only [List.mem_append]
                      right; exact hmemP
                    · rw [mem_keys_node]
                      right; right; exact hmem
                    · intro x hx
                      rw [mem_keys_node] at hx
                      have hmkr := hbr mk hmem
                      rcases hx with hx | hx | hx
                      · intro hco
                        have := hbl x hx
                        omega
                      · intro hco
                        omega
                      · exact hgap x hx
                  · refine Or.inr (Or.inr ⟨?_, ?_, hsent, ?_⟩)
                    · rw [spineB_node_false]
                      exact ⟨hreall, hsr⟩
                    · rw [hresr, rightmostFrom_node]
                    · intro x hx
                      rw [mem_keys_node] at hx
                      rcases hx with hx | hx | hx
                      · have := hbl x hx
                        omega
                      · omega
                      · exact hall x hx
            · rw [if_neg h2]
              refine Or.inl ⟨key, h, l, r, hsub, ?_, by omega, ?_⟩
              · rw [mem_keys_node]
                right; left; rfl
              · intro x hx hkx
                rw [mem_keys_node] at hx
                rcases hx with hx | hx | hx
                · have := hbl x hx
                  omega
                · omega
                · exact Nat.le_of_lt (hbr x hx)

end RTree

-- 
/-! ### The public lower bound -/

namespace RTree

/-- Behaviour of the public `lower_bound` on a well-formed tree: the
corrective sweep never needs more than one iteration, the result is
the least key `≥ k` (or the end position when there is none), and the
raw descent's answer falls into one of three kinds. -/
theorem lower_bound_root (root : RTree) (hspine : spineB root = true)
    (hord : ordB root = true) (hOK : heightsOKB root = true)
    (hels : endLeftSmall root = true) (k : Nat) (res fin : RPath)
    (hresd : res = LowerBoundPos root [] [] k)
    (hfind : fin = sweep root k (countNodes root + 1) res) :
    fin = sweep root k 1 res ∧
      ((∀ x ∈ keys root, x < k) → fin = endPos root) ∧
      (∀ x ∈ keys root, k ≤ x →
        isEndAt root fin = false ∧ k ≤ keyAt root fin ∧
        keyAt root fin ∈ keys root ∧ keyAt root fin ≤ x) ∧
      ((res = endPos root ∧ ∀ x ∈ keys root, x < k) ∨
        (isEndAt root res = false ∧ k ≤ keyAt root res ∧
          keyAt root res ∈ keys root ∧
          ∀ x ∈ keys root, k ≤ x → keyAt root res ≤ x) ∨
        (isEndAt root res = false ∧ keyAt root res < k ∧
          keyAt root res ∈ keys root ∧
          ∀ x ∈ keys root, ¬(keyAt root res < x ∧ x < k))) := by
  have hne : root ≠ nil := by
    intro h0
    rw [h0] at hspine
    simp at hspine
  have hsub0 : subAt root [] = some root := by
    cases hR : root <;> rfl
  have hspec := LowerBoundPos_spec root hord root [] k hsub0
    (Or.inr hspine) hord hOK hels hne
  simp only [List.tail_nil] at hspec
  rw [← hresd] at hspec
  obtain ⟨ek, eh, el, hsubEnd, -⟩ := spine_end root hspine hord hOK hels
  have hcpos : ∃ c, countNodes root = c + 1 := by
    cases hR : root with
    | nil => exact absurd hR hne
    | node a b cL cR dE => exact ⟨countNodes cL + countNodes cR, rfl⟩
  obtain ⟨c, hc⟩ := hcpos
  rcases hspec with ⟨mk, mh, ml, mr, hres, hmem, hmk, hmin⟩ |
    ⟨mk, mh, ml, hres, hmemP, hmem, hmk, hgap⟩ |
    ⟨-, hresE, ⟨sk, sh, sl, hsubres⟩, hall⟩
  · -- the raw descent already found the least key ≥ k
    have hkey : keyAt root res = mk :=
      keyAt_of_subAt _ _ _ _ _ _ _ hres
    have hie : isEndAt root res = false :=
      isEndAt_of_subAt _ _ _ _ _ _ _ hres
    have hstop : ∀ fuel, sweep root k (fuel + 1) res = res := by
      intro fuel
      have hcond : ¬(res ≠ endPos root ∧ keyAt root res < k) := by
        rw [hkey]
        intro hco
        omega
      rw [sweep_succ, if_neg hcond]
    have hfin1 : fin = res := by
      rw [hfind, hc, hstop (c + 1)]
    refine ⟨?_, ?_, ?_, ?_⟩
    · rw [hfin1, hstop 0]
    · intro hall0
      have := hall0 mk hmem
      omega
    · intro x hx hkx
      rw [hfin1, hkey]
      exact ⟨hie, hmk, hkey ▸ hmem, hmin x hx hkx⟩
    · refine Or.inr (Or.inl ⟨hie, ?_, ?_, ?_⟩)
      · rw [hkey]; exact hmk
      · rw [hkey]; exact hmem
      · rw [hkey]; exact hmin
  · -- the raw descent stopped on the predecessor: one sweep step
    have hkey : keyAt root res = mk :=
      keyAt_of_subAt _ _ _ _ _ _ _ hres
    have hie : isEndAt root res = false :=
      isEndAt_of_subAt _ _ _ _ _ _ _ hres
    have hneq : res ≠ endPos root := by
      intro heq
      rw [heq, hsubEnd] at hres
      simp at hres
    have hchain : List.Chain' (fun a b => incr root a = b)
        (inPaths root [] ++ [endPos root]) :=
      chain_spine root hord root [] hspine hord hsub0
    have hhead : (inPaths root [] ++ [endPos root]).head?
        = some (beginPos root) :=
      spine_head root [] hspine
    obtain ⟨hlast, hget⟩ :=
      chain_iterate (incr root) (inPaths root []) (beginPos root)
        (endPos root) hchain hhead
    have hmap := inPaths_keys root root [] hsub0
    have hpw := ordB_pairwise root hord
    rw [← hmap] at hpw
    have hpw' := List.pairwise_map.mp hpw
    have hpwGet := List.pairwise_iff_get.mp hpw'
    obtain ⟨⟨i, hiL⟩, hgeti⟩ := List.mem_iff_get.mp hmemP
    have hiter : (incr root)^[i] (beginPos root) = res :=
      (hget i hiL).trans hgeti
    have hsucc : incr root res = (incr root)^[i + 1] (beginPos root) := by
      rw [Function.iterate_succ_apply', hiter]
    by_cases hin : i + 1 < (inPaths root []).length
    · -- a strict in-order successor exists
      have hincr : incr root res = (inPaths root []).get ⟨i + 1, hin⟩ := by
        rw [hsucc, hget (i + 1) hin]
      have hsmem : (inPaths root []).get ⟨i + 1, hin⟩ ∈ inPaths root [] :=
        (inPaths root []).get_mem (i + 1) hin
      obtain ⟨k2, h2, l2, r2, hsub2⟩ :=
        inPaths_real root root [] hsub0 _ hsmem
      have hskey_lt : mk <
          keyAt root ((inPaths root []).get ⟨i + 1, hin⟩) := by
        have hcmp := hpwGet ⟨i, hiL⟩ ⟨i + 1, hin⟩
          (by exact Fin.mk_lt_mk.mpr (by omega))
        rw [hgeti, hkey] at hcmp
        exact hcmp
      have hskeymem : keyAt root ((inPaths root []).get ⟨i + 1, hin⟩)
          ∈ keys root := by
        rw [← hmap]
        exact List.mem_map_of_mem _ hsmem
      have hsk_ge : k ≤ keyAt root ((inPaths root []).get ⟨i + 1, hin⟩) := by
        by_contra hlt
        exact hgap _ hskeymem ⟨hskey_lt, by omega⟩
      have hsmin : ∀ x ∈ keys root, k ≤ x →
          keyAt root ((inPaths root []).get ⟨i + 1, hin⟩) ≤ x := by
        intro x hx hkx
        obtain ⟨q, hqmem, hqx⟩ := List.mem_map.mp (by rw [← hmap] at hx; exact hx)
        have hqx2 : keyAt root q = x := hqx
        obtain ⟨⟨j, hj⟩, hqget⟩ := List.mem_iff_get.mp hqmem
        rcases lt_trichotomy j (i + 1) with hji | hji | hji
        · exfalso
          have hjle : j ≤ i := by omega
          rcases Nat.lt_or_ge j i with hji2 | hji2
          · have hcmp := hpwGet ⟨j, hj⟩ ⟨i, hiL⟩ (Fin.mk_lt_mk.mpr hji2)
            rw [hqget, hgeti, hkey, hqx2] at hcmp
            omega
          · have hj_eq : j = i := by omega
            subst hj_eq
            have hqres : q = res := by
              rw [← hqget, ← hgeti]
            rw [hqres, hkey] at hqx2
            omega
        · subst hji
          rw [← hqx2, ← hqget]
        · have hcmp := hpwGet ⟨i + 1, hin⟩ ⟨j, hj⟩ (Fin.mk_lt_mk.mpr hji)
          rw [hqget, hqx2] at hcmp
          omega
      have hstep1 : sweep root k (c + 1 + 1) res
          = sweep root k (c + 1) (incr root res) := by
        rw [sweep_succ, if_pos ⟨hneq, by rw [hkey]; omega⟩]
      have hstep2 : sweep root k (c + 1)
          ((inPaths root []).get ⟨i + 1, hin⟩)
          = (inPaths root []).get ⟨i + 1, hin⟩ := by
        have hcond : ¬((inPaths root []).get ⟨i + 1, hin⟩ ≠ endPos root ∧
            keyAt root ((inPaths root []).get ⟨i + 1, hin⟩) < k) := by
          intro hco
          have := hco.2
          omega
        rw [sweep_succ, if_neg hcond]
      have hfin1 : fin = (inPaths root []).get ⟨i + 1, hin⟩ := by
        rw [hfind, hc, hstep1, hincr, hstep2]
      have hsweep1 : sweep root k 1 res
          = (inPaths root []).get ⟨i + 1, hin⟩ := by
        rw [sweep_succ, if_pos ⟨hneq, by rw [hkey]; omega⟩]
        rw [hincr]
        rfl
      refine ⟨?_, ?_, ?_, ?_⟩
      · rw [hfin1, hsweep1]
      · intro hall0
        have := hall0 _ hskeymem
        omega
      · intro x hx hkx
        rw [hfin1]
        exact ⟨isEndAt_of_subAt _ _ _ _ _ _ _ hsub2, hsk_ge, hskeymem,
          hsmin x hx hkx⟩
      · refine Or.inr (Or.inr ⟨hie, ?_, ?_, ?_⟩)
        · rw [hkey]; exact hmk
        · rw [hkey]; exact hmem
        · rw [hkey]; exact hgap
    · -- the predecessor was the last vertex: the sweep reaches the end
      have hieq : i + 1 = (inPaths root []).length := by omega
      have hincrEnd : incr root res = endPos root := by
        rw [hsucc, hieq]
        exact hlast
      have hall : ∀ x ∈ keys root, x < k := by
        intro x hx
        obtain ⟨q, hqmem, hqx⟩ := List.mem_map.mp (by rw [← hmap] at hx; exact hx)
        have hqx2 : keyAt root q = x := hqx
        obtain ⟨⟨j, hj⟩, hqget⟩ := List.mem_iff_get.mp hqmem
        have hjle : j ≤ i := by omega
        rcases Nat.lt_or_ge j i with hji2 | hji2
        · have hcmp := hpwGet ⟨j, hj⟩ ⟨i, hiL⟩ (Fin.mk_lt_mk.mpr hji2)
          rw [hqget, hgeti, hkey, hqx2] at hcmp
          omega
        · have hj_eq : j = i := by omega
          subst hj_eq
          have hqres : q = res := by
            rw [← hqget, ← hgeti]
          rw [hqres, hkey] at hqx2
          omega
      have hstep1 : sweep root k (c + 1 + 1) res
          = sweep root k (c + 1) (incr root res) := by
        rw [sweep_succ, if_pos ⟨hneq, by rw [hkey]; omega⟩]
      have hstep2 : sweep root k (c + 1) (endPos root) = endPos root := by
        rw [sweep_succ, if_neg (fun hco => hco.1 rfl)]
      have hfin1 : fin = endPos root := by
        rw [hfind, hc, hstep1, hincrEnd, hstep2]
      have hsweep1 : sweep root k 1 res = endPos root := by
        rw [sweep_succ, if_pos ⟨hneq, by rw [hkey]; omega⟩]
        rw [hincrEnd]
        rfl
      refine ⟨?_, ?_, ?_, ?_⟩
      · rw [hfin1, hsweep1]
      · intro _
        exact hfin1
      · intro x hx hkx
        have := hall x hx
        omega
      · refine Or.inr (Or.inr ⟨hie, ?_, ?_, ?_⟩)
        · rw [hkey]; exact hmk
        · rw [hkey]; exact hmem
        · rw [hkey]; exact hgap
  · -- the raw descent reached the sentinel: everything is < k
    have hresE' : res = endPos root := hresE
    have hstop : ∀ fuel, sweep root k (fuel + 1) res = res := by
      intro fuel
      rw [sweep_succ, if_neg (fun hco => hco.1 hresE')]
    have hfin1 : fin = res := by
      rw [hfind, hc, hstop (c + 1)]
    refine ⟨?_, ?_, ?_, ?_⟩
    · rw [hfin1, hstop 0]
    · intro _
      rw [hfin1]
      exact hresE'
    · intro x hx hkx
      have := hall x hx
      omega
    · exact Or.inl ⟨hresE', hall⟩

end RTree

section ClaimsC

open RTree SetModel

/-- C3: `lower_bound k` returns the position of the least stored key
that is not less than `k`; when every stored key is less than `k` (in
particular on the empty set) it returns the end position.  A non-end
result therefore never dereferences to a value less than `k`. -/
theorem claim_C3_lower_bound (s : SetModel) (hr : Reachable s) (k : Nat) :
    ((∀ x ∈ keys s.root, x < k) → s.lower_bound k = endPos s.root) ∧
      ∀ x ∈ keys s.root, k ≤ x →
        isEndAt s.root (s.lower_bound k) = false ∧
        k ≤ keyAt s.root (s.lower_bound k) ∧
        keyAt s.root (s.lower_bound k) ∈ keys s.root ∧
        keyAt s.root (s.lower_bound k) ≤ x := by
  obtain ⟨hInv, -⟩ := Reachable_Inv hr
  rw [Inv_iff] at hInv
  obtain ⟨hord, hspine, hOK, hbal, hels⟩ := hInv
  have hcore := lower_bound_root s.root hspine hord hOK hels k
    (LowerBoundPos s.root [] [] k) (s.lower_bound k) rfl rfl
  exact ⟨hcore.2.1, hcore.2.2.1⟩

theorem claim_C3_witness :
    ((∀ x ∈ keys (SetModel.empty.insert 1).root, x < 1) →
        (SetModel.empty.insert 1).lower_bound 1 =
          endPos (SetModel.empty.insert 1).root) ∧
      ∀ x ∈ keys (SetModel.empty.insert 1).root, 1 ≤ x →
        isEndAt (SetModel.empty.insert 1).root
            ((SetModel.empty.insert 1).lower_bound 1) = false ∧
        1 ≤ keyAt (SetModel.empty.insert 1).root
            ((SetModel.empty.insert 1).lower_bound 1) ∧
        keyAt (SetModel.empty.insert 1).root
            ((SetModel.empty.insert 1).lower_bound 1) ∈
          keys (SetModel.empty.insert 1).root ∧
        keyAt (SetModel.empty.insert 1).root
            ((SetModel.empty.insert 1).lower_bound 1) ≤ x :=
  claim_C3_lower_bound (SetModel.empty.insert 1)
    (Reachable.insert 1 Reachable.empty) 1

/-- C8 (counterexample): in the reachable state `{1, 3}` with query
key 2 the raw descent returns the real vertex holding key 1 — a
non-end node whose key IS less than the query — and the public
`lower_bound` (which answers key 3) differs from it, so the sweep
executes an iteration. -/
theorem claim_C8_counterexample :
    Reachable ((SetModel.empty.insert 1).insert 3) ∧
      isEndAt ((SetModel.empty.insert 1).insert 3).root
        (LowerBoundPos ((SetModel.empty.insert 1).insert 3).root [] [] 2)
        = false ∧
      keyAt ((SetModel.empty.insert 1).insert 3).root
        (LowerBoundPos ((SetModel.empty.insert 1).insert 3).root [] [] 2)
        < 2 ∧
      ((SetModel.empty.insert 1).insert 3).lower_bound 2 ≠
        LowerBoundPos ((SetModel.empty.insert 1).insert 3).root [] [] 2 := by
  have hroot : ((SetModel.empty.insert 1).insert 3).root
      = node 3 2 (node 1 1 nil nil false) (node 0 1 nil nil true) false := by
    decide
  have hraw : LowerBoundPos ((SetModel.empty.insert 1).insert 3).root [] [] 2
      = [false] := by
    rw [hroot]
    rw [LowerBoundPos_real, if_pos (by norm_num)]
    rw [LowerBoundPos_real, if_neg (by norm_num), if_pos (by norm_num)]
    rw [LowerBoundPos_nil]
  have hlb : ((SetModel.empty.insert 1).insert 3).lower_bound 2
      = sweep ((SetModel.empty.insert 1).insert 3).root 2
          (countNodes ((SetModel.empty.insert 1).insert 3).root + 1)
          (LowerBoundPos ((SetModel.empty.insert 1).insert 3).root [] [] 2) :=
    rfl
  refine ⟨Reachable.insert 3 (Reachable.insert 1 Reachable.empty),
    ?_, ?_, ?_⟩
  · rw [hraw, hroot]
    decide
  · rw [hraw, hroot]
    decide
  · rw [hlb, hraw, hroot]
    decide

/-- C8 (amended): the raw `LowerBound` descent may stop on the
greatest key below `k` (a real vertex with a null right child), so
its non-end result is not always `≥ k`; however it is never more than
one in-order step short: the public sweep needs at most one
iteration, and the raw result is always one of — the end position
with every key `< k`; the least key `≥ k`; or a real vertex holding a
key `< k` with no stored key in the open interval `(key, k)`. -/
theorem claim_C8_raw_descent (s : SetModel) (hr : Reachable s) (k : Nat) :
    s.lower_bound k =
        sweep s.root k 1 (LowerBoundPos s.root [] [] k) ∧
      ((LowerBoundPos s.root [] [] k = endPos s.root ∧
          ∀ x ∈ keys s.root, x < k) ∨
        (isEndAt s.root (LowerBoundPos s.root [] [] k) = false ∧
          k ≤ keyAt s.root (LowerBoundPos s.root [] [] k) ∧
          keyAt s.root (LowerBoundPos s.root [] [] k) ∈ keys s.root ∧
          ∀ x ∈ keys s.root, k ≤ x →
            keyAt s.root (LowerBoundPos s.root [] [] k) ≤ x) ∨
        (isEndAt s.root (LowerBoundPos s.root [] [] k) = false ∧
          keyAt s.root (LowerBoundPos s.root [] [] k) < k ∧
          keyAt s.root (LowerBoundPos s.root [] [] k) ∈ keys s.root ∧
          ∀ x ∈ keys s.root,
            ¬(keyAt s.root (LowerBoundPos s.root [] [] k) < x ∧ x < k))) := by
  obtain ⟨hInv, -⟩ := Reachable_Inv hr
  rw [Inv_iff] at hInv
  obtain ⟨hord, hspine, hOK, hbal, hels⟩ := hInv
  have hcore := lower_bound_root s.root hspine hord hOK hels k
    (LowerBoundPos s.root [] [] k) (s.lower_bound k) rfl rfl
  exact ⟨hcore.1, hcore.2.2.2⟩

theorem claim_C8_witness :
    ((SetModel.empty.insert 1).insert 3).lower_bound 2 =
        sweep ((SetModel.empty.insert 1).insert 3).root 2 1
          (LowerBoundPos ((SetModel.empty.insert 1).insert 3).root [] [] 2) ∧
      ((LowerBoundPos ((SetModel.empty.insert 1).insert 3).root [] [] 2 =
            endPos ((SetModel.empty.insert 1).insert 3).root ∧
          ∀ x ∈ keys ((SetModel.empty.insert 1).insert 3).root, x < 2) ∨
        (isEndAt ((SetModel.empty.insert 1).insert 3).root
            (LowerBoundPos ((SetModel.empty.insert 1).insert 3).root [] [] 2)
            = false ∧
          2 ≤ keyAt ((SetModel.empty.insert 1).insert 3).root
              (LowerBoundPos ((SetModel.empty.insert 1).insert 3).root [] [] 2) ∧
          keyAt ((SetModel.empty.insert 1).insert 3).root
              (LowerBoundPos ((SetModel.empty.insert 1).insert 3).root [] [] 2)
            ∈ keys ((SetModel.empty.insert 1).insert 3).root ∧
          ∀ x ∈ keys ((SetModel.empty.insert 1).insert 3).root, 2 ≤ x →
            keyAt ((SetModel.empty.insert 1).insert 3).root
              (LowerBoundPos ((SetModel.empty.insert 1).insert 3).root [] [] 2)
              ≤ x) ∨
        (isEndAt ((SetModel.empty.insert 1).insert 3).root
            (LowerBoundPos ((SetModel.empty.insert 1).insert 3).root [] [] 2)
            = false ∧
          keyAt ((SetModel.empty.insert 1).insert 3).root
              (LowerBoundPos ((SetModel.empty.insert 1).insert 3).root [] [] 2)
            < 2 ∧
          keyAt ((SetModel.empty.insert 1).insert 3).root
              (LowerBoundPos ((SetModel.empty.insert 1).insert 3).root [] [] 2)
            ∈ keys ((SetModel.empty.insert 1).insert 3).root ∧
          ∀ x ∈ keys ((SetModel.empty.insert 1).insert 3).root,
            ¬(keyAt ((SetModel.empty.insert 1).insert 3).root
                (LowerBoundPos ((SetModel.empty.insert 1).insert 3).root [] [] 2)
              < x ∧ x < 2))) :=
  claim_C8_raw_descent ((SetModel.empty.insert 1).insert 3)
    (Reachable.insert 3 (Reachable.insert 1 Reachable.empty)) 2

end ClaimsC


end AVLSet
